import Mathlib

/-!
Verification of the crypto-accounts library (Go) against its specification.

This file shallowly embeds the relevant parts of the source tree:
byte strings are modeled as `List Nat` (each element a byte value < 256),
Go strings as Lean `String`/`List Char`, `big.Int` values as `Int`/`Nat`,
machine integers as `Nat` with explicit reduction modulo 2^w, and fallible
Go functions as `Except`/`Option` values.  Stdlib primitives used by the
source (SHA-256, SHA-512, HMAC, RIPEMD-160, Keccak, BLAKE2b, `strconv`,
`strings`) are implemented here executably, following their public
specifications, exactly as the Go standard library does.
-/

set_option maxRecDepth 100000

/-! ## Bit and byte utilities -/

/-- Bitwise XOR on machine words (operands already fit their width). -/
def xor64 (a b : Nat) : Nat := a ^^^ b

/-- Bitwise AND on machine words. -/
def and64 (a b : Nat) : Nat := a &&& b

/-- Bitwise OR on machine words. -/
def or64 (a b : Nat) : Nat := a ||| b

/-- Truncation to 32 bits, i.e. reduction mod 2^32 (Go `uint32` arithmetic). -/
def w32 (x : Nat) : Nat := x % 4294967296

/-- Truncation to 64 bits, i.e. reduction mod 2^64 (Go `uint64` arithmetic). -/
def w64 (x : Nat) : Nat := x % 18446744073709551616

/-- Bitwise complement on a 32-bit word. -/
def not32 (x : Nat) : Nat := 4294967295 - w32 x

/-- Bitwise complement on a 64-bit word. -/
def not64 (x : Nat) : Nat := 18446744073709551615 - w64 x

/-- Right rotation of a 32-bit word by n (0 < n < 32). -/
def rotr32 (x n : Nat) : Nat := (x % 2 ^ n) * 2 ^ (32 - n) + x / 2 ^ n

/-- Right rotation of a 64-bit word by n (0 < n < 64). -/
def rotr64 (x n : Nat) : Nat := (x % 2 ^ n) * 2 ^ (64 - n) + x / 2 ^ n

/-- Left rotation of a 64-bit word by n (0 ≤ n < 64). -/
def rotl64 (x n : Nat) : Nat := rotr64 x (64 - n)

/-- Left rotation of a 32-bit word by n. -/
def rotl32 (x n : Nat) : Nat := rotr32 x (32 - n)

/-- Right shift (logical). -/
def shr (x n : Nat) : Nat := x / 2 ^ n

/-- Big-endian 4-byte serialization of a 32-bit value (Go `binary.BigEndian.PutUint32`). -/
def ser32BE (n : Nat) : List Nat :=
  [n / 16777216 % 256, n / 65536 % 256, n / 256 % 256, n % 256]

/-- Big-endian read of 4 bytes as a 32-bit value (Go `binary.BigEndian.Uint32`). -/
def beUint32 (bs : List Nat) : Nat :=
  bs.getD 0 0 * 16777216 + bs.getD 1 0 * 65536 + bs.getD 2 0 * 256 + bs.getD 3 0

/-- Big-endian 8-byte serialization of a 64-bit value. -/
def ser64BE (n : Nat) : List Nat :=
  [n / 2 ^ 56 % 256, n / 2 ^ 48 % 256, n / 2 ^ 40 % 256, n / 2 ^ 32 % 256,
   n / 2 ^ 24 % 256, n / 2 ^ 16 % 256, n / 2 ^ 8 % 256, n % 256]

/-- Little-endian 8-byte serialization of a 64-bit value. -/
def ser64LE (n : Nat) : List Nat := (ser64BE n).reverse

/-- Little-endian read of a byte list as a natural number. -/
def leNat (bs : List Nat) : Nat := bs.foldr (fun b acc => acc * 256 + b) 0

/-- Big-endian interpretation of a byte string as a natural number
(Go `new(big.Int).SetBytes`). -/
def natOfBytes (bs : List Nat) : Nat := bs.foldl (fun acc b => acc * 256 + b) 0

/-- Minimal big-endian byte representation of a natural number, with explicit
fuel for structural recursion (Go `big.Int.Bytes`: empty for zero, no leading
zero byte otherwise). -/
def natToBytesAux : Nat → Nat → List Nat
  | 0, _ => []
  | fuel + 1, n => if n = 0 then [] else natToBytesAux fuel (n / 256) ++ [n % 256]

/-- Minimal big-endian byte representation of a natural number. -/
def natToBytesBE (n : Nat) : List Nat := natToBytesAux n n

/-- Left-pad a byte list with zeros to the given length (keeps longer lists intact). -/
def padLeft (len : Nat) (bs : List Nat) : List Nat :=
  List.replicate (len - bs.length) 0 ++ bs

/-- ASCII bytes of a Lean string (all strings in this code base are ASCII). -/
def strBytes (s : String) : List Nat := s.toList.map Char.toNat

/-! ## SHA-256 (Go `crypto/sha256`, per FIPS 180-4) -/

/-- SHA-256 round constants. -/
def sha256K : List Nat :=
  [1116352408, 1899447441, 3049323471, 3921009573, 961987163, 1508970993, 2453635748, 2870763221,
   3624381080, 310598401, 607225278, 1426881987, 1925078388, 2162078206, 2614888103, 3248222580,
   3835390401, 4022224774, 264347078, 604807628, 770255983, 1249150122, 1555081692, 1996064986,
   2554220882, 2821834349, 2952996808, 3210313671, 3336571891, 3584528711, 113926993, 338241895,
   666307205, 773529912, 1294757372, 1396182291, 1695183700, 1986661051, 2177026350, 2456956037,
   2730485921, 2820302411, 3259730800, 3345764771, 3516065817, 3600352804, 4094571909, 275423344,
   430227734, 506948616, 659060556, 883997877, 958139571, 1322822218, 1537002063, 1747873779,
   1955562222, 2024104815, 2227730452, 2361852424, 2428436474, 2756734187, 3204031479, 3329325298]

/-- SHA-256 initial hash state. -/
def sha256H0 : List Nat :=
  [1779033703, 3144134277, 1013904242, 2773480762, 1359893119, 2600822924, 528734635, 1541459225]

/-- Merkle–Damgård padding for a 64-byte-block hash with 8-byte big-endian
bit-length field (shared by SHA-256). -/
def mdPad64 (msg : List Nat) : List Nat :=
  msg ++ [128] ++ List.replicate ((64 - (msg.length + 9) % 64) % 64) 0
      ++ ser64BE (msg.length * 8)

/-- Split a big-endian byte list into 32-bit words (4 bytes each). -/
def bytesToWords32 : List Nat → List Nat
  | b0 :: b1 :: b2 :: b3 :: rest =>
      (b0 * 16777216 + b1 * 65536 + b2 * 256 + b3) :: bytesToWords32 rest
  | _ => []

/-- Chunk a list into sublists of the given positive size, with fuel. -/
def chunksAux {α : Type} : Nat → Nat → List α → List (List α)
  | 0, _, _ => []
  | _, _, [] => []
  | fuel + 1, k, l => l.take k :: chunksAux fuel k (l.drop k)

/-- Chunk a list into sublists of the given positive size. -/
def chunks {α : Type} (k : Nat) (l : List α) : List (List α) := chunksAux l.length k l

/-- SHA-256 small sigma 0. -/
def sha256s0 (x : Nat) : Nat := xor64 (xor64 (rotr32 x 7) (rotr32 x 18)) (shr x 3)

/-- SHA-256 small sigma 1. -/
def sha256s1 (x : Nat) : Nat := xor64 (xor64 (rotr32 x 17) (rotr32 x 19)) (shr x 10)

/-- SHA-256 big sigma 0. -/
def sha256S0 (x : Nat) : Nat := xor64 (xor64 (rotr32 x 2) (rotr32 x 13)) (rotr32 x 22)

/-- SHA-256 big sigma 1. -/
def sha256S1 (x : Nat) : Nat := xor64 (xor64 (rotr32 x 6) (rotr32 x 11)) (rotr32 x 25)

/-- SHA-256 message schedule: extend 16 words to 64 words. -/
def sha256Extend (ws : List Nat) : List Nat :=
  (List.range 48).foldl
    (fun acc _ =>
      let i := acc.length
      acc ++ [w32 (sha256s1 (acc.getD (i - 2) 0) + acc.getD (i - 7) 0 +
                   sha256s0 (acc.getD (i - 15) 0) + acc.getD (i - 16) 0)])
    ws

/-- SHA-256 compression of one 64-word schedule into the 8-word state. -/
def sha256Compress (state : List Nat) (sched : List Nat) : List Nat :=
  let rec go : List Nat → List Nat → List Nat → List Nat
    | _, _, [] => []
    | _, [], s => s
    | [], _, s => s
    | k :: ks, wv :: wvs, [a, b, c, d, e, f, g, h] =>
        let t1 := w32 (h + sha256S1 e + xor64 (and64 e f) (and64 (not32 e) g) + k + wv)
        let t2 := w32 (sha256S0 a + xor64 (xor64 (and64 a b) (and64 a c)) (and64 b c))
        go ks wvs [w32 (t1 + t2), a, b, c, w32 (d + t1), e, f, g]
    | _, _, s => s
  let out := go sha256K sched state
  List.zipWith (fun x y => w32 (x + y)) state out

/-- SHA-256 digest (32 bytes) of a byte string. -/
def sha256 (msg : List Nat) : List Nat :=
  let blocks := chunks 16 (bytesToWords32 (mdPad64 msg))
  let final := blocks.foldl (fun st blk => sha256Compress st (sha256Extend blk)) sha256H0
  final.flatMap ser32BE

/-- Double SHA-256 (source `hash.DoubleSHA256`). -/
def DoubleSHA256 (data : List Nat) : List Nat := sha256 (sha256 data)

/-- First four bytes of the double SHA-256 (source `Checksum4` / `hash.Checksum`). -/
def Checksum4 (data : List Nat) : List Nat := (DoubleSHA256 data).take 4

/-! ## SHA-512 (Go `crypto/sha512`, per FIPS 180-4) -/

/-- SHA-512 round constants (80 64-bit words). -/
def sha512K : List Nat :=
  [4794697086780616226, 8158064640168781261, 13096744586834688815, 16840607885511220156,
   4131703408338449720, 6480981068601479193, 10538285296894168987, 12329834152419229976,
   15566598209576043074, 1334009975649890238, 2608012711638119052, 6128411473006802146,
   8268148722764581231, 9286055187155687089, 11230858885718282805, 13951009754708518548,
   16472876342353939154, 17275323862435702243, 1135362057144423861, 2597628984639134821,
   3308224258029322869, 5365058923640841347, 6679025012923562964, 8573033837759648693,
   10970295158949994411, 12119686244451234320, 12683024718118986047, 13788192230050041572,
   14330467153632333762, 15395433587784984357, 489312712824947311, 1452737877330783856,
   2861767655752347644, 3322285676063803686, 5560940570517711597, 5996557281743188959,
   7280758554555802590, 8532644243296465576, 9350256976987008742, 10552545826968843579,
   11727347734174303076, 12113106623233404929, 14000437183269869457, 14369950271660146224,
   15101387698204529176, 15463397548674623760, 17586052441742319658, 1182934255886127544,
   1847814050463011016, 2177327727835720531, 2830643537854262169, 3796741975233480872,
   4115178125766777443, 5681478168544905931, 6601373596472566643, 7507060721942968483,
   8399075790359081724, 8693463985226723168, 9568029438360202098, 10144078919501101548,
   10430055236837252648, 11840083180663258601, 13761210420658862357, 14299343276471374635,
   14566680578165727644, 15097957966210449927, 16922976911328602910, 17689382322260857208,
   500013540394364858, 748580250866718886, 1242879168328830382, 1977374033974150939,
   2944078676154940804, 3659926193048069267, 4368137639120453308, 4836135668995329356,
   5532061633213252278, 6448918945643986474, 6902733635092675308, 7801388544844847127]

/-- SHA-512 initial hash state. -/
def sha512H0 : List Nat :=
  [7640891576956012808, 13503953896175478587, 4354685564936845355, 11912009170470909681,
   5840696475078001361, 11170449401992604703, 2270897969802886507, 6620516959819538809]

/-- Padding for SHA-512: 128-byte blocks, 16-byte length field (the upper 8
length bytes are zero for any message this library can construct). -/
def mdPad128 (msg : List Nat) : List Nat :=
  msg ++ [128] ++ List.replicate ((128 - (msg.length + 17) % 128) % 128) 0
      ++ List.replicate 8 0 ++ ser64BE (msg.length * 8)

/-- Split a big-endian byte list into 64-bit words (8 bytes each). -/
def bytesToWords64 : List Nat → List Nat
  | b0 :: b1 :: b2 :: b3 :: b4 :: b5 :: b6 :: b7 :: rest =>
      (((((((b0 * 256 + b1) * 256 + b2) * 256 + b3) * 256 + b4) * 256 + b5) * 256 + b6) * 256 + b7)
        :: bytesToWords64 rest
  | _ => []

/-- SHA-512 small sigma 0. -/
def sha512s0 (x : Nat) : Nat := xor64 (xor64 (rotr64 x 1) (rotr64 x 8)) (shr x 7)

/-- SHA-512 small sigma 1. -/
def sha512s1 (x : Nat) : Nat := xor64 (xor64 (rotr64 x 19) (rotr64 x 61)) (shr x 6)

/-- SHA-512 big sigma 0. -/
def sha512S0 (x : Nat) : Nat := xor64 (xor64 (rotr64 x 28) (rotr64 x 34)) (rotr64 x 39)

/-- SHA-512 big sigma 1. -/
def sha512S1 (x : Nat) : Nat := xor64 (xor64 (rotr64 x 14) (rotr64 x 18)) (rotr64 x 41)

/-- SHA-512 message schedule: extend 16 words to 80 words. -/
def sha512Extend (ws : List Nat) : List Nat :=
  (List.range 64).foldl
    (fun acc _ =>
      let i := acc.length
      acc ++ [w64 (sha512s1 (acc.getD (i - 2) 0) + acc.getD (i - 7) 0 +
                   sha512s0 (acc.getD (i - 15) 0) + acc.getD (i - 16) 0)])
    ws

/-- SHA-512 compression of one 80-word schedule into the 8-word state. -/
def sha512Compress (state : List Nat) (sched : List Nat) : List Nat :=
  let rec go : List Nat → List Nat → List Nat → List Nat
    | _, _, [] => []
    | _, [], s => s
    | [], _, s => s
    | k :: ks, wv :: wvs, [a, b, c, d, e, f, g, h] =>
        let t1 := w64 (h + sha512S1 e + xor64 (and64 e f) (and64 (not64 e) g) + k + wv)
        let t2 := w64 (sha512S0 a + xor64 (xor64 (and64 a b) (and64 a c)) (and64 b c))
        go ks wvs [w64 (t1 + t2), a, b, c, w64 (d + t1), e, f, g]
    | _, _, s => s
  let out := go sha512K sched state
  List.zipWith (fun x y => w64 (x + y)) state out

/-- SHA-512 digest (64 bytes) of a byte string. -/
def sha512 (msg : List Nat) : List Nat :=
  let blocks := chunks 16 (bytesToWords64 (mdPad128 msg))
  let final := blocks.foldl (fun st blk => sha512Compress st (sha512Extend blk)) sha512H0
  final.flatMap ser64BE

/-! ## HMAC-SHA-512 (Go `crypto/hmac`, RFC 2104) -/

/-- HMAC-SHA-512 (source `hash.HMACSHA512`): block size 128 bytes. -/
def HMACSHA512 (key data : List Nat) : List Nat :=
  let k0 := if key.length > 128 then sha512 key else key
  let kPadded := k0 ++ List.replicate (128 - k0.length) 0
  let ipad := kPadded.map (fun b => xor64 b 0x36)
  let opad := kPadded.map (fun b => xor64 b 0x5c)
  sha512 (opad ++ sha512 (ipad ++ data))

/-! ## RIPEMD-160 (Go `golang.org/x/crypto/ripemd160`) -/

/-- RIPEMD-160 left-line message word order. -/
def ripemdRL : List Nat :=
  [0, 1, 2, 3, 4, 5, 6, 7, 8, 9, 10, 11, 12, 13, 14, 15,
   7, 4, 13, 1, 10, 6, 15, 3, 12, 0, 9, 5, 2, 14, 11, 8,
   3, 10, 14, 4, 9, 15, 8, 1, 2, 7, 0, 6, 13, 11, 5, 12,
   1, 9, 11, 10, 0, 8, 12, 4, 13, 3, 7, 15, 14, 5, 6, 2,
   4, 0, 5, 9, 7, 12, 2, 10, 14, 1, 3, 8, 11, 6, 15, 13]

/-- RIPEMD-160 right-line message word order. -/
def ripemdRR : List Nat :=
  [5, 14, 7, 0, 9, 2, 11, 4, 13, 6, 15, 8, 1, 10, 3, 12,
   6, 11, 3, 7, 0, 13, 5, 10, 14, 15, 8, 12, 4, 9, 1, 2,
   15, 5, 1, 3, 7, 14, 6, 9, 11, 8, 12, 2, 10, 0, 4, 13,
   8, 6, 4, 1, 3, 11, 15, 0, 5, 12, 2, 13, 9, 7, 10, 14,
   12, 15, 10, 4, 1, 5, 8, 7, 6, 2, 13, 14, 0, 3, 9, 11]

/-- RIPEMD-160 left-line rotation amounts. -/
def ripemdSL : List Nat :=
  [11, 14, 15, 12, 5, 8, 7, 9, 11, 13, 14, 15, 6, 7, 9, 8,
   7, 6, 8, 13, 11, 9, 7, 15, 7, 12, 15, 9, 11, 7, 13, 12,
   11, 13, 6, 7, 14, 9, 13, 15, 14, 8, 13, 6, 5, 12, 7, 5,
   11, 12, 14, 15, 14, 15, 9, 8, 9, 14, 5, 6, 8, 6, 5, 12,
   9, 15, 5, 11, 6, 8, 13, 12, 5, 12, 13, 14, 11, 8, 5, 6]

/-- RIPEMD-160 right-line rotation amounts. -/
def ripemdSR : List Nat :=
  [8, 9, 9, 11, 13, 15, 15, 5, 7, 7, 8, 11, 14, 14, 12, 6,
   9, 13, 15, 7, 12, 8, 9, 11, 7, 7, 12, 7, 6, 15, 13, 11,
   9, 7, 15, 11, 8, 6, 6, 14, 12, 13, 5, 14, 13, 13, 7, 5,
   15, 5, 8, 11, 14, 14, 6, 14, 6, 9, 12, 9, 12, 5, 15, 8,
   8, 5, 12, 9, 12, 5, 14, 6, 8, 13, 6, 5, 15, 13, 11, 11]

/-- RIPEMD-160 round function selected by step index. -/
def ripemdF (j x y z : Nat) : Nat :=
  if j < 16 then xor64 (xor64 x y) z
  else if j < 32 then or64 (and64 x y) (and64 (not32 x) z)
  else if j < 48 then xor64 (or64 x (not32 y)) z
  else if j < 64 then or64 (and64 x z) (and64 y (not32 z))
  else xor64 x (or64 y (not32 z))

/-- RIPEMD-160 left-line round constants. -/
def ripemdKL (j : Nat) : Nat :=
  if j < 16 then 0 else if j < 32 then 0x5A827999 else if j < 48 then 0x6ED9EBA1
  else if j < 64 then 0x8F1BBCDC else 0xA953FD4E

/-- RIPEMD-160 right-line round constants. -/
def ripemdKR (j : Nat) : Nat :=
  if j < 16 then 0x50A28BE6 else if j < 32 then 0x5C4DD124 else if j < 48 then 0x6D703EF3
  else if j < 64 then 0x7A6D76E9 else 0

/-- One RIPEMD-160 line step on state (a, b, c, d, e). -/
def ripemdStep (X : List Nat) (r s : List Nat) (kf : Nat → Nat) (fj : Nat → Nat)
    (st : List Nat) (j : Nat) : List Nat :=
  match st with
  | [a, b, c, d, e] =>
      let t := w32 (rotl32 (w32 (a + ripemdF (fj j) b c d + X.getD (r.getD j 0) 0 + kf j))
                     (s.getD j 0) + e)
      [e, t, b, rotl32 c 10, d]
  | other => other

/-- RIPEMD-160 compression of one 16-word (little-endian) block. -/
def ripemdCompress (h : List Nat) (X : List Nat) : List Nat :=
  let left := (List.range 80).foldl (ripemdStep X ripemdRL ripemdSL ripemdKL (fun j => j)) h
  let right := (List.range 80).foldl (ripemdStep X ripemdRR ripemdSR ripemdKR (fun j => 79 - j)) h
  match h, left, right with
  | [h0, h1, h2, h3, h4], [al, bl, cl, dl, el], [ar, br, cr, dr, er] =>
      [w32 (h1 + cl + dr), w32 (h2 + dl + er), w32 (h3 + el + ar),
       w32 (h4 + al + br), w32 (h0 + bl + cr)]
  | _, _, _ => h

/-- Split a little-endian byte list into 32-bit words. -/
def bytesToWords32LE : List Nat → List Nat
  | b0 :: b1 :: b2 :: b3 :: rest =>
      (b3 * 16777216 + b2 * 65536 + b1 * 256 + b0) :: bytesToWords32LE rest
  | _ => []

/-- RIPEMD-160 padding: like MD4, with little-endian 64-bit length field. -/
def ripemdPad (msg : List Nat) : List Nat :=
  msg ++ [128] ++ List.replicate ((64 - (msg.length + 9) % 64) % 64) 0
      ++ ser64LE (msg.length * 8)

/-- RIPEMD-160 digest (20 bytes) of a byte string. -/
def ripemd160 (msg : List Nat) : List Nat :=
  let blocks := chunks 16 (bytesToWords32LE (ripemdPad msg))
  let final := blocks.foldl ripemdCompress
    [0x67452301, 0xEFCDAB89, 0x98BADCFE, 0x10325476, 0xC3D2E1F0]
  final.flatMap (fun wv => (ser32BE wv).reverse)

/-- Hash160: RIPEMD-160 of SHA-256 (source `hash.Hash160`). -/
def Hash160 (data : List Nat) : List Nat := ripemd160 (sha256 data)

/-! ## Keccak-256 (Go `golang.org/x/crypto/sha3.NewLegacyKeccak256`) -/

/-- Keccak round constants. -/
def keccakRC : List Nat :=
  [1, 32898, 9223372036854808714, 9223372039002292224,
   32907, 2147483649, 9223372039002292353, 9223372036854808585,
   138, 136, 2147516425, 2147483658,
   2147516555, 9223372036854775947, 9223372036854808713, 9223372036854808579,
   9223372036854808578, 9223372036854775936, 32778, 9223372039002259466,
   9223372039002292353, 9223372036854808704, 2147483649, 9223372039002292232]

/-- For each flat target lane index of the rho-pi step, the flat source index. -/
def keccakSrc : List Nat :=
  [0, 6, 12, 18, 24, 3, 9, 10, 16, 22, 1, 7, 13, 19, 20, 4, 5, 11, 17, 23, 2, 8, 14, 15, 21]

/-- For each flat target lane index of the rho-pi step, the left-rotation amount. -/
def keccakRot : List Nat :=
  [0, 44, 43, 21, 14, 28, 20, 3, 45, 61, 1, 6, 25, 8, 18, 27, 36, 10, 15, 56, 62, 55, 39, 41, 2]

/-- One Keccak-f[1600] round on the flat 25-lane state (index x + 5 y). -/
def keccakRound (A : List Nat) (rc : Nat) : List Nat :=
  let C := (List.range 5).map (fun x =>
    xor64 (xor64 (xor64 (xor64 (A.getD x 0) (A.getD (x + 5) 0)) (A.getD (x + 10) 0))
      (A.getD (x + 15) 0)) (A.getD (x + 20) 0))
  let D := (List.range 5).map (fun x =>
    xor64 (C.getD ((x + 4) % 5) 0) (rotl64 (C.getD ((x + 1) % 5) 0) 1))
  let A1 := (List.range 25).map (fun i => xor64 (A.getD i 0) (D.getD (i % 5) 0))
  let B := (List.range 25).map (fun j =>
    rotl64 (A1.getD (keccakSrc.getD j 0) 0) (keccakRot.getD j 0))
  let A2 := (List.range 25).map (fun j =>
    let x := j % 5
    let y := j / 5
    xor64 (B.getD j 0) (and64 (not64 (B.getD ((x + 1) % 5 + 5 * y) 0))
      (B.getD ((x + 2) % 5 + 5 * y) 0)))
  match A2 with
  | a0 :: rest => xor64 a0 rc :: rest
  | [] => []

/-- The full Keccak-f[1600] permutation (24 rounds). -/
def keccakF (A : List Nat) : List Nat := keccakRC.foldl keccakRound A

/-- Legacy Keccak padding: append 0x01, zero-fill to the rate, XOR 0x80 into
the final byte. -/
def keccakPad (rate : Nat) (msg : List Nat) : List Nat :=
  let padded := msg ++ [1] ++ List.replicate ((rate - (msg.length + 1) % rate) % rate) 0
  padded.take (padded.length - 1) ++ [xor64 (padded.getD (padded.length - 1) 0) 128]

/-- Absorb one rate-sized block (as little-endian 64-bit lanes) into the state. -/
def keccakAbsorb (A : List Nat) (block : List Nat) : List Nat :=
  let lanes := (chunks 8 block).map leNat
  (List.range 25).map (fun i =>
    if i < lanes.length then xor64 (A.getD i 0) (lanes.getD i 0) else A.getD i 0)

/-- Keccak-256 digest (32 bytes; source `Keccak256`, Ethereum-style). -/
def Keccak256 (msg : List Nat) : List Nat :=
  let rate := 136
  let blocks := chunks rate (keccakPad rate msg)
  let final := blocks.foldl (fun A blk => keccakF (keccakAbsorb A blk)) (List.replicate 25 0)
  ((final.take 4).map ser64LE).flatten

/-! ## BLAKE2b (Go `golang.org/x/crypto/blake2b`, RFC 7693) -/

/-- BLAKE2b initialization vector (same words as the SHA-512 IV). -/
def blakeIV : List Nat := sha512H0

/-- BLAKE2b message schedule sigma (10 rows, reused cyclically). -/
def blakeSigma : List (List Nat) :=
  [[0, 1, 2, 3, 4, 5, 6, 7, 8, 9, 10, 11, 12, 13, 14, 15],
   [14, 10, 4, 8, 9, 15, 13, 6, 1, 12, 0, 2, 11, 7, 5, 3],
   [11, 8, 12, 0, 5, 2, 15, 13, 10, 14, 3, 6, 7, 1, 9, 4],
   [7, 9, 3, 1, 13, 12, 11, 14, 2, 6, 5, 10, 4, 0, 15, 8],
   [9, 0, 5, 7, 2, 4, 10, 15, 14, 1, 11, 12, 6, 8, 3, 13],
   [2, 12, 6, 10, 0, 11, 8, 3, 4, 13, 7, 5, 15, 14, 1, 9],
   [12, 5, 1, 15, 14, 13, 4, 10, 0, 7, 6, 3, 9, 2, 8, 11],
   [13, 11, 7, 14, 12, 1, 3, 9, 5, 0, 15, 4, 8, 6, 2, 10],
   [6, 15, 14, 9, 11, 3, 0, 8, 12, 2, 13, 7, 1, 4, 10, 5],
   [10, 2, 8, 4, 7, 6, 1, 5, 15, 11, 9, 14, 3, 12, 13, 0]]

/-- BLAKE2b mixing function G acting on a 16-word working vector. -/
def blakeG (v : List Nat) (a b c d x y : Nat) : List Nat :=
  let va := w64 (v.getD a 0 + v.getD b 0 + x)
  let vd := rotr64 (xor64 (v.getD d 0) va) 32
  let vc := w64 (v.getD c 0 + vd)
  let vb := rotr64 (xor64 (v.getD b 0) vc) 24
  let va2 := w64 (va + vb + y)
  let vd2 := rotr64 (xor64 vd va2) 16
  let vc2 := w64 (vc + vd2)
  let vb2 := rotr64 (xor64 vb vc2) 63
  (List.range 16).map (fun i =>
    if i = a then va2 else if i = b then vb2 else if i = c then vc2 else if i = d then vd2
    else v.getD i 0)

/-- One BLAKE2b round with schedule row s over message words m. -/
def blakeRound (m : List Nat) (v : List Nat) (s : List Nat) : List Nat :=
  let mi := fun i => m.getD (s.getD i 0) 0
  let v1 := blakeG v 0 4 8 12 (mi 0) (mi 1)
  let v2 := blakeG v1 1 5 9 13 (mi 2) (mi 3)
  let v3 := blakeG v2 2 6 10 14 (mi 4) (mi 5)
  let v4 := blakeG v3 3 7 11 15 (mi 6) (mi 7)
  let v5 := blakeG v4 0 5 10 15 (mi 8) (mi 9)
  let v6 := blakeG v5 1 6 11 12 (mi 10) (mi 11)
  let v7 := blakeG v6 2 7 8 13 (mi 12) (mi 13)
  blakeG v7 3 4 9 14 (mi 14) (mi 15)

/-- BLAKE2b compression of one 128-byte block with byte counter t. -/
def blakeCompress (h : List Nat) (block : List Nat) (t : Nat) (last : Bool) : List Nat :=
  let m := (chunks 8 block).map leNat
  let v0 := h ++ blakeIV
  let v1 := (List.range 16).map (fun i =>
    if i = 12 then xor64 (v0.getD i 0) (w64 t)
    else if i = 13 then xor64 (v0.getD i 0) (t / 18446744073709551616)
    else if i = 14 ∧ last then not64 (v0.getD i 0)
    else v0.getD i 0)
  let vf := (List.range 12).foldl (fun v r => blakeRound m v (blakeSigma.getD (r % 10) [])) v1
  (List.range 8).map (fun i => xor64 (xor64 (h.getD i 0) (vf.getD i 0)) (vf.getD (i + 8) 0))

/-- Unkeyed BLAKE2b with the given digest length in bytes. -/
def blake2b (outlen : Nat) (msg : List Nat) : List Nat :=
  let h0 := match blakeIV with
    | iv0 :: rest => xor64 iv0 (0x01010000 + outlen) :: rest
    | [] => []
  let blocks := if msg.length = 0 then [List.replicate 128 0] else chunks 128 msg
  let nblocks := blocks.length
  let final := (List.range nblocks).foldl
    (fun h i =>
      let blk := blocks.getD i []
      let blkPadded := blk ++ List.replicate (128 - blk.length) 0
      blakeCompress h blkPadded (min (128 * (i + 1)) msg.length) (i = nblocks - 1))
    h0
  (final.flatMap ser64LE).take outlen

/-- BLAKE2b-512 (source `Blake2b512`). -/
def Blake2b512 (data : List Nat) : List Nat := blake2b 64 data

/-! ## BIP-39 mnemonic codec (source `pkgs/bip39/mnemonic.go`)

Go strings are modeled as `List Char`; `strings.Fields`, `strings.Join` and
the word-list interface are embedded below. -/

/-- Unicode white space as used by Go `unicode.IsSpace` (Latin-1 fast path
plus the White_Space property ranges). -/
def goIsSpace (c : Char) : Bool :=
  let n := c.toNat
  (n == 0x20) || (0x9 ≤ n && n ≤ 0xD) || (n == 0x85) || (n == 0xA0) ||
  (n == 0x1680) || (0x2000 ≤ n && n ≤ 0x200A) || (n == 0x2028) || (n == 0x2029) ||
  (n == 0x202F) || (n == 0x205F) || (n == 0x3000)

/-- Split into space-delimited chunks (including empty chunks); auxiliary for
the embedding of Go `strings.Fields`. -/
def splitSp (cs : List Char) : List (List Char) :=
  cs.foldr
    (fun c acc =>
      if goIsSpace c then [] :: acc
      else
        match acc with
        | [] => [[c]]
        | w :: ws => (c :: w) :: ws)
    [[]]

/-- Go `strings.Fields`: the maximal runs of non-space characters. -/
def goFields (cs : List Char) : List (List Char) :=
  (splitSp cs).filter (fun w => !w.isEmpty)

/-- Go `strings.Join(words, " ")`. -/
def joinSpace : List (List Char) → List Char
  | [] => []
  | [w] => w
  | w :: rest => w ++ ' ' :: joinSpace rest

/-- The BIP-39 word-list interface (source `WordList`): `wordAt` returns the
word at an index, `wordIndex` returns the index of a word or -1. -/
structure WordList where
  wordAt : Nat → List Char
  wordIndex : List Char → Int

/-- BIP-39 error values (source `pkgs/bip39/errors.go`). -/
inductive BIP39Err where
  | invalidEntropyLength
  | invalidMnemonicLength
  | invalidMnemonic
  | invalidChecksum
deriving DecidableEq

/-- Valid entropy sizes in bits (source `isValidEntropyBits`). -/
def isValidEntropyBits (bits : Nat) : Bool :=
  [128, 160, 192, 224, 256].contains bits

/-- Valid mnemonic word counts (source `isValidWordCount`). -/
def isValidWordCount (count : Nat) : Bool :=
  [12, 15, 18, 21, 24].contains count

/-- The j-th most significant bit of a byte, as a Bool; models the source
expression `(b & (1 << (7-j))) != 0`. -/
def bitAtMSB (b j : Nat) : Bool := b / 2 ^ (7 - j) % 2 == 1

/-- Most-significant-bit-first expansion of a w-bit value into Bools; models
the source expression `(index & (1 << (w-1-j))) != 0` for j < w. -/
def msbBits (w n : Nat) : List Bool :=
  (List.range w).map (fun j => n / 2 ^ (w - 1 - j) % 2 == 1)

/-- Most-significant-bit-first accumulation of a bit list into a value; models
the source loop `index |= 1 << (w-1-j)`. -/
def bitsFold (bs : List Bool) : Nat :=
  bs.foldl (fun acc b => 2 * acc + (if b then 1 else 0)) 0

/-- The entropy laid out as a bit stream, most significant bit of each byte
first (source loop `bits[i] = entropy[i/8] & (1 << (7 - i%8)) != 0`). -/
def entropyBitsOf (entropy : List Nat) : List Bool :=
  entropy.flatMap (fun b => (List.range 8).map (bitAtMSB b))

/-- Source `NewMnemonicWithWordList`: entropy to mnemonic. -/
def NewMnemonicWithWordList (entropy : List Nat) (wl : WordList) :
    Except BIP39Err (List Char) :=
  let entropyBits := entropy.length * 8
  if ¬ isValidEntropyBits entropyBits then .error .invalidEntropyLength
  else
    let hash := sha256 entropy
    let checksumBits := entropyBits / 32
    let totalBits := entropyBits + checksumBits
    let bits := entropyBitsOf entropy ++ (List.range checksumBits).map (bitAtMSB (hash.getD 0 0))
    let wordCount := totalBits / 11
    let indices := (List.range wordCount).map (fun i => bitsFold ((bits.drop (11 * i)).take 11))
    .ok (joinSpace (indices.map wl.wordAt))

/-- Source `MnemonicToEntropyWithWordList`: mnemonic back to entropy. -/
def MnemonicToEntropyWithWordList (mnemonic : List Char) (wl : WordList) :
    Except BIP39Err (List Nat) :=
  let words := goFields mnemonic
  let wordCount := words.length
  if ¬ isValidWordCount wordCount then .error .invalidMnemonicLength
  else do
    let indices ← words.mapM (fun w =>
      let idx := wl.wordIndex w
      if idx = -1 then Except.error BIP39Err.invalidMnemonic else Except.ok idx.toNat)
    let bits := indices.flatMap (msbBits 11)
    let totalBits := wordCount * 11
    let checksumBits := wordCount / 3
    let entropyBits := totalBits - checksumBits
    let entropy := (List.range (entropyBits / 8)).map
      (fun i => bitsFold ((bits.drop (8 * i)).take 8))
    let hash := sha256 entropy
    if (List.range checksumBits).all
        (fun i => bits.getD (entropyBits + i) false == bitAtMSB (hash.getD 0 0) i)
    then .ok entropy
    else .error .invalidChecksum

/-- A word list is valid when `wordIndex` inverts `wordAt` on the 2048 valid
indices and the stored words are nonempty and free of white space.  The
`newWordList` constructor in the source builds such a table from the embedded
English word array. -/
def ValidWordList (wl : WordList) : Prop :=
  (∀ i, i < 2048 → wl.wordIndex (wl.wordAt i) = Int.ofNat i) ∧
  (∀ i, i < 2048 → wl.wordAt i ≠ [] ∧ ∀ c ∈ wl.wordAt i, goIsSpace c = false)

/-- A small executable word list used as a concrete witness: word i is the
11-character a/b spelling of the 11 bits of i. -/
def abWordList : WordList where
  wordAt i := (msbBits 11 i).map (fun b => if b then 'b' else 'a')
  wordIndex w :=
    if w.length = 11 && w.all (fun c => c == 'a' || c == 'b')
    then Int.ofNat (bitsFold (w.map (fun c => c == 'b')))
    else -1

example :
    (do
      let m ← NewMnemonicWithWordList (List.replicate 16 0) abWordList
      MnemonicToEntropyWithWordList m abWordList) =
    Except.ok (List.replicate 16 0) := rfl

/-! Quick sanity examples for the hash implementations (known test vectors). -/

/-! ## BIP-44 path parsing (source `pkgs/bip44/path.go`) -/

/-- Go `strings.TrimSpace`: strip white space from both ends. -/
def goTrimSpace (cs : List Char) : List Char :=
  ((cs.dropWhile goIsSpace).reverse.dropWhile goIsSpace).reverse

/-- Go `strings.HasPrefix(path, "m/")` specialized to the separator used by
`ParsePath`. -/
def hasMSlash : List Char → Bool
  | 'm' :: '/' :: _ => true
  | _ => false

/-- Go `strings.Split` on a single-character separator (keeps empty parts). -/
def splitOnChar (sep : Char) (cs : List Char) : List (List Char) :=
  cs.foldr
    (fun c acc =>
      if c = sep then [] :: acc
      else
        match acc with
        | [] => [[c]]
        | w :: ws => (c :: w) :: ws)
    [[]]

/-- Go `strings.HasSuffix` for a single-character suffix. -/
def endsWithChar (s : List Char) (c : Char) : Bool :=
  match s.getLast? with
  | some d => d == c
  | none => false

/-- Go `strings.TrimSuffix` for a single-character suffix. -/
def trimSuffixChar (s : List Char) (c : Char) : List Char :=
  if endsWithChar s c then s.dropLast else s

/-- Decimal digit value of a character, if it is one. -/
def digitVal (c : Char) : Option Nat :=
  if '0' ≤ c ∧ c ≤ '9' then some (c.toNat - 48) else none

/-- Go `strconv.ParseUint(s, 10, 32)`: decimal digits only, value below 2^32;
any failure (empty string, other characters, range overflow) is `none`. -/
def parseUint32 (s : List Char) : Option Nat :=
  if s.isEmpty then none
  else
    s.foldl
      (fun acc c =>
        match acc, digitVal c with
        | some v, some d => if v * 10 + d < 4294967296 then some (v * 10 + d) else none
        | _, _ => none)
      (some 0)

/-- Source `parseHardenedIndex`: requires a trailing apostrophe or `h`,
strips one of each (apostrophe first), then parses the rest. -/
def parseHardenedIndex (s : List Char) : Option Nat :=
  let s := goTrimSpace s
  if ¬ (endsWithChar s (Char.ofNat 39) || endsWithChar s 'h') then none
  else parseUint32 (trimSuffixChar (trimSuffixChar s (Char.ofNat 39)) 'h')

/-- Source `parseIndex`: rejects a hardened suffix, then parses. -/
def parseIndex (s : List Char) : Option Nat :=
  let s := goTrimSpace s
  if endsWithChar s (Char.ofNat 39) || endsWithChar s 'h' then none
  else parseUint32 s

/-- BIP-44 parse errors; the `bad*` variants stand for the wrapped
`fmt.Errorf("invalid …: %w", err)` errors the source creates, distinct from
`ErrInvalidPurpose` and `ErrInvalidChange`. -/
inductive BIP44Err where
  | invalidPath
  | invalidPurpose
  | invalidChange
  | badCoinType
  | badAccount
  | badChange
  | badAddressIndex
deriving DecidableEq

/-- A parsed BIP-44 path (source `bip44.Path`); all fields are uint32
values. -/
structure BIP44Path where
  purpose : Nat
  coinType : Nat
  account : Nat
  change : Nat
  addressIndex : Nat
deriving DecidableEq

/-- Source `bip44.ParsePath`. -/
def ParsePath (path : List Char) : Except BIP44Err BIP44Path :=
  let path := goTrimSpace path
  if ¬ hasMSlash path then .error .invalidPath
  else
    let parts := splitOnChar '/' (path.drop 2)
    if parts.length ≠ 5 then .error .invalidPath
    else
      match parseHardenedIndex (parts.getD 0 []) with
      | none => .error .invalidPurpose
      | some purpose =>
        if purpose ≠ 44 then .error .invalidPurpose
        else
          match parseHardenedIndex (parts.getD 1 []) with
          | none => .error .badCoinType
          | some coinType =>
            match parseHardenedIndex (parts.getD 2 []) with
            | none => .error .badAccount
            | some account =>
              match parseIndex (parts.getD 3 []) with
              | none => .error .badChange
              | some change =>
                if change > 1 then .error .invalidChange
                else
                  match parseIndex (parts.getD 4 []) with
                  | none => .error .badAddressIndex
                  | some addressIndex =>
                    .ok ⟨purpose, coinType, account, change, addressIndex⟩

/-! ## secp256k1 (source `pkgs/crypto/secp256k1`, files curve.go / pubkey.go)

Go `big.Int` values are modeled as `Int`/`Nat`; `Mod` is Euclidean, hence
`Int.emod`. -/

/-- Fast binary modular exponentiation with fuel (e + 1 suffices). -/
def powModAux : Nat → Nat → Nat → Nat → Nat
  | 0, _, _, m => 1 % m
  | fuel + 1, a, e, m =>
    if e = 0 then 1 % m
    else
      let r := powModAux fuel (a * a % m) (e / 2) m
      if e % 2 = 1 then r * a % m else r

/-- Modular exponentiation a^e mod m. -/
def powMod (a e m : Nat) : Nat := powModAux (e + 1) a e m

/-- The order n of the secp256k1 group (source `secp256k1.N`). -/
def secpN : Nat := 0xFFFFFFFFFFFFFFFFFFFFFFFFFFFFFFFEBAAEDCE6AF48A03BBFD25E8CD0364141

/-- The field prime p of secp256k1 (source `secp256k1.P`). -/
def secpP : Nat := 0xFFFFFFFFFFFFFFFFFFFFFFFFFFFFFFFFFFFFFFFFFFFFFFFFFFFFFFFEFFFFFC2F

/-- The x-coordinate of the generator (source `secp256k1.Gx`). -/
def secpGx : Nat := 0x79BE667EF9DCBBAC55A06295CE870B07029BFCDB2DCE28D959F2815B16F81798

/-- The y-coordinate of the generator (source `secp256k1.Gy`). -/
def secpGy : Nat := 0x483ADA7726A3C4655DA4FBFC0E1108A8FD17B448A68554199C47D08FFB10D4B8

/-- An affine point as the Go code represents it (source `secp256k1.Point`);
the pair (0, 0) is the sentinel for the point at infinity. -/
structure GoPoint where
  x : Int
  y : Int
deriving DecidableEq

/-- The point at infinity (source `Infinity()`). -/
def gInfinity : GoPoint := ⟨0, 0⟩

/-- Source `Point.IsInfinity`. -/
def GoPoint.isInf (p : GoPoint) : Bool := p.x == 0 && p.y == 0

/-- Go `big.Int.ModInverse(x, p)`.  The Go implementation uses the extended
Euclidean algorithm; for the prime moduli used by this code base the result
equals x^(p-2) mod p, which is how it is computed here. -/
def modInverse (a : Int) (p : Nat) : Int :=
  Int.ofNat (powMod (a.emod p).toNat (p - 2) p)

/-- Source `secp256k1.Double`: affine doubling with the curve a = 0. -/
def pDouble (p : GoPoint) : GoPoint :=
  if p.y = 0 then gInfinity
  else
    let x2 := (p.x * p.x).emod secpP
    let numerator := x2 * 3
    let denominator := p.y * 2
    let denomInv := modInverse denominator secpP
    let lambda := (numerator * denomInv).emod secpP
    let x3 := (lambda * lambda - p.x * 2).emod secpP
    let y3 := ((p.x - x3) * lambda - p.y).emod secpP
    ⟨x3, y3⟩

/-- Source `secp256k1.Add`: affine addition with the sentinel cases first. -/
def pAdd (p1 p2 : GoPoint) : GoPoint :=
  if p1.isInf then p2
  else if p2.isInf then p1
  else if p1.x = p2.x then
    if p1.y = p2.y then pDouble p1 else gInfinity
  else
    let dy := p2.y - p1.y
    let dx := p2.x - p1.x
    let dxInv := modInverse dx secpP
    let lambda := (dy * dxInv).emod secpP
    let x3 := (lambda * lambda - p1.x - p2.x).emod secpP
    let y3 := ((p1.x - x3) * lambda - p1.y).emod secpP
    ⟨x3, y3⟩

/-- Little-endian bit list of a natural number (for the `k.Bit(i)` loop of
`ScalarMult`), with structural fuel. -/
def natBitsLEAux : Nat → Nat → List Bool
  | 0, _ => []
  | fuel + 1, n => if n = 0 then [] else (n % 2 == 1) :: natBitsLEAux fuel (n / 2)

/-- Little-endian bit list of a natural number. -/
def natBitsLE (n : Nat) : List Bool := natBitsLEAux n n

/-- The double-and-add loop of source `secp256k1.ScalarMult`. -/
def scalarLoop : List Bool → GoPoint → GoPoint → GoPoint
  | [], result, _ => result
  | b :: bs, result, addend =>
    scalarLoop bs (if b then pAdd result addend else result) (pDouble addend)

/-- Source `secp256k1.ScalarMult`: k * P by double-and-add over the bits
of k. -/
def ScalarMult (p : GoPoint) (k : Nat) : GoPoint := scalarLoop (natBitsLE k) gInfinity p

/-- The generator point G (source `Generator()`). -/
def gGenerator : GoPoint := ⟨Int.ofNat secpGx, Int.ofNat secpGy⟩

/-- Source `secp256k1.ScalarBaseMult`: k * G with k given as big-endian
bytes. -/
def ScalarBaseMult (k : List Nat) : GoPoint := ScalarMult gGenerator (natOfBytes k)

/-- Source `secp256k1.IsValidPrivateKey`: 0 < k < n. -/
def IsValidPrivateKey (key : List Nat) : Bool :=
  0 < natOfBytes key && natOfBytes key < secpN

/-- Source `secp256k1.AddPrivateKeys`: (k1 + k2) mod n, left-padded to 32
bytes. -/
def AddPrivateKeys (k1 k2 : List Nat) : List Nat :=
  padLeft 32 (natToBytesBE ((natOfBytes k1 + natOfBytes k2) % secpN))

/-- Source `secp256k1.CompressPoint`: 0x02/0x03 prefix by parity of y,
then x padded to 32 bytes. -/
def CompressPoint (p : GoPoint) : List Nat :=
  (if p.y.emod 2 = 0 then 2 else 3) :: padLeft 32 (natToBytesBE p.x.toNat)

/-- Go `big.Int.ModSqrt(y2, p)` for the prime p ≡ 3 (mod 4) used here:
the candidate y2^((p+1)/4) is returned when its square is y2, otherwise the
input is not a quadratic residue and the result is `none` (Go returns nil). -/
def modSqrt (y2 p : Nat) : Option Nat :=
  let s := powMod y2 ((p + 1) / 4) p
  if s * s % p = y2 % p then some s else none

/-- Source `secp256k1.DecompressPoint`. -/
def DecompressPoint (compressed : List Nat) : Except Unit GoPoint :=
  if compressed.length ≠ 33 then .error ()
  else
    let pre := compressed.getD 0 0
    if pre ≠ 2 ∧ pre ≠ 3 then .error ()
    else
      let x := natOfBytes (compressed.drop 1)
      let x3 := powMod x 3 secpP
      let y2 := (x3 + 7) % secpP
      match modSqrt y2 secpP with
      | none => .error ()
      | some y =>
        let yIsOdd := y % 2 = 1
        let prefixIndicatesOdd := pre = 3
        let y' := if yIsOdd ≠ prefixIndicatesOdd then secpP - y else y
        .ok ⟨Int.ofNat x, Int.ofNat y'⟩

/-- Source `secp256k1.PrivateKeyToCompressedPublicKey`. -/
def PrivateKeyToCompressedPublicKey (privateKey : List Nat) : List Nat :=
  CompressPoint (ScalarBaseMult privateKey)

/-! ## BIP-32 extended keys (source `pkgs/bip32`) -/

/-- BIP-32 and Base58Check error values (sources `pkgs/bip32/errors.go` and
`pkgs/crypto/encoding`). -/
inductive BIP32Err where
  | invalidSeedLength
  | invalidKeyData
  | hardenedFromPublic
  | derivationFailed
  | invalidPath
  | invalidSerializedKey
  | invalidBase58
  | invalidDataLength
  | invalidChecksum
deriving DecidableEq

/-- Source `bip32.Network`. -/
structure Network where
  name : String
  privateKeyID : Nat
  publicKeyID : Nat
  privateKeyHRP : String
  publicKeyHRP : String
deriving DecidableEq

/-- Source `bip32.MainNet`. -/
def MainNet : Network :=
  { name := "mainnet", privateKeyID := 0x0488ADE4, publicKeyID := 0x0488B21E,
    privateKeyHRP := "xprv", publicKeyHRP := "xpub" }

/-- Source `bip32.TestNet`. -/
def TestNet : Network :=
  { name := "testnet", privateKeyID := 0x04358394, publicKeyID := 0x043587CF,
    privateKeyHRP := "tprv", publicKeyHRP := "tpub" }

/-- Source `bip32.DefaultNetwork` (MainNet). -/
def DefaultNetwork : Network := MainNet

/-- Source `bip32.NetworkFromVersion`. -/
def NetworkFromVersion (version : Nat) : Option Network :=
  if version = MainNet.privateKeyID ∨ version = MainNet.publicKeyID then some MainNet
  else if version = TestNet.privateKeyID ∨ version = TestNet.publicKeyID then some TestNet
  else none

/-- Source `bip32.IsPrivateVersion`. -/
def IsPrivateVersion (version : Nat) : Bool :=
  version == MainNet.privateKeyID || version == TestNet.privateKeyID

/-- Source `bip32.ExtendedKey` (depth is a uint8, childIndex a uint32). -/
structure ExtendedKey where
  key : List Nat
  chainCode : List Nat
  depth : Nat
  parentFP : List Nat
  childIndex : Nat
  network : Network
  isPrivate : Bool
deriving DecidableEq

/-- Source `bip32.HardenedKeyStart` (2^31). -/
def HardenedKeyStart : Nat := 0x80000000

/-- Source `bip32.IsHardened`. -/
def IsHardened (index : Nat) : Bool := index ≥ HardenedKeyStart

/-- Source `ExtendedKey.PublicKeyBytes`. -/
def ExtendedKey.PublicKeyBytes (k : ExtendedKey) : List Nat :=
  if k.isPrivate then PrivateKeyToCompressedPublicKey (k.key.drop 1) else k.key

/-- Source `ExtendedKey.PrivateKeyBytes`. -/
def ExtendedKey.PrivateKeyBytes (k : ExtendedKey) : Option (List Nat) :=
  if k.isPrivate then some (k.key.drop 1) else none

/-- Source `ExtendedKey.Fingerprint`: first 4 bytes of Hash160 of the
compressed public key. -/
def ExtendedKey.Fingerprint (k : ExtendedKey) : List Nat :=
  (Hash160 k.PublicKeyBytes).take 4

/-- Source `bip32.NewMasterKeyWithNetwork`. -/
def NewMasterKeyWithNetwork (seed : List Nat) (network : Network) :
    Except BIP32Err ExtendedKey :=
  if seed.length < 16 ∨ seed.length > 64 then .error .invalidSeedLength
  else
    let I := HMACSHA512 (strBytes ("Bitcoin seed")) seed
    let IL := I.take 32
    let IR := I.drop 32
    if ¬ IsValidPrivateKey IL then .error .derivationFailed
    else .ok ⟨0 :: IL, IR, 0, [0, 0, 0, 0], 0, network, true⟩

/-- Source `bip32.NewMasterKey` (uses the default network). -/
def NewMasterKey (seed : List Nat) : Except BIP32Err ExtendedKey :=
  NewMasterKeyWithNetwork seed DefaultNetwork

/-- Source `buildChildData`: the parent key bytes (hardened) or compressed
public key (normal) followed by ser32(index); 37 bytes in all uses. -/
def buildChildData (k : ExtendedKey) (index : Nat) (isHardened : Bool) : List Nat :=
  (if isHardened then k.key else k.PublicKeyBytes) ++ ser32BE index

/-- Source `derivePrivateChildKey`. -/
def derivePrivateChildKey (parentKey IL : List Nat) : Except BIP32Err (List Nat) :=
  let childKeyBytes := AddPrivateKeys parentKey IL
  if ¬ IsValidPrivateKey childKeyBytes then .error .derivationFailed
  else .ok (0 :: childKeyBytes)

/-- Source `derivePublicChildKey`. -/
def derivePublicChildKey (parentPubKey IL : List Nat) : Except BIP32Err (List Nat) :=
  match DecompressPoint parentPubKey with
  | .error _ => .error .derivationFailed
  | .ok parentPoint =>
    let ilPoint := ScalarBaseMult IL
    let childPoint := pAdd ilPoint parentPoint
    if childPoint.isInf then .error .derivationFailed
    else .ok (CompressPoint childPoint)

/-- Source `deriveChildKey`. -/
def deriveChildKey (k : ExtendedKey) (IL : List Nat) : Except BIP32Err (List Nat) :=
  if k.isPrivate then derivePrivateChildKey (k.key.drop 1) IL
  else derivePublicChildKey k.key IL

/-- Source `ExtendedKey.Child`: child derivation at an index (uint8 depth
wraps modulo 256 as in Go). -/
def ExtendedKey.Child (k : ExtendedKey) (index : Nat) : Except BIP32Err ExtendedKey :=
  let isHardened := IsHardened index
  if ¬ k.isPrivate ∧ isHardened = true then .error .hardenedFromPublic
  else
    let data := buildChildData k index isHardened
    let I := HMACSHA512 k.chainCode data
    let IL := I.take 32
    let IR := I.drop 32
    if ¬ IsValidPrivateKey IL then .error .derivationFailed
    else
      match deriveChildKey k IL with
      | .error e => .error e
      | .ok childKey =>
        .ok ⟨childKey, IR, (k.depth + 1) % 256, k.Fingerprint, index, k.network, k.isPrivate⟩

/-- Source `ExtendedKey.Neuter` (public keys are cloned; the clone has the
same field values). -/
def ExtendedKey.Neuter (k : ExtendedKey) : Except BIP32Err ExtendedKey :=
  if ¬ k.isPrivate then .ok k
  else .ok ⟨k.PublicKeyBytes, k.chainCode, k.depth, k.parentFP, k.childIndex, k.network, false⟩

/-- Source `getVersion`. -/
def ExtendedKey.getVersion (k : ExtendedKey) : Nat :=
  if k.isPrivate then k.network.privateKeyID else k.network.publicKeyID

/-- Source `ExtendedKey.Serialize`: the 78-byte form. -/
def ExtendedKey.Serialize (k : ExtendedKey) : List Nat :=
  ser32BE k.getVersion ++ [k.depth] ++ k.parentFP ++ ser32BE k.childIndex ++
    k.chainCode ++ k.key

/-- Source `DeserializeExtendedKey`. -/
def DeserializeExtendedKey (data : List Nat) : Except BIP32Err ExtendedKey :=
  if data.length ≠ 78 then .error .invalidSerializedKey
  else
    let version := beUint32 (data.take 4)
    let network := match NetworkFromVersion version with
      | some nw => nw
      | none => DefaultNetwork
    .ok ⟨(data.drop 45).take 33, (data.drop 13).take 32, data.getD 4 0,
      (data.drop 5).take 4, beUint32 ((data.drop 9).take 4), network,
      IsPrivateVersion version⟩

/-! ## Base58 / Base58Check (the `pkgs/crypto/encoding` package used by
bip32 is not under src/; its `Base58Encode`/`Base58Decode` are modelled on
the identical `address` package implementation in src, and
`Base58CheckEncode`/`Base58CheckDecode` are modelled from the spec:
Base58Check is Base58 of payload ‖ first-4-of-double-SHA-256(payload),
matching the package's tests in base58_test.go.) -/

/-- The standard Bitcoin Base58 alphabet (source `BitcoinAlphabet`). -/
def BitcoinAlphabet : List Char :=
  ("123456789ABCDEFGHJKLMNPQRSTUVWXYZabcdefghijkmnopqrstuvwxyz").toList

/-- Character for a digit value below 58. -/
def alphaChar (d : Nat) : Char := BitcoinAlphabet.getD d '1'

/-- Index of a character in the alphabet (the `alphabetMap` lookup). -/
def alphaIdx (c : Char) : Option Nat := BitcoinAlphabet.findIdx? (fun x => x == c)

/-- Little-endian base-58 digits with structural fuel (the div-mod loop of
`Base58Encoder.Encode`). -/
def natToDigits58Aux : Nat → Nat → List Nat
  | 0, _ => []
  | fuel + 1, n => if n = 0 then [] else n % 58 :: natToDigits58Aux fuel (n / 58)

/-- Little-endian base-58 digits of a natural number. -/
def natToDigits58 (n : Nat) : List Nat := natToDigits58Aux n n

/-- Source `Base58Encode` (Bitcoin alphabet): leading zero bytes become
leading 1-characters; the digit loop emits least-significant first and the
result is reversed at the end. -/
def Base58Encode (data : List Nat) : List Char :=
  if data.isEmpty then []
  else
    let leadingZeros := (data.takeWhile (fun b => b == 0)).length
    let num := natOfBytes data
    (((natToDigits58 num).map alphaChar) ++ List.replicate leadingZeros '1').reverse

/-- One step of the decode loop of `Base58Decoder.Decode`: multiply the
accumulator by 58 and add the alphabet index, failing on a foreign char. -/
def b58Step (acc : Option Nat) (c : Char) : Option Nat :=
  match acc, alphaIdx c with
  | some v, some i => some (v * 58 + i)
  | _, _ => none

/-- Source `Base58Decode` (Bitcoin alphabet). -/
def Base58Decode (str : List Char) : Except BIP32Err (List Nat) :=
  if str.isEmpty then .ok []
  else
    let leadingZeros := (str.takeWhile (fun c => c == '1')).length
    match str.foldl b58Step (some 0) with
    | none => .error .invalidBase58
    | some num => .ok (List.replicate leadingZeros 0 ++ natToBytesBE num)

/-- Modelled from the spec (crypto/encoding is absent from src/):
`Base58CheckEncode(payload)` is Base58 of payload ‖ checksum4(payload). -/
def Base58CheckEncode (payload : List Nat) : List Char :=
  Base58Encode (payload ++ Checksum4 payload)

/-- Modelled from the spec (crypto/encoding is absent from src/):
`Base58CheckDecode` decodes, requires at least 5 bytes, verifies the 4-byte
checksum and returns the payload. -/
def Base58CheckDecode (str : List Char) : Except BIP32Err (List Nat) :=
  match Base58Decode str with
  | .error e => .error e
  | .ok decoded =>
    if decoded.length < 5 then .error .invalidDataLength
    else
      let payload := decoded.take (decoded.length - 4)
      let checksum := decoded.drop (decoded.length - 4)
      if checksum ≠ Checksum4 payload then .error .invalidChecksum
      else .ok payload

/-- Source `ExtendedKey.String`: Base58Check of the 78-byte serialization. -/
def ExtendedKey.toStr (k : ExtendedKey) : List Char :=
  Base58CheckEncode k.Serialize

/-- Source `bip32.ParseExtendedKey`. -/
def ParseExtendedKey (encoded : List Char) : Except BIP32Err ExtendedKey :=
  match Base58CheckDecode encoded with
  | .error e => .error e
  | .ok decoded => DeserializeExtendedKey decoded

/-- Well-formedness of the representation fields of an extended key: field
lengths, byte ranges, bounded depth and index, and a known network.  Every
key the library constructs satisfies it. -/
def WFKey (k : ExtendedKey) : Prop :=
  k.key.length = 33 ∧ k.chainCode.length = 32 ∧ k.parentFP.length = 4 ∧
  k.depth < 256 ∧ k.childIndex < 4294967296 ∧
  (k.network = MainNet ∨ k.network = TestNet) ∧
  (∀ b ∈ k.key, b < 256) ∧ (∀ b ∈ k.chainCode, b < 256) ∧ (∀ b ∈ k.parentFP, b < 256)

/-- The extended keys produced by the library's constructors: master
derivation (over the two defined networks), child derivation (at a uint32
index), neutering, and parsing a serialized key. -/
inductive Produced : ExtendedKey → Prop where
  | master (seed : List Nat) (net : Network) (k : ExtendedKey) :
      (net = MainNet ∨ net = TestNet) → NewMasterKeyWithNetwork seed net = .ok k →
      Produced k
  | child (k : ExtendedKey) (i : Nat) (k' : ExtendedKey) :
      Produced k → i < 4294967296 → k.Child i = .ok k' → Produced k'
  | neutered (k k' : ExtendedKey) : Produced k → k.Neuter = .ok k' → Produced k'
  | parsed (s : List Char) (k : ExtendedKey) : ParseExtendedKey s = .ok k → Produced k

/-- A concrete 16-byte seed used to evaluate the serialization round trip. -/
def seedC2 : List Nat := [0, 1, 2, 3, 4, 5, 6, 7, 8, 9, 10, 11, 12, 13, 14, 15]

/-- The master key over MainNet from `seedC2`: the exact value
`NewMasterKeyWithNetwork seedC2 MainNet` returns. -/
def masterC2 : ExtendedKey :=
  ⟨0 :: (HMACSHA512 (strBytes ("Bitcoin seed")) seedC2).take 32,
   (HMACSHA512 (strBytes ("Bitcoin seed")) seedC2).drop 32,
   0, [0, 0, 0, 0], 0, MainNet, true⟩

/-- The data-model invariant on key material (spec data model): a private
key is 0x00 followed by a 32-byte scalar strictly between 0 and n; a public
key is a compressed SEC1 point (0x02/0x03 prefix and the 32-byte big-endian
x coordinate, as `CompressPoint` produces). -/
def KeyMaterialOK (k : ExtendedKey) : Prop :=
  if k.isPrivate then
    ∃ kb, k.key = 0 :: kb ∧ kb.length = 32 ∧
      0 < natOfBytes kb ∧ natOfBytes kb < secpN
  else
    ∃ p : GoPoint, p.x < (2 : Int) ^ 256 ∧ k.key = CompressPoint p

/-- The extended keys produced by the computing constructors: master
derivation, child derivation and neutering (not parsing). -/
inductive ProducedNP : ExtendedKey → Prop where
  | master (seed : List Nat) (net : Network) (k : ExtendedKey) :
      (net = MainNet ∨ net = TestNet) → NewMasterKeyWithNetwork seed net = .ok k →
      ProducedNP k
  | child (k : ExtendedKey) (i : Nat) (k' : ExtendedKey) :
      ProducedNP k → i < 4294967296 → k.Child i = .ok k' → ProducedNP k'
  | neutered (k k' : ExtendedKey) : ProducedNP k → k.Neuter = .ok k' → ProducedNP k'

/-- A 78-byte serialized key with the MainNet private version whose scalar
field is all zero (used against the parse constructor). -/
def badSerialC6 : List Nat := [4, 136, 173, 228] ++ List.replicate 74 0

/-- The key `DeserializeExtendedKey` returns for `badSerialC6`: private with
a zero scalar. -/
def badKeyC6 : ExtendedKey :=
  ⟨List.replicate 33 0, List.replicate 32 0, 0, [0, 0, 0, 0], 0, MainNet, true⟩

/-! ## Ethereum EIP-55 (source `pkgs/address/zcash.go`, `EthereumAddress`) -/

/-- Lowercase hex digit character for a value below 16 (Go `hex.EncodeToString`
uses lowercase). -/
def hexDigit (n : Nat) : Char :=
  if n < 10 then Char.ofNat (48 + n) else Char.ofNat (87 + n)

/-- Go `hex.EncodeToString`: two lowercase hex chars per byte. -/
def hexEncode : List Nat → List Char
  | [] => []
  | b :: bs => hexDigit (b / 16) :: hexDigit (b % 16) :: hexEncode bs

/-- Whether Go `hex.DecodeString` accepts the character. -/
def isHexDigitGo (c : Char) : Bool :=
  ('0' ≤ c && c ≤ '9') || ('a' ≤ c && c ≤ 'f') || ('A' ≤ c && c ≤ 'F')

/-- Hex digit value (both cases), as Go `hex.DecodeString` computes it. -/
def hexVal (c : Char) : Nat :=
  if '0' ≤ c ∧ c ≤ '9' then c.toNat - 48
  else if 'a' ≤ c ∧ c ≤ 'f' then c.toNat - 87
  else if 'A' ≤ c ∧ c ≤ 'F' then c.toNat - 55
  else 0

/-- Go `hex.DecodeString` on an even-length valid string: byte per char pair. -/
def hexDecode : List Char → List Nat
  | c1 :: c2 :: rest => (hexVal c1 * 16 + hexVal c2) :: hexDecode rest
  | _ => []

/-- Go `strings.ToLower` on one character (only A–Z change). -/
def goToLower (c : Char) : Char :=
  if 'A' ≤ c ∧ c ≤ 'Z' then Char.ofNat (c.toNat + 32) else c

/-- The hash nibble the EIP-55 loop consults at string index i
(`hash[i/2] >> 4` for even i, `hash[i/2] & 0x0F` for odd i). -/
def ethNibble (hash : List Nat) (i : Nat) : Nat :=
  if i % 2 = 0 then shr (hash.getD (i / 2) 0) 4 else and64 (hash.getD (i / 2) 0) 15

/-- The per-character loop of `toChecksumAddress`: uppercase a–f when the
corresponding hash nibble is at least 8. -/
def eip55Map (hash : List Nat) : Nat → List Char → List Char
  | _, [] => []
  | i, c :: cs =>
      (if 'a' ≤ c ∧ c ≤ 'f' then
        (if 8 ≤ ethNibble hash i then Char.ofNat (c.toNat - 32) else c)
      else c) :: eip55Map hash (i + 1) cs

/-- Source `EthereumAddress.toChecksumAddress`. -/
def toChecksumAddress (address : List Nat) : List Char :=
  let hexAddr := hexEncode address
  let hash := Keccak256 (hexAddr.map Char.toNat)
  '0' :: 'x' :: eip55Map hash 0 hexAddr

/-- `strings.HasPrefix address "0x"`. -/
def startsWith0xLower : List Char → Bool
  | '0' :: 'x' :: _ => true
  | _ => false

/-- `strings.HasPrefix address "0X"`. -/
def startsWith0xUpper : List Char → Bool
  | '0' :: 'X' :: _ => true
  | _ => false

/-- Whether Go `hex.DecodeString` succeeds: even length, all hex chars. -/
def hexDecOK (s : List Char) : Bool := s.length % 2 == 0 && s.all isHexDigitGo

/-- Source `EthereumAddress.Validate`. -/
def EthValidate (address : List Char) : Bool :=
  (startsWith0xLower address || startsWith0xUpper address) &&
    address.length == 42 && hexDecOK (address.drop 2)

/-- Source `EthereumAddress.ValidateChecksum`. -/
def EthValidateChecksum (address : List Char) : Bool :=
  if ¬ EthValidate address then false
  else address == toChecksumAddress (hexDecode ((address.drop 2).map goToLower))

/-- Source `EthereumAddress.Generate` (33-byte and other lengths are errors). -/
def EthGenerate (publicKey : List Nat) : Except Unit (List Char) :=
  if publicKey.length = 64 then .ok (toChecksumAddress ((Keccak256 publicKey).drop 12))
  else if publicKey.length = 65 then
    (if publicKey.getD 0 0 ≠ 4 then .error ()
     else .ok (toChecksumAddress ((Keccak256 (publicKey.drop 1)).drop 12)))
  else .error ()

/-- Case-flip of a single hex letter (the operation the EIP-55 claim
quantifies over); digits have no case. -/
def flipHexCase (c : Char) : Option Char :=
  if c = 'a' then some 'A' else if c = 'b' then some 'B' else if c = 'c' then some 'C'
  else if c = 'd' then some 'D' else if c = 'e' then some 'E' else if c = 'f' then some 'F'
  else if c = 'A' then some 'a' else if c = 'B' then some 'b' else if c = 'C' then some 'c'
  else if c = 'D' then some 'd' else if c = 'E' then some 'e' else if c = 'F' then some 'f'
  else none

/-- A concrete 20-byte address payload for evaluating the EIP-55 claim. -/
def addrC8 : List Nat :=
  [90, 174, 182, 5, 63, 62, 148, 201, 185, 160, 159, 51, 102, 148, 53, 231, 239, 27, 234, 237]

/-! ## Address package: multi-chain validators -/

/-- Go `strings.ToUpper` on an ASCII character. -/
def goToUpper (c : Char) : Char :=
  if 'a' ≤ c ∧ c ≤ 'z' then Char.ofNat (c.toNat - 32) else c

/-- Whether an `Except` value is `ok` (Go `err == nil`). -/
def exceptOK {ε α : Type} : Except ε α → Bool
  | .ok _ => true
  | .error _ => false

/-- Source `RippleAlphabet` (address package). -/
def RippleAlphabet : List Char :=
  ("rpshnaf39wBUDNEGHJKLM4PQRST7VWXYZ2bcdeCg65jkm8oFqi1tuvAxyz").toList

/-- One step of the decode loop of the address-package
`Base58Encoder.Decode`, for an arbitrary alphabet. -/
def b58StepIn (alphabet : List Char) (acc : Option Nat) (c : Char) : Option Nat :=
  match acc, alphabet.findIdx? (fun x => x == c) with
  | some v, some i => some (v * 58 + i)
  | _, _ => none

/-- Source address-package `Base58Encoder.Decode`: count leading
first-alphabet characters, accumulate base-58 digits (failing on a character
outside the alphabet), and prepend one zero byte per leading first-alphabet
character. -/
def b58DecodeIn (alphabet : List Char) (str : List Char) : Except Unit (List Nat) :=
  if str.isEmpty then .ok []
  else
    let leadZeros := (str.takeWhile (fun c => c == alphabet.getD 0 ' ')).length
    match str.foldl (b58StepIn alphabet) (some 0) with
    | none => .error ()
    | some num => .ok (List.replicate leadZeros 0 ++ natToBytesBE num)

/-- Source address-package `Base58CheckDecode`: returns the version byte and
the payload between the version byte and the 4-byte double-SHA256 checksum. -/
def AddrBase58CheckDecode (str : List Char) : Except Unit (Nat × List Nat) :=
  match b58DecodeIn BitcoinAlphabet str with
  | .error _ => .error ()
  | .ok decoded =>
    if decoded.length < 5 then .error ()
    else if decoded.drop (decoded.length - 4) ==
        Checksum4 (decoded.take (decoded.length - 4)) then
      .ok (decoded.headD 0, (decoded.drop 1).take (decoded.length - 5))
    else .error ()

/-- The two Bech32 variants (`Bech32Standard`, `Bech32m`). -/
inductive Bech32Enc where
  | std
  | m
  deriving DecidableEq

/-- Source `bech32Charset`. -/
def bech32Charset : List Char := ("qpzry9x8gf2tvdw0s3jn54khce6mua7l").toList

/-- The `bech32CharsetMap` lookup. -/
def bech32Idx (c : Char) : Option Nat := bech32Charset.findIdx? (fun x => x == c)

/-- The generator constants of `bech32Polymod`. -/
def bech32Gen : List Nat := [0x3b6a57b2, 0x26508e6d, 0x1ea119fa, 0x3d4233dd, 0x2a1462b3]

/-- One iteration of the `bech32Polymod` loop. -/
def bech32PolymodStep (chk v : Nat) : Nat :=
  let top := shr chk 25
  (List.range 5).foldl
    (fun c i => if and64 (shr top i) 1 == 1 then xor64 c (bech32Gen.getD i 0) else c)
    (xor64 ((and64 chk 0x1ffffff) * 32) v)

/-- Source `bech32Polymod`. -/
def bech32Polymod (values : List Nat) : Nat := values.foldl bech32PolymodStep 1

/-- Source `bech32HRPExpand`. -/
def bech32HRPExpand (hrp : List Char) : List Nat :=
  hrp.map (fun c => shr c.toNat 5) ++ [0] ++ hrp.map (fun c => and64 c.toNat 31)

/-- Source `bech32VerifyChecksum`. -/
def bech32VerifyChecksum (hrp : List Char) (data : List Nat) (enc : Bech32Enc) : Bool :=
  bech32Polymod (bech32HRPExpand hrp ++ data) ==
    (match enc with | .std => 1 | .m => 0x2bc830a3)

/-- The inner `for bits >= toBits` loop of `convertBits`, with fuel.  The
fuel passed is always larger than `bits` and each round removes
`toBits ≥ 1` bits, so the fuel is never exhausted at the call sites. -/
def cbFlush : Nat → Nat → Nat → Nat → List Nat → Nat × List Nat
  | 0, _, bits, _, out => (bits, out)
  | fuel + 1, toBits, bits, acc, out =>
    if toBits ≤ bits then
      cbFlush fuel toBits (bits - toBits) acc
        (out ++ [and64 (shr acc (bits - toBits)) (2 ^ toBits - 1)])
    else (bits, out)

/-- Source `convertBits`: general regrouping of `fromBits`-bit values into
`toBits`-bit values, with a strict padding check when `pad` is false. -/
def convertBitsGo (data : List Nat) (fromBits toBits : Nat) (pad : Bool) :
    Except Unit (List Nat) :=
  let maxv := 2 ^ toBits - 1
  match data.foldl
      (fun st value =>
        match st with
        | .error e => .error e
        | .ok (acc, bits, result) =>
          if shr value fromBits ≠ 0 then .error ()
          else
            let acc2 := or64 (acc * 2 ^ fromBits) value
            let fl := cbFlush (bits + fromBits + 1) toBits (bits + fromBits) acc2 result
            .ok (acc2, fl.1, fl.2))
      (Except.ok (0, 0, ([] : List Nat)) : Except Unit (Nat × Nat × List Nat)) with
  | .error _ => .error ()
  | .ok (acc, bits, result) =>
    if pad then
      .ok (if 0 < bits then result ++ [and64 (acc * 2 ^ (toBits - bits)) maxv] else result)
    else if fromBits ≤ bits ∨ and64 (acc * 2 ^ (toBits - bits)) maxv ≠ 0 then .error ()
    else .ok result

/-- Go `strings.LastIndex` specialised to a one-character needle: −1 when
the character does not occur. -/
def lastIdxOfChar (l : List Char) (c : Char) : Int :=
  match l.reverse.findIdx? (fun x => x == c) with
  | none => -1
  | some r => Int.ofNat (l.length - 1 - r)

/-- Source `Bech32Decode`: mixed-case check, separator search, charset
mapping, checksum verification (standard first, then Bech32m), and 5→8-bit
regrouping of the data part without its 6-symbol checksum. -/
def Bech32Decode (str : List Char) :
    Except Unit (List Char × List Nat × Bech32Enc) :=
  let lower := str.map goToLower
  let upper := str.map goToUpper
  if str ≠ lower ∧ str ≠ upper then .error ()
  else
    let s := lower
    let pos := lastIdxOfChar s '1'
    if pos < 1 ∨ Int.ofNat s.length < pos + 7 then .error ()
    else
      let p := pos.toNat
      let hrp := s.take p
      let dataStr := s.drop (p + 1)
      match dataStr.mapM bech32Idx with
      | none => .error ()
      | some intData =>
        match
          (if bech32VerifyChecksum hrp intData .std then some Bech32Enc.std
           else if bech32VerifyChecksum hrp intData .m then some Bech32Enc.m
           else none) with
        | none => .error ()
        | some enc =>
          match convertBitsGo (intData.take (intData.length - 6)) 5 8 false with
          | .error _ => .error ()
          | .ok conv => .ok (hrp, conv, enc)

/-- Source `SegWitDecode`: Bech32-decodes, then re-reads the 5-bit data of
the lower-cased input to take the witness version (first symbol, map lookup
defaulting to 0) and regroup the program without version and checksum. -/
def SegWitDecode (str : List Char) :
    Except Unit (List Char × Nat × List Nat) :=
  match Bech32Decode str with
  | .error _ => .error ()
  | .ok (hrp, data, enc) =>
    if data.length < 1 then .error ()
    else
      let lower := str.map goToLower
      let p := (lastIdxOfChar lower '1').toNat
      let dataStr := lower.drop (p + 1)
      let wver := (bech32Idx (dataStr.headD ' ')).getD 0
      if wver = 0 ∧ enc ≠ Bech32Enc.std then .error ()
      else if 0 < wver ∧ enc ≠ Bech32Enc.m then .error ()
      else
        let intData := dataStr.map (fun c => (bech32Idx c).getD 0)
        match convertBitsGo ((intData.take (intData.length - 6)).drop 1) 5 8 false with
        | .error _ => .error ()
        | .ok program => .ok (hrp, wver, program)

/-- Source `BitcoinAddress.Validate`: SegWit path for `bc1`/`tb1`, otherwise
Base58Check with the Bitcoin P2PKH/P2SH version bytes. -/
def BitcoinValidate (testnet : Bool) (address : List Char) : Bool :=
  let b58part : Bool :=
    match AddrBase58CheckDecode address with
    | .error _ => false
    | .ok (version, _) =>
      if version = 0x00 ∨ version = 0x05 then !testnet
      else if version = 0x6F ∨ version = 0xC4 then testnet
      else false
  if 4 < address.length ∧
      (address.take 3 = ("bc1").toList ∨ address.take 3 = ("tb1").toList) then
    exceptOK (SegWitDecode address)
  else b58part

/-- Source `LitecoinAddress.Validate`. -/
def LitecoinValidate (testnet : Bool) (address : List Char) : Bool :=
  let b58part : Bool :=
    match AddrBase58CheckDecode address with
    | .error _ => false
    | .ok (version, _) =>
      if version = 0x30 ∨ version = 0x32 then !testnet
      else if version = 0x6F ∨ version = 0x3A then testnet
      else false
  if 4 < address.length ∧
      (address.take 4 = ("ltc1").toList ∨ address.take 4 = ("tltc").toList) then
    exceptOK (SegWitDecode address)
  else b58part

/-- Source `DogecoinAddress.Validate`. -/
def DogecoinValidate (testnet : Bool) (address : List Char) : Bool :=
  match AddrBase58CheckDecode address with
  | .error _ => false
  | .ok (version, _) =>
    if version = 0x1E ∨ version = 0x16 then !testnet
    else if version = 0x71 ∨ version = 0xC4 then testnet
    else false

/-- Source `cashAddrCharset` (textually the same 32 characters as the Bech32
charset). -/
def cashAddrCharset : List Char := ("qpzry9x8gf2tvdw0s3jn54khce6mua7l").toList

/-- The generator constants of `cashAddrPolymod`. -/
def cashAddrGen : List Nat :=
  [0x98f2bc8e61, 0x79b76d99e2, 0xf33e5fb3c4, 0xae2eabe2a8, 0x1e4f43e470]

/-- One iteration of the `cashAddrPolymod` loop. -/
def cashAddrPolymodStep (chk v : Nat) : Nat :=
  let top := shr chk 35
  (List.range 5).foldl
    (fun c i => if and64 (shr top i) 1 == 1 then xor64 c (cashAddrGen.getD i 0) else c)
    (xor64 ((and64 chk 0x07ffffffff) * 32) v)

/-- Source `cashAddrPolymod`. -/
def cashAddrPolymod (values : List Nat) : Nat := values.foldl cashAddrPolymodStep 1

/-- Source `BitcoinCashAddress.Validate`: lower-case, split off an optional
`bitcoincash:`/`bchtest:` part before the first colon, map the data through
the CashAddr charset and check the 40-bit polymod over expanded-part plus
data. -/
def BitcoinCashValidate (testnet : Bool) (address : List Char) : Bool :=
  let lower := address.map goToLower
  let pfx :=
    if lower.contains ':' then lower.takeWhile (fun c => !(c == ':'))
    else ("bitcoincash").toList
  let dat :=
    if lower.contains ':' then
      lower.drop ((lower.takeWhile (fun c => !(c == ':'))).length + 1)
    else lower
  let expected := if testnet then ("bchtest").toList else ("bitcoincash").toList
  if pfx ≠ expected then false
  else
    match dat.mapM (fun c => cashAddrCharset.findIdx? (fun x => x == c)) with
    | none => false
    | some decoded =>
      let pfxData := pfx.map (fun c => and64 c.toNat 0x1f) ++ [0]
      cashAddrPolymod (pfxData ++ decoded) == 0

/-- Source `CosmosAddress.Validate`, parameterised by the configured HRP
(`cosmos`, `bnb` and `sei` for the registered generators): Bech32-decode and
accept the HRP itself or its `valoper`/`valcons` derivative. -/
def CosmosValidate (hrp : List Char) (address : List Char) : Bool :=
  match Bech32Decode address with
  | .error _ => false
  | .ok (h, _, _) =>
    h == hrp || h == hrp ++ ("valoper").toList || h == hrp ++ ("valcons").toList

/-- Source `TronAddress.Validate`: hex form (`41`/`a0` + 40 hex chars) or
Base58 form (`T`, 25 decoded bytes, version byte, double-SHA256 checksum). -/
def TronValidate (testnet : Bool) (address : List Char) : Bool :=
  if address.take 2 = ("41").toList ∨ address.take 2 = ("a0").toList then
    if address.length = 42 then hexDecOK address else false
  else if address.take 1 ≠ ("T").toList then false
  else
    match b58DecodeIn BitcoinAlphabet address with
    | .error _ => false
    | .ok decoded =>
      if decoded.length ≠ 25 then false
      else if decoded.headD 0 ≠ (if testnet then 0xa0 else 0x41) then false
      else decoded.drop 21 == (DoubleSHA256 (decoded.take 21)).take 4

/-- Source `RippleAddress.Validate`: leading `r`, Ripple Base58 alphabet,
25 decoded bytes, zero version byte, double-SHA256 checksum. -/
def RippleValidate (address : List Char) : Bool :=
  if address.length = 0 ∨ address.headD ' ' ≠ 'r' then false
  else
    match b58DecodeIn RippleAlphabet address with
    | .error _ => false
    | .ok decoded =>
      if decoded.length ≠ 25 then false
      else if decoded.headD 0 ≠ 0 then false
      else decoded.drop 21 == (DoubleSHA256 (decoded.take 21)).take 4

/-- Source `SolanaAddress.Validate`: Base58 decodes to exactly 32 bytes. -/
def SolanaValidate (address : List Char) : Bool :=
  match b58DecodeIn BitcoinAlphabet address with
  | .error _ => false
  | .ok decoded => decoded.length == 32

/-- The RFC 4648 standard base32 alphabet used by `base32.StdEncoding`. -/
def base32StdAlphabet : List Char := ("ABCDEFGHIJKLMNOPQRSTUVWXYZ234567").toList

/-- Index of a character in the standard base32 alphabet. -/
def b32Idx (c : Char) : Option Nat := base32StdAlphabet.findIdx? (fun x => x == c)

/-- 5-bit groups to bytes, most significant bits first: each group adds five
bits to the accumulator and a byte is emitted whenever eight are available. -/
def b32Bytes (vals : List Nat) : List Nat :=
  (vals.foldl
    (fun st v =>
      let acc := st.1 * 32 + v
      let bits := st.2.1 + 5
      if 8 ≤ bits then (acc, bits - 8, st.2.2 ++ [and64 (shr acc (bits - 8)) 255])
      else (acc, bits, st.2.2))
    ((0, 0, []) : Nat × Nat × List Nat)).2.2

/-- Modelled from the spec: the Go standard library `encoding/base32`
decoder with `StdEncoding.WithPadding(NoPadding)` (used by the Stellar and
Algorand generators; the library itself is outside src/): a final fragment
of 1, 3 or 6 symbols is invalid, every symbol must be in the alphabet, and
the output is the sequence of complete decoded bytes. -/
def base32DecodeNP (s : List Char) : Except Unit (List Nat) :=
  if s.length % 8 = 1 ∨ s.length % 8 = 3 ∨ s.length % 8 = 6 then .error ()
  else
    match s.mapM b32Idx with
    | none => .error ()
    | some vals => .ok (b32Bytes vals)

/-- Truncation to a Go `uint16`. -/
def w16 (x : Nat) : Nat := x % 65536

/-- One shift round of `crc16XModem`. -/
def crc16Round (crc : Nat) : Nat :=
  if and64 crc 0x8000 ≠ 0 then xor64 (w16 (crc * 2)) 0x1021 else w16 (crc * 2)

/-- Source `crc16XModem` (polynomial 0x1021, zero initial value). -/
def crc16XModem (data : List Nat) : Nat :=
  data.foldl
    (fun crc b =>
      (List.range 8).foldl (fun c _ => crc16Round c) (xor64 crc (w16 (b * 256))))
    0

/-- Source `StellarAddress.Validate`: 56 characters starting with `G`,
base32 to 35 bytes, version byte 48, CRC16-XModem checksum stored
little-endian in the last two bytes. -/
def StellarValidate (address : List Char) : Bool :=
  if address.length ≠ 56 ∨ address.headD ' ' ≠ 'G' then false
  else
    match base32DecodeNP address with
    | .error _ => false
    | .ok decoded =>
      if decoded.length ≠ 35 then false
      else if decoded.headD 0 ≠ 48 then false
      else crc16XModem (decoded.take 33) == decoded.getD 33 0 + decoded.getD 34 0 * 256

/-- Source `AlgorandAddress.Validate`: 58 characters, base32 to 36 bytes,
last four bytes are the tail of the SHA-256 of the 32-byte public key. -/
def AlgorandValidate (address : List Char) : Bool :=
  if address.length ≠ 58 then false
  else
    match base32DecodeNP address with
    | .error _ => false
    | .ok decoded =>
      if decoded.length ≠ 36 then false
      else decoded.drop 32 == (sha256 (decoded.take 32)).drop 28

/-- The character class `[a-z0-9]` of the NEAR named-account pattern. -/
def nearAlnum (c : Char) : Bool :=
  (97 ≤ c.toNat && c.toNat ≤ 122) || (48 ≤ c.toNat && c.toNat ≤ 57)

/-- The character class `[a-z0-9_-]`. -/
def nearMid (c : Char) : Bool := nearAlnum c || c == '_' || c == '-'

/-- One label of the NEAR named-account regular expression,
`[a-z0-9]([a-z0-9_-]*[a-z0-9])?`: first and last characters alphanumeric,
interior characters may also be underscore or hyphen. -/
def nearLabelOK : List Char → Bool
  | [] => false
  | c :: rest =>
    nearAlnum c &&
      (rest.isEmpty || (nearAlnum (rest.getLastD ' ') && rest.dropLast.all nearMid))

/-- Source `NEARAddress.ValidateNamed`: length between 2 and 64 and the
anchored pattern `label(\.label)*`, modelled by splitting on periods: every
dot-separated segment must be a well-formed label, and the empty segments
produced by leading, trailing or doubled dots fail. -/
def NEARValidateNamed (address : List Char) : Bool :=
  if address.length < 2 ∨ 64 < address.length then false
  else (splitOnChar '.' address).all nearLabelOK

/-- Source `NEARAddress.ValidateImplicit`: exactly 64 hex characters. -/
def NEARValidateImplicit (address : List Char) : Bool :=
  address.length == 64 && hexDecOK address

/-- Source `NEARAddress.Validate`: implicit or named. -/
def NEARValidate (address : List Char) : Bool :=
  NEARValidateImplicit address || NEARValidateNamed address

/-- Source `CardanoAddress.Validate` (its `testnet` field is never
consulted): Bech32 with one of the four Shelley HRPs, a known network tag in
the header byte, and a per-address-type length check with 28-byte key
hashes. -/
def CardanoValidate (address : List Char) : Bool :=
  match Bech32Decode address with
  | .error _ => false
  | .ok (hrp, data, _) =>
    if hrp ≠ ("addr").toList ∧ hrp ≠ ("addr_test").toList ∧
        hrp ≠ ("stake").toList ∧ hrp ≠ ("stake_test").toList then false
    else if data.length < 29 then false
    else
      let header := data.headD 0
      let addrType := and64 (shr header 4) 15
      let network := and64 header 15
      if network ≠ 1 ∧ network ≠ 0 then false
      else if addrType = 0 ∨ addrType = 1 ∨ addrType = 2 ∨ addrType = 3 then
        data.length == 57
      else if addrType = 6 ∨ addrType = 7 ∨ addrType = 14 ∨ addrType = 15 then
        data.length == 29
      else if addrType = 4 ∨ addrType = 5 then decide (30 ≤ data.length)
      else false

/-- Source `PolkadotAddress.Validate`, parameterised by the configured
network tag (0 for the registered Polkadot generator, 255 meaning any):
Base58, one- or two-byte SS58 tag, 32-byte public key, and a checksum equal
to the first two bytes of BLAKE2b-512 over `"SS58PRE"`, the tag bytes and
the public key. -/
def PolkadotValidate (netTag : Nat) (address : List Char) : Bool :=
  match b58DecodeIn BitcoinAlphabet address with
  | .error _ => false
  | .ok decoded =>
    if decoded.length < 35 then false
    else
      let d0 := decoded.headD 0
      let pfxLen := if d0 < 64 then 1 else 2
      let tagOf := if d0 < 64 then d0 else (and64 d0 63) * 4 + shr (decoded.getD 1 0) 6
      if 128 ≤ d0 then false
      else if netTag ≠ 255 ∧ tagOf ≠ netTag then false
      else if decoded.length ≠ pfxLen + 34 then false
      else
        let hash :=
          Blake2b512 (strBytes ("SS58PRE") ++ decoded.take pfxLen ++
            (decoded.drop pfxLen).take 32)
        decoded.getD (pfxLen + 32) 0 == hash.getD 0 0 &&
          decoded.getD (pfxLen + 33) 0 == hash.getD 1 0

/-- Source `AptosAddress.Validate`: `0x` followed by at most 64 hex
characters. -/
def AptosValidate (address : List Char) : Bool :=
  if ¬ startsWith0xLower address then false
  else
    let hexPart := address.drop 2
    if 64 < hexPart.length then false else hexDecOK hexPart

/-- Source `SuiAddress.Validate`: `0x` followed by exactly 64 hex
characters. -/
def SuiValidate (address : List Char) : Bool :=
  if ¬ startsWith0xLower address then false
  else
    let hexPart := address.drop 2
    hexPart.length == 64 && hexDecOK hexPart

/-- Placeholder entry for total indexing into the validator registry. -/
def defaultValidator : List Char × (List Char → Bool) := ([], fun _ => false)

/-- Source `Factory.registerDefaults`: the chain identifier and the
`Validate` method of every registered address generator, in registration
order.  `NewEVMAddress` returns an `*EthereumAddress`, and the Avalanche
entry is `NewAvalancheCChainAddress()`, which also returns an
`*EthereumAddress`, so those ten validators are the Ethereum one. -/
def registeredValidators : List (List Char × (List Char → Bool)) :=
  [(("btc").toList, BitcoinValidate false),
   (("ltc").toList, LitecoinValidate false),
   (("doge").toList, DogecoinValidate false),
   (("bch").toList, BitcoinCashValidate false),
   (("eth").toList, EthValidate),
   (("bsc").toList, EthValidate),
   (("matic").toList, EthValidate),
   (("ftm").toList, EthValidate),
   (("op").toList, EthValidate),
   (("arb").toList, EthValidate),
   (("vet").toList, EthValidate),
   (("theta").toList, EthValidate),
   (("etc").toList, EthValidate),
   (("avax").toList, EthValidate),
   (("atom").toList, CosmosValidate (("cosmos").toList)),
   (("bnb").toList, CosmosValidate (("bnb").toList)),
   (("sei").toList, CosmosValidate (("sei").toList)),
   (("trx").toList, TronValidate false),
   (("xrp").toList, RippleValidate),
   (("sol").toList, SolanaValidate),
   (("xlm").toList, StellarValidate),
   (("algo").toList, AlgorandValidate),
   (("near").toList, NEARValidate),
   (("ada").toList, CardanoValidate),
   (("dot").toList, PolkadotValidate 0),
   (("apt").toList, AptosValidate),
   (("sui").toList, SuiValidate)]

/-! ## Lemmas: strings.Fields / strings.Join round trip -/

theorem splitSp_nil : splitSp [] = [[]] := rfl

theorem splitSp_cons (c : Char) (cs : List Char) :
    splitSp (c :: cs) =
      if goIsSpace c then [] :: splitSp cs
      else
        match splitSp cs with
        | [] => [[c]]
        | w :: ws => (c :: w) :: ws := rfl

theorem splitSp_ne_nil (cs : List Char) : splitSp cs ≠ [] := by
  induction cs with
  | nil => simp [splitSp_nil]
  | cons c cs ih =>
    rw [splitSp_cons]
    by_cases h : goIsSpace c
    · simp [h]
    · simp only [h, if_false]
      cases splitSp cs <;> simp

theorem splitSp_word_append (w cs : List Char) (hw : ∀ c ∈ w, goIsSpace c = false) :
    splitSp (w ++ cs) = (w ++ (splitSp cs).headD []) :: (splitSp cs).tail := by
  induction w with
  | nil =>
    simp only [List.nil_append]
    rcases h : splitSp cs with _ | ⟨x, xs⟩
    · exact absurd h (splitSp_ne_nil cs)
    · simp
  | cons c w ih =>
    have hc : goIsSpace c = false := hw c (by simp)
    have hw' : ∀ x ∈ w, goIsSpace x = false := fun x hx => hw x (by simp [hx])
    simp only [List.cons_append, splitSp_cons, hc, Bool.false_eq_true, if_false, ih hw']

theorem splitSp_join (ws : List (List Char)) (hne : ws ≠ [])
    (hsp : ∀ w ∈ ws, ∀ c ∈ w, goIsSpace c = false) :
    splitSp (joinSpace ws) = ws := by
  induction ws with
  | nil => exact absurd rfl hne
  | cons w rest ih =>
    cases rest with
    | nil =>
      have : joinSpace [w] = w ++ [] := by simp [joinSpace]
      rw [this, splitSp_word_append w [] (hsp w (by simp)), splitSp_nil]
      simp
    | cons v vs =>
      have hj : joinSpace (w :: v :: vs) = w ++ ' ' :: joinSpace (v :: vs) := rfl
      rw [hj, splitSp_word_append w _ (hsp w (by simp))]
      have hsp' : ∀ u ∈ v :: vs, ∀ c ∈ u, goIsSpace c = false :=
        fun u hu => hsp u (by simp [hu])
      have hspace : goIsSpace ' ' = true := rfl
      rw [splitSp_cons, if_pos hspace, ih (by simp) hsp']
      simp

theorem goFields_join (ws : List (List Char)) (hne : ∀ w ∈ ws, w ≠ [])
    (hsp : ∀ w ∈ ws, ∀ c ∈ w, goIsSpace c = false) :
    goFields (joinSpace ws) = ws := by
  cases hws : ws with
  | nil => simp [goFields, joinSpace, splitSp_nil]
  | cons w rest =>
    rw [← hws, goFields, splitSp_join ws (by simp [hws]) hsp]
    apply List.filter_eq_self.mpr
    intro a ha
    simpa using hne a ha

/-! ## Lemmas: most-significant-bit-first packing round trips -/

theorem bitsFold_shift (bs : List Bool) (acc : Nat) :
    bs.foldl (fun a b => 2 * a + (if b then 1 else 0)) acc =
      acc * 2 ^ bs.length + bitsFold bs := by
  induction bs generalizing acc with
  | nil => simp [bitsFold]
  | cons b bs ih =>
    have h1 : bitsFold (b :: bs) = (if b then 1 else 0) * 2 ^ bs.length + bitsFold bs := by
      show List.foldl _ ((fun a c => 2 * a + (if c then 1 else 0)) 0 b) bs = _
      rw [ih]
      simp
    show List.foldl _ ((fun a c => 2 * a + (if c then 1 else 0)) acc b) bs = _
    rw [ih, h1]
    simp only [List.length_cons, Nat.pow_succ]
    cases b <;> simp <;> ring

theorem bitsFold_cons (b : Bool) (bs : List Bool) :
    bitsFold (b :: bs) = (if b then 1 else 0) * 2 ^ bs.length + bitsFold bs := by
  show List.foldl _ ((fun a c => 2 * a + (if c then 1 else 0)) 0 b) bs = _
  rw [bitsFold_shift]
  simp

theorem bitsFold_lt (bs : List Bool) : bitsFold bs < 2 ^ bs.length := by
  induction bs with
  | nil => simp [bitsFold]
  | cons b bs ih =>
    rw [bitsFold_cons]
    have hb : (if b then 1 else 0) ≤ 1 := by cases b <;> simp
    calc (if b then 1 else 0) * 2 ^ bs.length + bitsFold bs
        ≤ 1 * 2 ^ bs.length + bitsFold bs := by
          exact Nat.add_le_add_right (Nat.mul_le_mul_right _ hb) _
      _ < 2 ^ bs.length + 2 ^ bs.length := by omega
      _ = 2 ^ (b :: bs).length := by simp [Nat.pow_succ]; ring

theorem msbBits_length (w n : Nat) : (msbBits w n).length = w := by
  simp [msbBits]

theorem div_pow_mod_two_mod_pow (n w k : Nat) (hk : k < w) :
    n / 2 ^ k % 2 = n % 2 ^ w / 2 ^ k % 2 := by
  conv =>
    lhs
    rw [← Nat.mod_add_div n (2 ^ w)]
  have h1 : 2 ^ w = 2 ^ k * 2 ^ (w - k) := by
    rw [← Nat.pow_add]
    congr 1
    omega
  rw [h1, Nat.mul_assoc, Nat.add_mul_div_left _ _ (Nat.pos_pow_of_pos _ (by norm_num))]
  have h2 : 2 ^ (w - k) = 2 ^ (w - k - 1) * 2 := by
    rw [Nat.mul_comm, ← Nat.pow_succ']
    congr 1
    omega
  rw [h2]
  have h3 : 2 ^ (w - k - 1) * 2 * (n / (2 ^ k * (2 ^ (w - k - 1) * 2))) =
      2 ^ (w - k - 1) * (n / (2 ^ k * (2 ^ (w - k - 1) * 2))) * 2 := by ring
  rw [h3, Nat.add_mul_mod_self_right]

theorem msbBits_succ (w n : Nat) :
    msbBits (w + 1) n = (n / 2 ^ w % 2 == 1) :: msbBits w (n % 2 ^ w) := by
  rw [msbBits, List.range_succ_eq_map, List.map_cons, List.map_map]
  congr 1
  show List.map _ (List.range w) = msbBits w (n % 2 ^ w)
  rw [msbBits]
  apply List.map_congr_left
  intro j hj
  have hjw : j < w := List.mem_range.mp hj
  simp only [Function.comp_apply]
  have hk : w + 1 - 1 - Nat.succ j = w - 1 - j := by omega
  rw [hk, div_pow_mod_two_mod_pow n w (w - 1 - j) (by omega)]

theorem msbBits_bitsFold (bs : List Bool) : msbBits bs.length (bitsFold bs) = bs := by
  induction bs with
  | nil => simp [msbBits]
  | cons b bs ih =>
    rw [List.length_cons, msbBits_succ, bitsFold_cons]
    have hm : bitsFold bs < 2 ^ bs.length := bitsFold_lt bs
    have hdiv : ((if b then 1 else 0) * 2 ^ bs.length + bitsFold bs) / 2 ^ bs.length =
        (if b then 1 else 0) := by
      rw [Nat.add_comm, Nat.add_mul_div_right _ _ (Nat.pos_pow_of_pos _ (by norm_num)),
        Nat.div_eq_of_lt hm]
      simp
    have hmod : ((if b then 1 else 0) * 2 ^ bs.length + bitsFold bs) % 2 ^ bs.length =
        bitsFold bs := by
      rw [Nat.add_comm, Nat.add_mul_mod_self_right, Nat.mod_eq_of_lt hm]
    rw [hdiv, hmod, ih]
    congr 1
    cases b <;> rfl

theorem bitsFold_msbBits (w n : Nat) (h : n < 2 ^ w) : bitsFold (msbBits w n) = n := by
  induction w generalizing n with
  | zero =>
    have : n = 0 := by simpa using h
    simp [this, msbBits, bitsFold]
  | succ w ih =>
    rw [msbBits_succ, bitsFold_cons, msbBits_length,
      ih _ (Nat.mod_lt _ (Nat.pos_pow_of_pos _ (by norm_num)))]
    have h2 : n / 2 ^ w < 2 := by
      rw [Nat.div_lt_iff_lt_mul (Nat.pos_pow_of_pos _ (by norm_num))]
      calc n < 2 ^ (w + 1) := h
        _ = 2 * 2 ^ w := by rw [Nat.pow_succ]; ring
    have h01 : n / 2 ^ w = 0 ∨ n / 2 ^ w = 1 := by
      have hgen : ∀ x : Nat, x < 2 → x = 0 ∨ x = 1 := by omega
      exact hgen _ h2
    have hmod2 : n / 2 ^ w % 2 = n / 2 ^ w := Nat.mod_eq_of_lt h2
    have hif : (if (n / 2 ^ w % 2 == 1) = true then 1 else 0) = n / 2 ^ w := by
      rcases h01 with h0 | h1
      · simp [hmod2, h0]
      · simp [hmod2, h1]
    rw [hif, Nat.mul_comm, Nat.div_add_mod]

theorem flatMap_msbBits_chunks (w : Nat) (hw : 0 < w) :
    ∀ (k : Nat) (bs : List Bool), bs.length = w * k →
    ((List.range k).map (fun i => bitsFold ((bs.drop (w * i)).take w))).flatMap (msbBits w)
      = bs := by
  intro k
  induction k with
  | zero =>
    intro bs hlen
    simp at hlen
    simp [hlen]
  | succ k ih =>
    intro bs hlen
    have hlenge : w ≤ bs.length := by
      rw [hlen]
      calc w = w * 1 := by ring
        _ ≤ w * (k + 1) := Nat.mul_le_mul_left _ (by omega)
    rw [List.range_succ_eq_map, List.map_cons, List.flatMap_cons]
    have htake : ((bs.drop (w * 0)).take w).length = w := by
      simp [List.length_take, List.length_drop]
      omega
    have h1 : msbBits w (bitsFold ((bs.drop (w * 0)).take w)) = (bs.drop (w * 0)).take w := by
      have hmb := msbBits_bitsFold ((bs.drop (w * 0)).take w)
      rw [htake] at hmb
      exact hmb
    rw [h1, List.map_map]
    have h2 : ((List.range k).map ((fun i => bitsFold ((bs.drop (w * i)).take w)) ∘ Nat.succ))
        = (List.range k).map (fun i => bitsFold (((bs.drop w).drop (w * i)).take w)) := by
      apply List.map_congr_left
      intro j _
      simp only [Function.comp_apply]
      congr 2
      rw [List.drop_drop]
      congr 1
      have : Nat.succ j = j + 1 := rfl
      rw [this]
      ring
    rw [h2, ih (bs.drop w) (by rw [List.length_drop, hlen]; ring_nf; omega)]
    simp

theorem flatMap_const_length {α : Type} (f : α → List Bool) (w : Nat)
    (hf : ∀ a, (f a).length = w) (l : List α) : (l.flatMap f).length = w * l.length := by
  induction l with
  | nil => simp
  | cons a l ih =>
    rw [List.flatMap_cons, List.length_append, ih, hf a, List.length_cons]
    ring

theorem bytes_bits_extract (ck : List Bool) :
    ∀ (es : List Nat), (∀ b ∈ es, b < 256) →
    (List.range es.length).map
        (fun i => bitsFold (((es.flatMap (msbBits 8) ++ ck).drop (8 * i)).take 8)) = es := by
  intro es
  induction es with
  | nil => intro _; simp
  | cons e es ih =>
    intro hb
    have he : e < 256 := hb e (by simp)
    rw [List.length_cons, List.range_succ_eq_map, List.map_cons]
    have hfirst : bitsFold ((((e :: es).flatMap (msbBits 8) ++ ck).drop (8 * 0)).take 8) = e := by
      rw [List.flatMap_cons, Nat.mul_zero, List.drop_zero, List.append_assoc,
        List.take_append_of_le_length (by rw [msbBits_length])]
      have h8 : msbBits 8 e = (msbBits 8 e).take 8 := by
        rw [List.take_of_length_le (by rw [msbBits_length])]
      rw [← h8, bitsFold_msbBits 8 e (by omega)]
    rw [hfirst, List.map_map]
    have hrest : (List.range es.length).map
        ((fun i => bitsFold ((((e :: es).flatMap (msbBits 8) ++ ck).drop (8 * i)).take 8))
          ∘ Nat.succ)
        = (List.range es.length).map
        (fun i => bitsFold (((es.flatMap (msbBits 8) ++ ck).drop (8 * i)).take 8)) := by
      apply List.map_congr_left
      intro j _
      simp only [Function.comp_apply]
      congr 1
    rw [hrest, ih (fun b hbb => hb b (by simp [hbb]))]

theorem mapM_ok_of_map (l : List Nat) (wa : Nat → List Char)
    (f : List Char → Except BIP39Err Nat) (h : ∀ x ∈ l, f (wa x) = .ok x) :
    (l.map wa).mapM f = .ok l := by
  induction l with
  | nil => rfl
  | cons a l ih =>
    rw [List.map_cons, List.mapM_cons, h a (by simp),
      ih (fun x hx => h x (by simp [hx]))]
    rfl

theorem map_range_getD {α : Type} (k i : Nat) (f : Nat → α) (d : α) (h : i < k) :
    (((List.range k).map f).getD i d) = f i := by
  rw [List.getD_eq_getElem?_getD, List.getElem?_map, List.getElem?_range h]
  rfl

/-- Claim C1.  For every entropy byte string of a valid bit length (128, 160,
192, 224 or 256 bits) and every valid word list, converting the entropy to a
mnemonic with `NewMnemonicWithWordList` and back with
`MnemonicToEntropyWithWordList` succeeds and returns exactly the original
entropy. -/
theorem C1_mnemonic_roundtrip (entropy : List Nat) (wl : WordList)
    (hwl : ValidWordList wl) (hb : ∀ b ∈ entropy, b < 256)
    (hlen : isValidEntropyBits (entropy.length * 8) = true) :
    ∃ m, NewMnemonicWithWordList entropy wl = .ok m ∧
         MnemonicToEntropyWithWordList m wl = .ok entropy := by
  obtain ⟨hinv, hwords⟩ := hwl
  set n := entropy.length with hn_def
  have hn8 : n * 8 = 128 ∨ n * 8 = 160 ∨ n * 8 = 192 ∨ n * 8 = 224 ∨ n * 8 = 256 := by
    have := hlen
    unfold isValidEntropyBits at this
    simp [List.contains] at this
    rcases this with h | h | h | h | h <;> omega
  have hn5 : n = 16 ∨ n = 20 ∨ n = 24 ∨ n = 28 ∨ n = 32 := by omega
  -- abbreviations mirroring the body of NewMnemonicWithWordList
  set hash0 := (sha256 entropy).getD 0 0 with hash0_def
  set cb := n * 8 / 32 with cb_def
  set ck := (List.range cb).map (bitAtMSB hash0) with ck_def
  set bits := entropyBitsOf entropy ++ ck with bits_def
  set wc := (n * 8 + cb) / 11 with wc_def
  set indices := (List.range wc).map (fun i => bitsFold ((bits.drop (11 * i)).take 11))
    with indices_def
  set words := indices.map wl.wordAt with words_def
  set m := joinSpace words with m_def
  -- arithmetic facts from the five possible lengths
  have hA1 : n * 8 + cb = 11 * wc := by rcases hn5 with h | h | h | h | h <;> simp [wc_def, cb_def, h]
  have hA2 : wc / 3 = cb := by rcases hn5 with h | h | h | h | h <;> simp [wc_def, cb_def, h]
  have hA3 : wc * 11 - wc / 3 = n * 8 := by
    rcases hn5 with h | h | h | h | h <;> simp [wc_def, cb_def, h]
  have hA4 : (wc * 11 - wc / 3) / 8 = n := by
    rcases hn5 with h | h | h | h | h <;> simp [wc_def, cb_def, h]
  have hA5 : isValidWordCount wc = true := by
    rcases hn5 with h | h | h | h | h <;> simp [wc_def, cb_def, h, isValidWordCount]
  have hebits : entropyBitsOf entropy = entropy.flatMap (msbBits 8) := rfl
  have hbitslen : bits.length = 11 * wc := by
    rw [bits_def, List.length_append, hebits,
      flatMap_const_length (msbBits 8) 8 (fun a => msbBits_length 8 a), ck_def,
      List.length_map, List.length_range, ← hn_def, ← hA1, cb_def]
    ring
  have hidx : ∀ idx ∈ indices, idx < 2048 := by
    intro idx hidx
    rw [indices_def] at hidx
    obtain ⟨i, hi, hval⟩ := List.mem_map.mp hidx
    have hiw : i < wc := List.mem_range.mp hi
    have hchunk : ((bits.drop (11 * i)).take 11).length = 11 := by
      rw [List.length_take, List.length_drop, hbitslen]
      omega
    have := bitsFold_lt ((bits.drop (11 * i)).take 11)
    rw [hchunk] at this
    rw [← hval]
    exact this
  -- the encoder succeeds and returns m
  have hlen' : isValidEntropyBits (entropy.length * 8) = true := hlen
  have henc : NewMnemonicWithWordList entropy wl = .ok m := by
    unfold NewMnemonicWithWordList
    simp only [hlen', Bool.not_true, Bool.false_eq_true, if_false, ite_false, reduceIte]
    rfl
  refine ⟨m, henc, ?_⟩
  -- the decoder recovers the words
  have hfields : goFields m = words := by
    rw [m_def]
    apply goFields_join
    · intro w hw
      rw [words_def] at hw
      obtain ⟨idx, hidxmem, hweq⟩ := List.mem_map.mp hw
      rw [← hweq]
      exact (hwords idx (hidx idx hidxmem)).1
    · intro w hw
      rw [words_def] at hw
      obtain ⟨idx, hidxmem, hweq⟩ := List.mem_map.mp hw
      rw [← hweq]
      exact (hwords idx (hidx idx hidxmem)).2
  have hwcount : words.length = wc := by
    rw [words_def, indices_def]
    simp
  -- the per-word index lookups all succeed
  have hmapM : words.mapM (fun w =>
      let idx := wl.wordIndex w
      if idx = -1 then Except.error BIP39Err.invalidMnemonic else Except.ok idx.toNat)
      = .ok indices := by
    rw [words_def]
    apply mapM_ok_of_map
    intro x hx
    have hx2048 := hidx x hx
    have hix := hinv x hx2048
    simp only [hix]
    have hne : (Int.ofNat x) ≠ -1 := by
      intro h
      have hnn : (0 : Int) ≤ Int.ofNat x := Int.ofNat_nonneg x
      rw [h] at hnn
      norm_num at hnn
    rw [if_neg hne]
    simp
  -- reconstruction of the bit stream and the entropy
  have hbits2 : indices.flatMap (msbBits 11) = bits := by
    rw [indices_def]
    exact flatMap_msbBits_chunks 11 (by norm_num) wc bits hbitslen
  have hentropy2 : (List.range ((wc * 11 - wc / 3) / 8)).map
      (fun i => bitsFold ((bits.drop (8 * i)).take 8)) = entropy := by
    rw [hA4, bits_def, hebits]
    exact bytes_bits_extract ck entropy hb
  have hcksum : (List.range (wc / 3)).all
      (fun i => bits.getD (wc * 11 - wc / 3 + i) false ==
        bitAtMSB ((sha256 entropy).getD 0 0) i) = true := by
    apply List.all_eq_true.mpr
    intro i hi
    have hicb : i < cb := by
      rw [← hA2]
      exact List.mem_range.mp hi
    have hAlen : (entropyBitsOf entropy).length = n * 8 := by
      rw [hebits, flatMap_const_length (msbBits 8) 8 (fun a => msbBits_length 8 a)]
      ring
    rw [bits_def, List.getD_append_right _ _ _ _ (by rw [hAlen]; omega), hAlen, hA3]
    have hsub : n * 8 + i - n * 8 = i := by omega
    rw [hsub, ck_def,
      map_range_getD cb i (bitAtMSB hash0) false hicb]
    simp [hash0_def, List.getD_eq_getElem?_getD]
  -- now unfold the decoder
  unfold MnemonicToEntropyWithWordList
  rw [hfields]
  simp only [hwcount, hA5, Bool.not_true, Bool.false_eq_true, if_false, ite_false, reduceIte]
  rw [hmapM]
  have hbindok : ∀ {α β : Type} (a : α) (f : α → Except BIP39Err β),
      (Except.ok a >>= f) = f a := fun _ _ => rfl
  rw [hbindok]
  simp only [hbits2, hentropy2, hcksum]
  simp

theorem abWordList_valid : ValidWordList abWordList := by
  constructor
  · intro i hi
    show (if ((msbBits 11 i).map (fun b => if b then 'b' else 'a')).length = 11 &&
          ((msbBits 11 i).map (fun b => if b then 'b' else 'a')).all
            (fun c => c == 'a' || c == 'b')
        then Int.ofNat (bitsFold (((msbBits 11 i).map (fun b => if b then 'b' else 'a')).map
          (fun c => c == 'b')))
        else -1) = Int.ofNat i
    have hlen : ((msbBits 11 i).map (fun b => if b then 'b' else 'a')).length = 11 := by
      rw [List.length_map, msbBits_length]
    have hall : ((msbBits 11 i).map (fun b => if b then 'b' else 'a')).all
        (fun c => c == 'a' || c == 'b') = true := by
      apply List.all_eq_true.mpr
      intro c hc
      obtain ⟨b, _, rfl⟩ := List.mem_map.mp hc
      cases b <;> rfl
    have hmap : (((msbBits 11 i).map (fun b => if b then 'b' else 'a')).map
        (fun c => c == 'b')) = msbBits 11 i := by
      rw [List.map_map]
      have hcomp : ((fun c => c == 'b') ∘ (fun b : Bool => if b then 'b' else 'a')) = id := by
        funext b
        cases b <;> rfl
      rw [hcomp, List.map_id]
    rw [hmap, hlen, hall, bitsFold_msbBits 11 i (by omega)]
    simp
  · intro i hi
    constructor
    · intro h
      have hlc := congrArg List.length h
      simp only [abWordList, List.length_map, msbBits_length, List.length_nil] at hlc
      omega
    · intro c hc
      simp only [abWordList] at hc
      obtain ⟨b, _, rfl⟩ := List.mem_map.mp hc
      cases b <;> rfl

/-- Witness for C1: the round trip at the concrete 16-byte all-zero entropy
with a concrete valid word list. -/
theorem C1_mnemonic_roundtrip_witness :
    ∃ m, NewMnemonicWithWordList (List.replicate 16 0) abWordList = .ok m ∧
         MnemonicToEntropyWithWordList m abWordList = .ok (List.replicate 16 0) :=
  C1_mnemonic_roundtrip (List.replicate 16 0) abWordList abWordList_valid
    (by decide) (by decide)

/-! ## C7: BIP-44 path parsing errors -/

/-- The character list of the string m/49'/0'/0'/0/0 (apostrophe written via
its code point). -/
def path49 : List Char :=
  ['m', '/', '4', '9', Char.ofNat 39, '/', '0', Char.ofNat 39, '/', '0', Char.ofNat 39,
   '/', '0', '/', '0']

/-- The character list of the string m/49'/0'/0'/2/0. -/
def path49chg2 : List Char :=
  ['m', '/', '4', '9', Char.ofNat 39, '/', '0', Char.ofNat 39, '/', '0', Char.ofNat 39,
   '/', '2', '/', '0']

/-- The character list of the string m/44'/0'/0'/2/0. -/
def path44chg2 : List Char :=
  ['m', '/', '4', '4', Char.ofNat 39, '/', '0', Char.ofNat 39, '/', '0', Char.ofNat 39,
   '/', '2', '/', '0']

/-- Claim C7 as frozen is refuted at the concrete path m/49'/0'/0'/2/0: its
fourth component parses to 2 > 1, but `ParsePath` fails with the
invalid-purpose error, not the invalid-change error. -/
theorem C7_counterexample :
    ParsePath path49chg2 = .error .invalidPurpose ∧
    (parseIndex ((splitOnChar '/' (path49chg2.drop 2)).getD 3 []) = some 2) ∧
    BIP44Err.invalidPurpose ≠ BIP44Err.invalidChange := by
  refine ⟨rfl, rfl, ?_⟩
  decide

/-- Claim C7 (amended).  With the trimmed path of the form `m/` + five
`/`-separated components: (1) if the first component is a hardened integer
other than 44, `ParsePath` fails with the invalid-purpose error; (2) if the
first three components parse as hardened 44, coin type and account, and the
fourth component parses to an integer greater than 1, `ParsePath` fails with
the invalid-change error. -/
theorem C7_parsepath_purpose_and_change :
    (∀ (s rest : List Char) (v : Nat),
      goTrimSpace s = 'm' :: '/' :: rest →
      (splitOnChar '/' rest).length = 5 →
      parseHardenedIndex ((splitOnChar '/' rest).getD 0 []) = some v →
      v ≠ 44 →
      ParsePath s = .error .invalidPurpose) ∧
    (∀ (s rest : List Char) (ct ac c : Nat),
      goTrimSpace s = 'm' :: '/' :: rest →
      (splitOnChar '/' rest).length = 5 →
      parseHardenedIndex ((splitOnChar '/' rest).getD 0 []) = some 44 →
      parseHardenedIndex ((splitOnChar '/' rest).getD 1 []) = some ct →
      parseHardenedIndex ((splitOnChar '/' rest).getD 2 []) = some ac →
      parseIndex ((splitOnChar '/' rest).getD 3 []) = some c →
      c > 1 →
      ParsePath s = .error .invalidChange) := by
  constructor
  · intro s rest v htrim hparts hpurp hv44
    unfold ParsePath
    rw [htrim]
    simp only [hasMSlash, List.drop_succ_cons, List.drop_zero, hparts, hpurp]
    simp [hv44]
  · intro s rest ct ac c htrim hparts hpurp hcoin hacct hchg hc1
    unfold ParsePath
    rw [htrim]
    simp only [hasMSlash, List.drop_succ_cons, List.drop_zero, hparts, hpurp, hcoin, hacct, hchg]
    simp [Nat.lt_irrefl]
    omega

/-- Witness for the amended C7 at two concrete paths. -/
theorem C7_parsepath_witness :
    ParsePath path49 = .error .invalidPurpose ∧
    ParsePath path44chg2 = .error .invalidChange := by
  constructor
  · exact C7_parsepath_purpose_and_change.1 path49 (path49.drop 2) 49 rfl rfl rfl (by decide)
  · exact C7_parsepath_purpose_and_change.2 path44chg2 (path44chg2.drop 2) 0 0 2 rfl rfl rfl
      rfl rfl rfl (by decide)

/-! ## Lemmas: byte ranges and lengths of the primitive outputs -/

theorem ser32BE_lt (n : Nat) : ∀ b ∈ ser32BE n, b < 256 := by
  intro b hb
  simp only [ser32BE, List.mem_cons, List.mem_singleton] at hb
  rcases hb with h | h | h | h | h <;> first
    | (subst h; exact Nat.mod_lt _ (by norm_num))
    | exact absurd h (by simp)

theorem ser64BE_lt (n : Nat) : ∀ b ∈ ser64BE n, b < 256 := by
  intro b hb
  simp only [ser64BE, List.mem_cons, List.mem_singleton] at hb
  rcases hb with h | h | h | h | h | h | h | h | h <;> first
    | (subst h; exact Nat.mod_lt _ (by norm_num))
    | exact absurd h (by simp)

theorem ser64LE_lt (n : Nat) : ∀ b ∈ ser64LE n, b < 256 := by
  intro b hb
  rw [ser64LE, List.mem_reverse] at hb
  exact ser64BE_lt n b hb

theorem flatMap_ser32BE_lt (l : List Nat) : ∀ b ∈ l.flatMap ser32BE, b < 256 := by
  intro b hb
  obtain ⟨w, _, hbw⟩ := List.mem_flatMap.mp hb
  exact ser32BE_lt w b hbw

theorem sha256_lt (msg : List Nat) : ∀ b ∈ sha256 msg, b < 256 :=
  flatMap_ser32BE_lt _

theorem sha512_lt (msg : List Nat) : ∀ b ∈ sha512 msg, b < 256 := by
  intro b hb
  obtain ⟨w, _, hbw⟩ := List.mem_flatMap.mp hb
  exact ser64BE_lt w b hbw

theorem HMACSHA512_lt (key data : List Nat) : ∀ b ∈ HMACSHA512 key data, b < 256 :=
  sha512_lt _

theorem Checksum4_lt (data : List Nat) : ∀ b ∈ Checksum4 data, b < 256 := by
  intro b hb
  exact sha256_lt _ b (List.mem_of_mem_take hb)

theorem sha256go_length (ks wvs s : List Nat) (hs : s.length = 8) :
    (sha256Compress.go ks wvs s).length = 8 := by
  induction ks generalizing wvs s with
  | nil =>
    rcases s with _ | ⟨a, s⟩
    · simp at hs
    · cases wvs with
      | nil => exact hs
      | cons wv wvs => exact hs
  | cons k ks ih =>
    cases wvs with
    | nil =>
      rcases s with _ | ⟨a, s⟩
      · simp at hs
      · exact hs
    | cons wv wvs =>
      rcases s with _ | ⟨a, _ | ⟨b, _ | ⟨c, _ | ⟨d, _ | ⟨e, _ | ⟨f, _ | ⟨g,
        _ | ⟨h, _ | ⟨x, s⟩⟩⟩⟩⟩⟩⟩⟩⟩
      all_goals simp at hs
      exact ih _ _ (by rfl)

theorem sha256_foldl_length (blocks : List (List Nat)) (st : List Nat) (h : st.length = 8) :
    (blocks.foldl (fun st blk => sha256Compress st (sha256Extend blk)) st).length = 8 := by
  induction blocks generalizing st with
  | nil => exact h
  | cons blk blocks ih =>
    refine ih _ ?_
    show (List.zipWith (fun x y => w32 (x + y)) st
      (sha256Compress.go sha256K (sha256Extend blk) st)).length = 8
    rw [List.length_zipWith, h, sha256go_length _ _ _ h]
    rfl

theorem sha256_length (msg : List Nat) : (sha256 msg).length = 32 := by
  have h8 := sha256_foldl_length (chunks 16 (bytesToWords32 (mdPad64 msg))) sha256H0 (by rfl)
  show (((chunks 16 (bytesToWords32 (mdPad64 msg))).foldl
      (fun st blk => sha256Compress st (sha256Extend blk)) sha256H0).flatMap ser32BE).length = 32
  generalize (chunks 16 (bytesToWords32 (mdPad64 msg))).foldl
      (fun st blk => sha256Compress st (sha256Extend blk)) sha256H0 = final at h8 ⊢
  rcases final with _ | ⟨a, _ | ⟨b, _ | ⟨c, _ | ⟨d, _ | ⟨e, _ | ⟨f, _ | ⟨g,
    _ | ⟨h, _ | ⟨x, final⟩⟩⟩⟩⟩⟩⟩⟩⟩
  all_goals simp at h8
  rfl

theorem DoubleSHA256_length (data : List Nat) : (DoubleSHA256 data).length = 32 :=
  sha256_length _

theorem Checksum4_length (data : List Nat) : (Checksum4 data).length = 4 := by
  unfold Checksum4
  rw [List.length_take, DoubleSHA256_length]
  rfl

theorem sha512go_length (ks wvs s : List Nat) (hs : s.length = 8) :
    (sha512Compress.go ks wvs s).length = 8 := by
  induction ks generalizing wvs s with
  | nil =>
    rcases s with _ | ⟨a, s⟩
    · simp at hs
    · cases wvs with
      | nil => exact hs
      | cons wv wvs => exact hs
  | cons k ks ih =>
    cases wvs with
    | nil =>
      rcases s with _ | ⟨a, s⟩
      · simp at hs
      · exact hs
    | cons wv wvs =>
      rcases s with _ | ⟨a, _ | ⟨b, _ | ⟨c, _ | ⟨d, _ | ⟨e, _ | ⟨f, _ | ⟨g,
        _ | ⟨h, _ | ⟨x, s⟩⟩⟩⟩⟩⟩⟩⟩⟩
      all_goals simp at hs
      exact ih _ _ (by rfl)

theorem sha512_foldl_length (blocks : List (List Nat)) (st : List Nat) (h : st.length = 8) :
    (blocks.foldl (fun st blk => sha512Compress st (sha512Extend blk)) st).length = 8 := by
  induction blocks generalizing st with
  | nil => exact h
  | cons blk blocks ih =>
    refine ih _ ?_
    show (List.zipWith (fun x y => w64 (x + y)) st
      (sha512Compress.go sha512K (sha512Extend blk) st)).length = 8
    rw [List.length_zipWith, h, sha512go_length _ _ _ h]
    rfl

theorem sha512_length (msg : List Nat) : (sha512 msg).length = 64 := by
  have h8 := sha512_foldl_length (chunks 16 (bytesToWords64 (mdPad128 msg))) sha512H0 (by rfl)
  show (((chunks 16 (bytesToWords64 (mdPad128 msg))).foldl
      (fun st blk => sha512Compress st (sha512Extend blk)) sha512H0).flatMap ser64BE).length = 64
  generalize (chunks 16 (bytesToWords64 (mdPad128 msg))).foldl
      (fun st blk => sha512Compress st (sha512Extend blk)) sha512H0 = final at h8 ⊢
  rcases final with _ | ⟨a, _ | ⟨b, _ | ⟨c, _ | ⟨d, _ | ⟨e, _ | ⟨f, _ | ⟨g,
    _ | ⟨h, _ | ⟨x, final⟩⟩⟩⟩⟩⟩⟩⟩⟩
  all_goals simp at h8
  rfl

theorem HMACSHA512_length (key data : List Nat) : (HMACSHA512 key data).length = 64 :=
  sha512_length _

/-! ## C4, C10, C5: hardened-from-public, Neuter, master-from-seed -/

/-- Claim C4.  For every public-only extended key and every hardened index
(at least 2^31), `Child` fails with the hardened-from-public error and
returns no key.  The embedding is purely functional, so the input key is
unchanged by construction. -/
theorem C4_hardened_from_public (k : ExtendedKey) (i : Nat)
    (hpub : k.isPrivate = false) (hi : 2 ^ 31 ≤ i) :
    k.Child i = .error .hardenedFromPublic := by
  unfold ExtendedKey.Child
  have hhard : IsHardened i = true := by
    simp only [IsHardened, HardenedKeyStart]
    simp only [ge_iff_le, decide_eq_true_eq]
    omega
  simp [hpub, hhard]

/-- A concrete public-only key used as a witness input. -/
def pubOnlyKey : ExtendedKey :=
  ⟨2 :: List.replicate 32 9, List.replicate 32 1, 3, [1, 2, 3, 4], 7, MainNet, false⟩

/-- Witness for C4 at a concrete public key and the smallest hardened
index. -/
theorem C4_hardened_from_public_witness :
    pubOnlyKey.Child 2147483648 = .error .hardenedFromPublic :=
  C4_hardened_from_public pubOnlyKey 2147483648 (by decide) (by decide)

/-- Claim C10.  `Neuter` never fails: it returns a key, on a public-only
key that key equals the input in every field, and neutering is idempotent:
neutering the result returns the result itself unchanged. -/
theorem C10_neuter_total_idempotent (k : ExtendedKey) :
    ∃ k', k.Neuter = .ok k' ∧ (k.isPrivate = false → k' = k) ∧ k'.Neuter = .ok k' := by
  by_cases h : k.isPrivate = true
  · refine ⟨⟨k.PublicKeyBytes, k.chainCode, k.depth, k.parentFP, k.childIndex, k.network,
      false⟩, ?_, ?_, ?_⟩
    · simp [ExtendedKey.Neuter, h]
    · intro hcontra
      rw [h] at hcontra
      exact absurd hcontra (by simp)
    · simp [ExtendedKey.Neuter]
  · have hfalse : k.isPrivate = false := by
      cases hkp : k.isPrivate
      · rfl
      · exact absurd hkp h
    refine ⟨k, ?_, fun _ => rfl, ?_⟩ <;> simp [ExtendedKey.Neuter, hfalse]

/-- Claim C5.  Master key creation: seeds shorter than 16 or longer than 64
bytes fail with the invalid-length error; otherwise, with
I = HMAC-SHA-512(key = Bitcoin seed, msg = seed), if IL = I[0..32] is a
valid scalar the result is the private master key with depth 0, parent
fingerprint 00000000, child index 0, key 0x00 ‖ IL and chain code
IR = I[32..64], and otherwise creation fails with the derivation-failed
error. -/
theorem C5_master_from_seed (seed : List Nat) (network : Network) :
    (seed.length < 16 ∨ seed.length > 64 →
      NewMasterKeyWithNetwork seed network = .error .invalidSeedLength) ∧
    (16 ≤ seed.length → seed.length ≤ 64 →
      (IsValidPrivateKey ((HMACSHA512 (strBytes ("Bitcoin seed")) seed).take 32) = true →
        NewMasterKeyWithNetwork seed network =
          .ok ⟨0 :: (HMACSHA512 (strBytes ("Bitcoin seed")) seed).take 32,
               (HMACSHA512 (strBytes ("Bitcoin seed")) seed).drop 32,
               0, [0, 0, 0, 0], 0, network, true⟩) ∧
      (IsValidPrivateKey ((HMACSHA512 (strBytes ("Bitcoin seed")) seed).take 32) = false →
        NewMasterKeyWithNetwork seed network = .error .derivationFailed)) := by
  refine ⟨?_, ?_⟩
  · intro hshort
    unfold NewMasterKeyWithNetwork
    rw [if_pos hshort]
  · intro h16 h64
    constructor
    · intro hvalid
      unfold NewMasterKeyWithNetwork
      rw [if_neg (by omega)]
      simp [hvalid]
    · intro hinvalid
      unfold NewMasterKeyWithNetwork
      rw [if_neg (by omega)]
      simp [hinvalid]

/-- Witness for C5 at concrete seeds: length 15 and length 65 fail with the
invalid-length error; the 16-byte seed of BIP-32 test vector 1 produces
exactly the master key fields of the specification. -/
theorem C5_master_from_seed_witness :
    NewMasterKeyWithNetwork (List.replicate 15 0) MainNet = .error .invalidSeedLength ∧
    NewMasterKeyWithNetwork (List.replicate 65 0) MainNet = .error .invalidSeedLength ∧
    NewMasterKeyWithNetwork [0, 1, 2, 3, 4, 5, 6, 7, 8, 9, 10, 11, 12, 13, 14, 15] MainNet =
      .ok ⟨0 :: (HMACSHA512 (strBytes ("Bitcoin seed"))
              [0, 1, 2, 3, 4, 5, 6, 7, 8, 9, 10, 11, 12, 13, 14, 15]).take 32,
           (HMACSHA512 (strBytes ("Bitcoin seed"))
              [0, 1, 2, 3, 4, 5, 6, 7, 8, 9, 10, 11, 12, 13, 14, 15]).drop 32,
           0, [0, 0, 0, 0], 0, MainNet, true⟩ :=
  ⟨(C5_master_from_seed (List.replicate 15 0) MainNet).1 (by decide),
   (C5_master_from_seed (List.replicate 65 0) MainNet).1 (by decide),
   ((C5_master_from_seed [0, 1, 2, 3, 4, 5, 6, 7, 8, 9, 10, 11, 12, 13, 14, 15] MainNet).2
     (by decide) (by decide)).1 (by decide)⟩

example :
    (NewMasterKey [0, 1, 2, 3, 4, 5, 6, 7, 8, 9, 10, 11, 12, 13, 14, 15]).map
      ExtendedKey.toStr =
    Except.ok (("xprv9s21ZrQH143K3QTDL4LXw2F7HEK3wJUD2nW2nRk4stbPy6cq3jPPqjiChkVvvNKmPGJxWUtg6LnF5kejMRNNU3TGtRBeJgk33yuGBxrMPHi").toList) := by
  rfl

example : PrivateKeyToCompressedPublicKey [1] =
    [0x02, 0x79, 0xBE, 0x66, 0x7E, 0xF9, 0xDC, 0xBB, 0xAC, 0x55, 0xA0, 0x62, 0x95, 0xCE, 0x87,
     0x0B, 0x07, 0x02, 0x9B, 0xFC, 0xDB, 0x2D, 0xCE, 0x28, 0xD9, 0x59, 0xF2, 0x81, 0x5B, 0x16,
     0xF8, 0x17, 0x98] := by decide

example : ripemd160 [] =
    [0x9c, 0x11, 0x85, 0xa5, 0xc5, 0xe9, 0xfc, 0x54, 0x61, 0x28, 0x08, 0x97, 0x7e, 0xe8, 0xf5,
     0x48, 0xb2, 0x25, 0x8d, 0x31] := by decide

example : Keccak256 [] =
    [0xc5, 0xd2, 0x46, 0x01, 0x86, 0xf7, 0x23, 0x3c, 0x92, 0x7e, 0x7d, 0xb2, 0xdc, 0xc7, 0x03,
     0xc0, 0xe5, 0x00, 0xb6, 0x53, 0xca, 0x82, 0x27, 0x3b, 0x7b, 0xfa, 0xd8, 0x04, 0x5d, 0x85,
     0xa4, 0x70] := by decide

example : Blake2b512 (strBytes ("abc")) =
    [0xba, 0x80, 0xa5, 0x3f, 0x98, 0x1c, 0x4d, 0x0d, 0x6a, 0x27, 0x97, 0xb6, 0x9f, 0x12, 0xf6,
     0xe9, 0x4c, 0x21, 0x2f, 0x14, 0x68, 0x5a, 0xc4, 0xb7, 0x4b, 0x12, 0xbb, 0x6f, 0xdb, 0xff,
     0xa2, 0xd1, 0x7d, 0x87, 0xc5, 0x39, 0x2a, 0xab, 0x79, 0x2d, 0xc2, 0x52, 0xd5, 0xde, 0x45,
     0x33, 0xcc, 0x95, 0x18, 0xd3, 0x8a, 0xa8, 0xdb, 0xf1, 0x92, 0x5a, 0xb9, 0x23, 0x86, 0xed,
     0xd4, 0x00, 0x99, 0x23] := by decide

example : sha256 [] =
    [0xe3, 0xb0, 0xc4, 0x42, 0x98, 0xfc, 0x1c, 0x14, 0x9a, 0xfb, 0xf4, 0xc8, 0x99, 0x6f, 0xb9,
     0x24, 0x27, 0xae, 0x41, 0xe4, 0x64, 0x9b, 0x93, 0x4c, 0xa4, 0x95, 0x99, 0x1b, 0x78, 0x52,
     0xb8, 0x55] := by decide

example : HMACSHA512 (strBytes ("Bitcoin seed"))
    [0x00, 0x01, 0x02, 0x03, 0x04, 0x05, 0x06, 0x07, 0x08, 0x09, 0x0a, 0x0b, 0x0c, 0x0d,
     0x0e, 0x0f] =
    [0xe8, 0xf3, 0x2e, 0x72, 0x3d, 0xec, 0xf4, 0x05, 0x1a, 0xef, 0xac, 0x8e, 0x2c, 0x93, 0xc9,
     0xc5, 0xb2, 0x14, 0x31, 0x38, 0x17, 0xcd, 0xb0, 0x1a, 0x14, 0x94, 0xb9, 0x17, 0xc8, 0x43,
     0x6b, 0x35, 0x87, 0x3d, 0xff, 0x81, 0xc0, 0x2f, 0x52, 0x56, 0x23, 0xfd, 0x1f, 0xe5, 0x16,
     0x7e, 0xac, 0x3a, 0x55, 0xa0, 0x49, 0xde, 0x3d, 0x31, 0x4b, 0xb4, 0x2e, 0xe2, 0x27, 0xff,
     0xed, 0x37, 0xd5, 0x08] := by decide

/-! ## Lemmas: minimal big-endian bytes of big.Int (SetBytes / Bytes) -/

theorem natToBytesAux_congr (f1 : Nat) : ∀ f2 n : Nat, n ≤ f1 → n ≤ f2 →
    natToBytesAux f1 n = natToBytesAux f2 n := by
  induction f1 with
  | zero =>
    intro f2 n h1 h2
    have hn : n = 0 := Nat.le_zero.mp h1
    subst hn
    cases f2 with
    | zero => rfl
    | succ f2 => simp [natToBytesAux]
  | succ f1 ih =>
    intro f2 n h1 h2
    cases f2 with
    | zero =>
      have hn : n = 0 := Nat.le_zero.mp h2
      subst hn
      simp [natToBytesAux]
    | succ f2 =>
      by_cases hn : n = 0
      · subst hn; simp [natToBytesAux]
      · have hlt : n / 256 < n := Nat.div_lt_self (by omega) (by norm_num)
        simp only [natToBytesAux, if_neg hn]
        rw [ih f2 (n / 256) (by omega) (by omega)]

theorem natToBytesBE_step (n : Nat) (hn : 0 < n) :
    natToBytesBE n = natToBytesBE (n / 256) ++ [n % 256] := by
  obtain ⟨m, rfl⟩ : ∃ m, n = m + 1 := ⟨n - 1, by omega⟩
  show natToBytesAux (m + 1) (m + 1) = natToBytesAux ((m + 1) / 256) ((m + 1) / 256) ++ [(m + 1) % 256]
  have hstep : natToBytesAux (m + 1) (m + 1) =
      natToBytesAux m ((m + 1) / 256) ++ [(m + 1) % 256] := by
    simp [natToBytesAux]
  rw [hstep]
  have hlt : (m + 1) / 256 < m + 1 := Nat.div_lt_self (by omega) (by norm_num)
  rw [natToBytesAux_congr m ((m + 1) / 256) ((m + 1) / 256) (by omega) le_rfl]

theorem natOfBytes_append_one (xs : List Nat) (b : Nat) :
    natOfBytes (xs ++ [b]) = natOfBytes xs * 256 + b := by
  unfold natOfBytes
  rw [List.foldl_append]
  rfl

theorem natOfBytes_natToBytesBE (n : Nat) : natOfBytes (natToBytesBE n) = n := by
  induction n using Nat.strong_induction_on with
  | _ n ih =>
    rcases Nat.eq_zero_or_pos n with h0 | hpos
    · subst h0; rfl
    · rw [natToBytesBE_step n hpos, natOfBytes_append_one,
        ih (n / 256) (Nat.div_lt_self hpos (by norm_num))]
      omega

theorem natToBytesBE_lt (n : Nat) : ∀ b ∈ natToBytesBE n, b < 256 := by
  induction n using Nat.strong_induction_on with
  | _ n ih =>
    rcases Nat.eq_zero_or_pos n with h0 | hpos
    · subst h0; intro b hb; simp [natToBytesBE, natToBytesAux] at hb
    · rw [natToBytesBE_step n hpos]
      intro b hb
      rcases List.mem_append.mp hb with h | h
      · exact ih (n / 256) (Nat.div_lt_self hpos (by norm_num)) b h
      · have : b = n % 256 := List.mem_singleton.mp h
        subst this
        exact Nat.mod_lt _ (by norm_num)

theorem natToBytesBE_length_le (k : Nat) : ∀ n, n < 256 ^ k → (natToBytesBE n).length ≤ k := by
  induction k with
  | zero =>
    intro n h
    have hn : n = 0 := by simpa using h
    subst hn
    simp [natToBytesBE, natToBytesAux]
  | succ k ih =>
    intro n h
    rcases Nat.eq_zero_or_pos n with h0 | hpos
    · subst h0; simp [natToBytesBE, natToBytesAux]
    · rw [natToBytesBE_step n hpos, List.length_append]
      have hq : n / 256 < 256 ^ k := by
        rw [Nat.div_lt_iff_lt_mul (by norm_num : 0 < 256)]
        calc n < 256 ^ (k + 1) := h
          _ = 256 ^ k * 256 := by rw [pow_succ]
      have := ih (n / 256) hq
      simp only [List.length_cons, List.length_nil]
      omega

theorem natToBytesBE_head_ne : ∀ n, 0 < n → ∃ h t, natToBytesBE n = h :: t ∧ h ≠ 0 := by
  intro n
  induction n using Nat.strong_induction_on with
  | _ n ih =>
    intro hpos
    rcases Nat.lt_or_ge n 256 with hsm | hlg
    · rw [natToBytesBE_step n hpos, Nat.div_eq_of_lt hsm]
      exact ⟨n % 256, [], rfl, by omega⟩
    · rw [natToBytesBE_step n hpos]
      have hq : 0 < n / 256 := Nat.div_pos hlg (by norm_num)
      obtain ⟨h, t, heq, hne⟩ := ih (n / 256) (Nat.div_lt_self hpos (by norm_num)) hq
      exact ⟨h, t ++ [n % 256], by rw [heq]; rfl, hne⟩

theorem natOfBytes_foldl_shift (bs : List Nat) : ∀ a : Nat,
    bs.foldl (fun acc b => acc * 256 + b) a = a * 256 ^ bs.length + natOfBytes bs := by
  induction bs with
  | nil => intro a; simp [natOfBytes]
  | cons b bs ih =>
    intro a
    show bs.foldl (fun acc b => acc * 256 + b) (a * 256 + b) = _
    rw [ih (a * 256 + b)]
    have hz : natOfBytes (b :: bs) = (0 * 256 + b) * 256 ^ bs.length + natOfBytes bs := by
      show bs.foldl (fun acc b => acc * 256 + b) (0 * 256 + b) = _
      rw [ih (0 * 256 + b)]
    rw [hz]
    simp [List.length_cons, pow_succ]
    ring

theorem natOfBytes_cons (b : Nat) (bs : List Nat) :
    natOfBytes (b :: bs) = b * 256 ^ bs.length + natOfBytes bs := by
  have h : natOfBytes (b :: bs) = bs.foldl (fun acc b => acc * 256 + b) (0 * 256 + b) := rfl
  rw [h, natOfBytes_foldl_shift]
  ring_nf

theorem natOfBytes_lt (bs : List Nat) (h : ∀ b ∈ bs, b < 256) :
    natOfBytes bs < 256 ^ bs.length := by
  induction bs with
  | nil => simp [natOfBytes]
  | cons b bs ih =>
    rw [natOfBytes_cons]
    have hb : b < 256 := h b (List.mem_cons_self b bs)
    have hr : natOfBytes bs < 256 ^ bs.length :=
      ih (fun x hx => h x (List.mem_cons_of_mem _ hx))
    have hstep : (b + 1) * 256 ^ bs.length ≤ 256 * 256 ^ bs.length :=
      Nat.mul_le_mul_right _ (by omega)
    have hexp : (b + 1) * 256 ^ bs.length = b * 256 ^ bs.length + 256 ^ bs.length := by ring
    have hpow : (256 : Nat) ^ (b :: bs).length = 256 * 256 ^ bs.length := by
      rw [List.length_cons, pow_succ]; ring
    rw [hpow]
    omega

theorem natOfBytes_pos (b : Nat) (bs : List Nat) (hb : b ≠ 0) :
    0 < natOfBytes (b :: bs) := by
  rw [natOfBytes_cons]
  have : 0 < 256 ^ bs.length := Nat.pos_pow_of_pos _ (by norm_num)
  have : 1 * 1 ≤ b * 256 ^ bs.length := Nat.mul_le_mul (by omega) (by omega)
  omega

theorem natToBytesBE_natOfBytes (bs : List Nat) (hne : bs ≠ []) (hh : bs.headD 0 ≠ 0)
    (hlt : ∀ b ∈ bs, b < 256) : natToBytesBE (natOfBytes bs) = bs := by
  induction bs using List.reverseRecOn with
  | nil => exact absurd rfl hne
  | append_singleton xs b ih =>
    rcases xs with _ | ⟨x, xs'⟩
    · have hb0 : b ≠ 0 := hh
      have hblt : b < 256 := hlt b (by simp)
      have hv : natOfBytes ([] ++ [b]) = b := by
        simp [natOfBytes]
      rw [hv, natToBytesBE_step b (by omega), Nat.div_eq_of_lt hblt, Nat.mod_eq_of_lt hblt]
      rfl
    · have hx0 : x ≠ 0 := hh
      have hblt : b < 256 := hlt b (by simp)
      have hA : 0 < natOfBytes (x :: xs') := natOfBytes_pos x xs' hx0
      have hv : natOfBytes ((x :: xs') ++ [b]) = natOfBytes (x :: xs') * 256 + b :=
        natOfBytes_append_one _ _
      rw [hv]
      have hN : 0 < natOfBytes (x :: xs') * 256 + b := by
        have := hA; omega
      rw [natToBytesBE_step _ hN]
      have hdiv : (natOfBytes (x :: xs') * 256 + b) / 256 = natOfBytes (x :: xs') := by
        omega
      have hmod : (natOfBytes (x :: xs') * 256 + b) % 256 = b := by
        omega
      rw [hdiv, hmod, ih (by simp) hx0 (fun y hy => hlt y (List.mem_append_left _ hy))]

theorem natOfBytes_eq_zero (bs : List Nat) (h : natOfBytes bs = 0) : ∀ b ∈ bs, b = 0 := by
  induction bs with
  | nil => intro b hb; simp at hb
  | cons b bs ih =>
    rw [natOfBytes_cons] at h
    have hml : b * 256 ^ bs.length = 0 := by omega
    have hb0 : b = 0 := by
      have hp : 0 < 256 ^ bs.length := Nat.pos_pow_of_pos _ (by norm_num)
      rcases Nat.mul_eq_zero.mp hml with h1 | h1
      · exact h1
      · omega
    intro y hy
    rcases List.mem_cons.mp hy with rfl | hy
    · exact hb0
    · exact ih (by omega) y hy

theorem natOfBytes_replicate_zero (z : Nat) (bs : List Nat) :
    natOfBytes (List.replicate z 0 ++ bs) = natOfBytes bs := by
  induction z with
  | zero => rfl
  | succ z ih =>
    calc natOfBytes (List.replicate (z + 1) 0 ++ bs)
        = natOfBytes (List.replicate z 0 ++ bs) := by
          simp [natOfBytes, List.replicate_succ]
      _ = natOfBytes bs := ih

/-! ## Lemmas: the base-58 digit loop -/

theorem natToDigits58Aux_congr (f1 : Nat) : ∀ f2 n : Nat, n ≤ f1 → n ≤ f2 →
    natToDigits58Aux f1 n = natToDigits58Aux f2 n := by
  induction f1 with
  | zero =>
    intro f2 n h1 h2
    have hn : n = 0 := Nat.le_zero.mp h1
    subst hn
    cases f2 with
    | zero => rfl
    | succ f2 => simp [natToDigits58Aux]
  | succ f1 ih =>
    intro f2 n h1 h2
    cases f2 with
    | zero =>
      have hn : n = 0 := Nat.le_zero.mp h2
      subst hn
      simp [natToDigits58Aux]
    | succ f2 =>
      by_cases hn : n = 0
      · subst hn; simp [natToDigits58Aux]
      · have hlt : n / 58 < n := Nat.div_lt_self (by omega) (by norm_num)
        simp only [natToDigits58Aux, if_neg hn]
        rw [ih f2 (n / 58) (by omega) (by omega)]

theorem natToDigits58_step (n : Nat) (hn : 0 < n) :
    natToDigits58 n = n % 58 :: natToDigits58 (n / 58) := by
  obtain ⟨m, rfl⟩ : ∃ m, n = m + 1 := ⟨n - 1, by omega⟩
  show natToDigits58Aux (m + 1) (m + 1) = (m + 1) % 58 :: natToDigits58Aux ((m + 1) / 58) ((m + 1) / 58)
  have hstep : natToDigits58Aux (m + 1) (m + 1) =
      (m + 1) % 58 :: natToDigits58Aux m ((m + 1) / 58) := by
    simp [natToDigits58Aux]
  rw [hstep]
  have hlt : (m + 1) / 58 < m + 1 := Nat.div_lt_self (by omega) (by norm_num)
  rw [natToDigits58Aux_congr m ((m + 1) / 58) ((m + 1) / 58) (by omega) le_rfl]

theorem natToDigits58_lt (n : Nat) : ∀ d ∈ natToDigits58 n, d < 58 := by
  induction n using Nat.strong_induction_on with
  | _ n ih =>
    rcases Nat.eq_zero_or_pos n with h0 | hpos
    · subst h0; intro d hd; simp [natToDigits58, natToDigits58Aux] at hd
    · rw [natToDigits58_step n hpos]
      intro d hd
      rcases List.mem_cons.mp hd with rfl | hd
      · exact Nat.mod_lt _ (by norm_num)
      · exact ih (n / 58) (Nat.div_lt_self hpos (by norm_num)) d hd

theorem natToDigits58_reverse_foldl (n : Nat) :
    ((natToDigits58 n).reverse).foldl (fun a d => a * 58 + d) 0 = n := by
  induction n using Nat.strong_induction_on with
  | _ n ih =>
    rcases Nat.eq_zero_or_pos n with h0 | hpos
    · subst h0; rfl
    · rw [natToDigits58_step n hpos, List.reverse_cons, List.foldl_append,
        ih (n / 58) (Nat.div_lt_self hpos (by norm_num))]
      show n / 58 * 58 + n % 58 = n
      omega

theorem natToDigits58_reverse_head : ∀ n, 0 < n →
    ∃ m ds, (natToDigits58 n).reverse = m :: ds ∧ m ≠ 0 := by
  intro n
  induction n using Nat.strong_induction_on with
  | _ n ih =>
    intro hpos
    rcases Nat.lt_or_ge n 58 with hsm | hlg
    · rw [natToDigits58_step n hpos, Nat.div_eq_of_lt hsm]
      exact ⟨n % 58, [], rfl, by omega⟩
    · rw [natToDigits58_step n hpos]
      have hq : 0 < n / 58 := Nat.div_pos hlg (by norm_num)
      obtain ⟨m, ds, heq, hne⟩ := ih (n / 58) (Nat.div_lt_self hpos (by norm_num)) hq
      refine ⟨m, ds ++ [n % 58], ?_, hne⟩
      rw [List.reverse_cons, heq]
      rfl

/-! ## Lemmas: the base-58 alphabet and the decode fold -/

theorem alphaIdx_alphaChar : ∀ d, d < 58 → alphaIdx (alphaChar d) = some d := by
  decide

theorem alphaChar_ne_one : ∀ m, m < 58 → m ≠ 0 → (alphaChar m == '1') = false := by
  decide

theorem fold58_replicate_one (z : Nat) :
    (List.replicate z '1').foldl b58Step (some 0) = some 0 := by
  induction z with
  | zero => rfl
  | succ z ih =>
    rw [List.replicate_succ, List.foldl_cons]
    exact ih

theorem fold58_map (ds : List Nat) (h : ∀ d ∈ ds, d < 58) : ∀ v : Nat,
    (ds.map alphaChar).foldl b58Step (some v)
    = some (ds.foldl (fun a d => a * 58 + d) v) := by
  induction ds with
  | nil => intro v; rfl
  | cons d ds ih =>
    intro v
    rw [List.map_cons, List.foldl_cons, List.foldl_cons]
    have hd : alphaIdx (alphaChar d) = some d := alphaIdx_alphaChar d (h d (List.mem_cons_self d ds))
    have hstep : b58Step (some v) (alphaChar d) = some (v * 58 + d) := by
      simp [b58Step, hd]
    rw [hstep]
    exact ih (fun x hx => h x (List.mem_cons_of_mem _ hx)) (v * 58 + d)

theorem takeWhile_replicate_self {α : Type} (p : α → Bool) (a : α) (hpa : p a = true) :
    ∀ z, (List.replicate z a).takeWhile p = List.replicate z a := by
  intro z
  induction z with
  | zero => rfl
  | succ z ih =>
    rw [List.replicate_succ, List.takeWhile_cons, hpa]
    simp [ih]

theorem takeWhile_replicate_cons {α : Type} (p : α → Bool) (a y : α) (ys : List α)
    (hpa : p a = true) (hpy : p y = false) : ∀ z,
    (List.replicate z a ++ y :: ys).takeWhile p = List.replicate z a := by
  intro z
  induction z with
  | zero =>
    rw [List.replicate, List.nil_append, List.takeWhile_cons, hpy]
    rfl
  | succ z ih =>
    rw [List.replicate_succ, List.cons_append, List.takeWhile_cons, hpa]
    simp [ih]

theorem dropWhile_head_false {α : Type} (p : α → Bool) (l : List α) :
    ∀ y ys, l.dropWhile p = y :: ys → p y = false := by
  induction l with
  | nil => intro y ys h; simp [List.dropWhile] at h
  | cons a l ih =>
    intro y ys h
    rw [List.dropWhile_cons] at h
    by_cases hpa : p a = true
    · rw [if_pos hpa] at h
      exact ih y ys h
    · rw [if_neg hpa] at h
      injection h with h1 h2
      subst h1
      exact Bool.not_eq_true _ ▸ (by simpa using hpa)

/-! ## Lemmas: list slicing helpers -/

theorem take_app {α : Type} (l1 l2 : List α) (n : Nat) (h : l1.length = n) :
    (l1 ++ l2).take n = l1 := by
  subst h
  induction l1 with
  | nil => rfl
  | cons a l1 ih =>
    show a :: (l1 ++ l2).take l1.length = a :: l1
    rw [ih]

theorem drop_app_exact {α : Type} (l1 l2 : List α) (n : Nat) (h : l1.length = n) :
    (l1 ++ l2).drop n = l2 := by
  subst h
  induction l1 with
  | nil => rfl
  | cons a l1 ih =>
    show (l1 ++ l2).drop l1.length = l2
    exact ih

theorem drop_app {α : Type} (l1 l2 : List α) (n m : Nat) (h : l1.length = n) :
    (l1 ++ l2).drop (n + m) = l2.drop m := by
  subst h
  induction l1 with
  | nil => simp
  | cons a l1 ih =>
    show (a :: (l1 ++ l2)).drop (l1.length + 1 + m) = l2.drop m
    rw [show l1.length + 1 + m = (l1.length + m) + 1 from by omega]
    exact ih

theorem getD_app {α : Type} (l1 l2 : List α) (n : Nat) (d : α) (h : l1.length = n) :
    (l1 ++ l2).getD n d = l2.getD 0 d := by
  subst h
  induction l1 with
  | nil => rfl
  | cons a l1 ih =>
    show (l1 ++ l2).getD l1.length d = l2.getD 0 d
    exact ih

theorem getD_lt (bs : List Nat) (h : ∀ b ∈ bs, b < 256) (i : Nat) : bs.getD i 0 < 256 := by
  rcases Nat.lt_or_ge i bs.length with hlt | hge
  · have hmem : bs.getD i 0 ∈ bs := by
      rw [List.getD_eq_getElem?_getD, List.getElem?_eq_getElem hlt]
      exact List.getElem_mem _
    exact h _ hmem
  · rw [List.getD_eq_default _ _ hge]
    norm_num

/-! ## Lemmas: Base58 encode/decode round trip -/

theorem Base58_roundtrip_zeros (m : Nat) :
    Base58Decode (Base58Encode (List.replicate (m + 1) 0)) = .ok (List.replicate (m + 1) 0) := by
  have hnum : natOfBytes (List.replicate (m + 1) 0) = 0 := by
    have h := natOfBytes_replicate_zero (m + 1) []
    rwa [List.append_nil] at h
  have htw : (List.replicate (m + 1) (0 : Nat)).takeWhile (fun b => b == 0) =
      List.replicate (m + 1) 0 := takeWhile_replicate_self _ _ rfl _
  have henc : Base58Encode (List.replicate (m + 1) 0) = List.replicate (m + 1) '1' := by
    show ((natToDigits58 (natOfBytes (List.replicate (m + 1) 0))).map alphaChar ++
        List.replicate ((List.replicate (m + 1) (0 : Nat)).takeWhile (fun b => b == 0)).length '1').reverse
      = List.replicate (m + 1) '1'
    rw [hnum, htw, List.length_replicate]
    show (([] : List Nat).map alphaChar ++ List.replicate (m + 1) '1').reverse =
      List.replicate (m + 1) '1'
    rw [List.map_nil, List.nil_append, List.reverse_replicate]
  rw [henc]
  have htw1 : (List.replicate (m + 1) '1').takeWhile (fun c => c == '1') =
      List.replicate (m + 1) '1' := takeWhile_replicate_self _ _ rfl _
  show (match (List.replicate (m + 1) '1').foldl b58Step (some 0) with
    | none => (Except.error BIP32Err.invalidBase58 : Except BIP32Err (List Nat))
    | some num =>
        Except.ok (List.replicate ((List.replicate (m + 1) '1').takeWhile (fun c => c == '1')).length 0
          ++ natToBytesBE num))
    = Except.ok (List.replicate (m + 1) 0)
  rw [fold58_replicate_one, htw1, List.length_replicate]
  show Except.ok (List.replicate (m + 1) 0 ++ natToBytesBE 0) = Except.ok (List.replicate (m + 1) 0)
  rw [show natToBytesBE 0 = [] from rfl, List.append_nil]

theorem Base58_roundtrip_pos (z r : Nat) (rest' : List Nat) (hr : r ≠ 0) (hrlt : r < 256)
    (hlt : ∀ b ∈ rest', b < 256) :
    Base58Decode (Base58Encode (List.replicate z 0 ++ r :: rest')) =
      .ok (List.replicate z 0 ++ r :: rest') := by
  have hnum : natOfBytes (List.replicate z 0 ++ r :: rest') = natOfBytes (r :: rest') :=
    natOfBytes_replicate_zero _ _
  have hnpos : 0 < natOfBytes (List.replicate z 0 ++ r :: rest') := by
    rw [hnum]; exact natOfBytes_pos r rest' hr
  have htw : (List.replicate z 0 ++ r :: rest').takeWhile (fun b => b == 0) =
      List.replicate z 0 :=
    takeWhile_replicate_cons (fun b => b == 0) 0 r rest' rfl (by simpa using hr) z
  obtain ⟨mm, ds, hrev, hmm⟩ :=
    natToDigits58_reverse_head (natOfBytes (List.replicate z 0 ++ r :: rest')) hnpos
  have hdlt : ∀ d ∈ (natToDigits58 (natOfBytes (List.replicate z 0 ++ r :: rest'))).reverse,
      d < 58 := fun d hd => natToDigits58_lt _ d (List.mem_reverse.mp hd)
  rw [hrev] at hdlt
  have hmmlt : mm < 58 := hdlt mm (List.mem_cons_self _ _)
  have henc : Base58Encode (List.replicate z 0 ++ r :: rest') =
      List.replicate z '1' ++ alphaChar mm :: ds.map alphaChar := by
    have hfull : ((natToDigits58 (natOfBytes (List.replicate z 0 ++ r :: rest'))).map alphaChar ++
        List.replicate ((List.replicate z 0 ++ r :: rest').takeWhile (fun b => b == 0)).length '1').reverse
        = List.replicate z '1' ++ alphaChar mm :: ds.map alphaChar := by
      rw [htw, List.length_replicate, List.reverse_append, List.reverse_replicate,
        ← List.map_reverse, hrev, List.map_cons]
    rcases hsh : List.replicate z 0 ++ r :: rest' with _ | ⟨d0, data'⟩
    · simp at hsh
    · calc Base58Encode (d0 :: data')
          = ((natToDigits58 (natOfBytes (d0 :: data'))).map alphaChar ++
            List.replicate ((d0 :: data').takeWhile (fun b => b == 0)).length '1').reverse := rfl
        _ = List.replicate z '1' ++ alphaChar mm :: ds.map alphaChar := by rw [← hsh]; exact hfull
  have h1false : (alphaChar mm == '1') = false := alphaChar_ne_one mm hmmlt hmm
  have htwd : (List.replicate z '1' ++ alphaChar mm :: ds.map alphaChar).takeWhile
      (fun c => c == '1') = List.replicate z '1' :=
    takeWhile_replicate_cons (fun c => c == '1') '1' (alphaChar mm) (ds.map alphaChar)
      rfl h1false z
  have hfold : (List.replicate z '1' ++ alphaChar mm :: ds.map alphaChar).foldl b58Step (some 0)
      = some (natOfBytes (List.replicate z 0 ++ r :: rest')) := by
    rw [List.foldl_append, fold58_replicate_one]
    have hmc : alphaChar mm :: ds.map alphaChar = (mm :: ds).map alphaChar := rfl
    rw [hmc, fold58_map (mm :: ds) hdlt 0, ← hrev, natToDigits58_reverse_foldl]
  have hbytes : natToBytesBE (natOfBytes (r :: rest')) = r :: rest' := by
    apply natToBytesBE_natOfBytes
    · simp
    · exact hr
    · intro b hb
      rcases List.mem_cons.mp hb with rfl | hb
      · exact hrlt
      · exact hlt b hb
  rw [henc]
  rcases hsh2 : List.replicate z '1' ++ alphaChar mm :: ds.map alphaChar with _ | ⟨c0, cs⟩
  · simp at hsh2
  · calc Base58Decode (c0 :: cs)
        = (match (c0 :: cs).foldl b58Step (some 0) with
          | none => (Except.error BIP32Err.invalidBase58 : Except BIP32Err (List Nat))
          | some num =>
              Except.ok (List.replicate ((c0 :: cs).takeWhile (fun c => c == '1')).length 0
                ++ natToBytesBE num)) := rfl
      _ = .ok (List.replicate z 0 ++ r :: rest') := by
          rw [← hsh2, hfold, htwd, List.length_replicate]
          show Except.ok (List.replicate z 0 ++
              natToBytesBE (natOfBytes (List.replicate z 0 ++ r :: rest')))
            = Except.ok (List.replicate z 0 ++ r :: rest')
          rw [hnum, hbytes]

theorem Base58Decode_encode_ne (data : List Nat) (hlt : ∀ b ∈ data, b < 256)
    (hne : data ≠ []) : Base58Decode (Base58Encode data) = .ok data := by
  have hsplit := List.takeWhile_append_dropWhile (p := fun b => b == 0) (l := data)
  have hrep : data.takeWhile (fun b => b == 0) =
      List.replicate (data.takeWhile (fun b => b == 0)).length 0 :=
    List.eq_replicate_of_mem (fun b hb => by simpa using List.mem_takeWhile_imp hb)
  rcases hrest : data.dropWhile (fun b => b == 0) with _ | ⟨r, rest'⟩
  · have hdecomp : data = List.replicate (data.takeWhile (fun b => b == 0)).length 0 := by
      conv_lhs => rw [← hsplit, hrest, List.append_nil, hrep]
    have hzpos : 0 < (data.takeWhile (fun b => b == 0)).length := by
      rcases Nat.eq_zero_or_pos (data.takeWhile (fun b => b == 0)).length with h0 | h
      · rw [h0] at hdecomp
        simp at hdecomp
        exact absurd hdecomp hne
      · exact h
    obtain ⟨m, hm⟩ : ∃ m, (data.takeWhile (fun b => b == 0)).length = m + 1 :=
      ⟨(data.takeWhile (fun b => b == 0)).length - 1, by omega⟩
    rw [hdecomp, hm]
    exact Base58_roundtrip_zeros m
  · have hdecomp : data = List.replicate (data.takeWhile (fun b => b == 0)).length 0
        ++ r :: rest' := by
      conv_lhs => rw [← hsplit, hrest, hrep]
    have hr : r ≠ 0 := by
      have h := dropWhile_head_false (fun b => b == 0) data r rest' hrest
      simpa using h
    have hmem : ∀ b ∈ r :: rest', b < 256 := by
      intro b hb
      apply hlt
      rw [hdecomp]
      exact List.mem_append_right _ hb
    rw [hdecomp]
    exact Base58_roundtrip_pos _ r rest' hr (hmem r (List.mem_cons_self _ _))
      (fun b hb => hmem b (List.mem_cons_of_mem _ hb))

theorem Base58CheckDecode_encode (payload : List Nat) (hlt : ∀ b ∈ payload, b < 256)
    (hne : payload ≠ []) :
    Base58CheckDecode (Base58CheckEncode payload) = .ok payload := by
  have hclt : ∀ b ∈ payload ++ Checksum4 payload, b < 256 := by
    intro b hb
    rcases List.mem_append.mp hb with h | h
    · exact hlt b h
    · exact Checksum4_lt payload b h
  have hcne : payload ++ Checksum4 payload ≠ [] := by
    intro hc
    rcases List.append_eq_nil.mp hc with ⟨h1, _⟩
    exact hne h1
  have hdec : Base58Decode (Base58Encode (payload ++ Checksum4 payload)) =
      .ok (payload ++ Checksum4 payload) := Base58Decode_encode_ne _ hclt hcne
  have hlen : (payload ++ Checksum4 payload).length = payload.length + 4 := by
    rw [List.length_append, Checksum4_length]
  have hdl : 0 < payload.length := List.length_pos.mpr hne
  rw [Base58CheckDecode, Base58CheckEncode, hdec]
  show (if (payload ++ Checksum4 payload).length < 5 then
      (Except.error BIP32Err.invalidDataLength : Except BIP32Err (List Nat))
    else if (payload ++ Checksum4 payload).drop ((payload ++ Checksum4 payload).length - 4) ≠
        Checksum4 ((payload ++ Checksum4 payload).take ((payload ++ Checksum4 payload).length - 4))
      then Except.error BIP32Err.invalidChecksum
    else Except.ok ((payload ++ Checksum4 payload).take ((payload ++ Checksum4 payload).length - 4)))
    = Except.ok payload
  have hsub : (payload ++ Checksum4 payload).length - 4 = payload.length := by omega
  rw [if_neg (by omega), hsub, take_app payload (Checksum4 payload) payload.length rfl,
    drop_app_exact payload (Checksum4 payload) payload.length rfl,
    if_neg (fun hc => hc rfl)]

/-! ## Lemmas: RIPEMD-160 output length, point coordinate ranges -/

theorem list_len5 {α : Type} (l : List α) (h : l.length = 5) :
    ∃ a b c d e, l = [a, b, c, d, e] := by
  rcases l with _ | ⟨a, _ | ⟨b, _ | ⟨c, _ | ⟨d, _ | ⟨e, _ | ⟨f, t⟩⟩⟩⟩⟩⟩
  · simp at h
  · simp at h
  · simp at h
  · simp at h
  · simp at h
  · exact ⟨a, b, c, d, e, rfl⟩
  · simp at h

theorem ripemdStep_length (X r s : List Nat) (kf fj : Nat → Nat) (st : List Nat) (j : Nat)
    (h : st.length = 5) : (ripemdStep X r s kf fj st j).length = 5 := by
  rcases st with _ | ⟨a, _ | ⟨b, _ | ⟨c, _ | ⟨d, _ | ⟨e, _ | ⟨f, t⟩⟩⟩⟩⟩⟩
  · exact h
  · exact h
  · exact h
  · exact h
  · exact h
  · rfl
  · exact h

theorem ripemd_foldl_length (X r s : List Nat) (kf fj : Nat → Nat) (l : List Nat) :
    ∀ st : List Nat, st.length = 5 → (l.foldl (ripemdStep X r s kf fj) st).length = 5 := by
  induction l with
  | nil => intro st h; exact h
  | cons j l ih =>
    intro st h
    exact ih _ (ripemdStep_length X r s kf fj st j h)

theorem ripemdCompress_length (h X : List Nat) (hh : h.length = 5) :
    (ripemdCompress h X).length = 5 := by
  have hl := ripemd_foldl_length X ripemdRL ripemdSL ripemdKL (fun j => j) (List.range 80) h hh
  have hr := ripemd_foldl_length X ripemdRR ripemdSR ripemdKR (fun j => 79 - j) (List.range 80) h hh
  obtain ⟨a0, a1, a2, a3, a4, hL⟩ := list_len5 _ hl
  obtain ⟨b0, b1, b2, b3, b4, hR⟩ := list_len5 _ hr
  obtain ⟨c0, c1, c2, c3, c4, hH⟩ := list_len5 _ hh
  show (match h, (List.range 80).foldl (ripemdStep X ripemdRL ripemdSL ripemdKL (fun j => j)) h,
      (List.range 80).foldl (ripemdStep X ripemdRR ripemdSR ripemdKR (fun j => 79 - j)) h with
    | [h0, h1, h2, h3, h4], [al, bl, cl, dl, el], [ar, br, cr, dr, er] =>
        [w32 (h1 + cl + dr), w32 (h2 + dl + er), w32 (h3 + el + ar),
         w32 (h4 + al + br), w32 (h0 + bl + cr)]
    | _, _, _ => h).length = 5
  rw [hL, hR, hH]
  rfl

theorem ripemd_blocks_length (blocks : List (List Nat)) : ∀ st : List Nat, st.length = 5 →
    (blocks.foldl ripemdCompress st).length = 5 := by
  induction blocks with
  | nil => intro st h; exact h
  | cons blk blocks ih => intro st h; exact ih _ (ripemdCompress_length _ _ h)

theorem ripemd160_length (msg : List Nat) : (ripemd160 msg).length = 20 := by
  have h5 := ripemd_blocks_length (chunks 16 (bytesToWords32LE (ripemdPad msg)))
    [0x67452301, 0xEFCDAB89, 0x98BADCFE, 0x10325476, 0xC3D2E1F0] rfl
  show (((chunks 16 (bytesToWords32LE (ripemdPad msg))).foldl ripemdCompress
      [0x67452301, 0xEFCDAB89, 0x98BADCFE, 0x10325476, 0xC3D2E1F0]).flatMap
      (fun wv => (ser32BE wv).reverse)).length = 20
  generalize (chunks 16 (bytesToWords32LE (ripemdPad msg))).foldl ripemdCompress
      [0x67452301, 0xEFCDAB89, 0x98BADCFE, 0x10325476, 0xC3D2E1F0] = final at h5 ⊢
  obtain ⟨a, b, c, d, e, hF⟩ := list_len5 _ h5
  rw [hF]
  rfl

theorem ripemd160_lt (msg : List Nat) : ∀ b ∈ ripemd160 msg, b < 256 := by
  intro b hb
  have hb' : b ∈ ((chunks 16 (bytesToWords32LE (ripemdPad msg))).foldl ripemdCompress
      [0x67452301, 0xEFCDAB89, 0x98BADCFE, 0x10325476, 0xC3D2E1F0]).flatMap
      (fun wv => (ser32BE wv).reverse) := hb
  obtain ⟨w, hw, hbw⟩ := List.mem_flatMap.mp hb'
  exact ser32BE_lt w b (List.mem_reverse.mp hbw)

theorem Hash160_length (data : List Nat) : (Hash160 data).length = 20 := ripemd160_length _

theorem Hash160_lt (data : List Nat) : ∀ b ∈ Hash160 data, b < 256 := ripemd160_lt _

theorem Fingerprint_length (k : ExtendedKey) : k.Fingerprint.length = 4 := by
  rw [ExtendedKey.Fingerprint, List.length_take, Hash160_length]
  rfl

theorem Fingerprint_lt (k : ExtendedKey) : ∀ b ∈ k.Fingerprint, b < 256 := fun b hb =>
  Hash160_lt _ b (List.mem_of_mem_take hb)

theorem padLeft_length (len : Nat) (bs : List Nat) (h : bs.length ≤ len) :
    (padLeft len bs).length = len := by
  rw [padLeft, List.length_append, List.length_replicate]
  omega

theorem padLeft_lt (len : Nat) (bs : List Nat) (h : ∀ b ∈ bs, b < 256) :
    ∀ b ∈ padLeft len bs, b < 256 := by
  intro b hb
  rw [padLeft] at hb
  rcases List.mem_append.mp hb with h1 | h1
  · have h2 := (List.mem_replicate.mp h1).2
    omega
  · exact h b h1

theorem emod_secpP_lt (a : Int) : a.emod secpP < (2 : Int) ^ 256 := by
  have h1 : a.emod secpP < (secpP : Int) := Int.emod_lt_of_pos a (by norm_num [secpP])
  have h2 : ((secpP : Nat) : Int) < (2 : Int) ^ 256 := by norm_num [secpP]
  exact lt_trans h1 h2

theorem pDouble_range (p : GoPoint) (h : p.x < (2 : Int) ^ 256) :
    (pDouble p).x < (2 : Int) ^ 256 := by
  rw [pDouble]
  split
  · norm_num [gInfinity]
  · exact emod_secpP_lt _

theorem pAdd_range (p1 p2 : GoPoint) (h1 : p1.x < (2 : Int) ^ 256)
    (h2 : p2.x < (2 : Int) ^ 256) : (pAdd p1 p2).x < (2 : Int) ^ 256 := by
  rw [pAdd]
  split
  · exact h2
  · split
    · exact h1
    · split
      · split
        · exact pDouble_range p1 h1
        · norm_num [gInfinity]
      · exact emod_secpP_lt _

theorem scalarLoop_range (bs : List Bool) : ∀ res addend : GoPoint,
    res.x < (2 : Int) ^ 256 → addend.x < (2 : Int) ^ 256 →
    (scalarLoop bs res addend).x < (2 : Int) ^ 256 := by
  induction bs with
  | nil => intro res addend h1 h2; exact h1
  | cons b bs ih =>
    intro res addend h1 h2
    show (scalarLoop bs (if b then pAdd res addend else res) (pDouble addend)).x < (2 : Int) ^ 256
    apply ih
    · split
      · exact pAdd_range res addend h1 h2
      · exact h1
    · exact pDouble_range addend h2

theorem ScalarMult_range (p : GoPoint) (k : Nat) (h : p.x < (2 : Int) ^ 256) :
    (ScalarMult p k).x < (2 : Int) ^ 256 :=
  scalarLoop_range _ _ _ (by norm_num [gInfinity]) h

theorem ScalarBaseMult_range (k : List Nat) : (ScalarBaseMult k).x < (2 : Int) ^ 256 :=
  ScalarMult_range _ _ (by norm_num [gGenerator, secpGx])

theorem xtoNat_lt (p : GoPoint) (h : p.x < (2 : Int) ^ 256) : p.x.toNat < 256 ^ 32 := by
  have hlit : (2 : Int) ^ 256 =
      (115792089237316195423570985008687907853269984665640564039457584007913129639936 : Int) := by
    norm_num
  have hlit2 : (256 : Nat) ^ 32 =
      115792089237316195423570985008687907853269984665640564039457584007913129639936 := by
    norm_num
  rw [hlit] at h
  rw [hlit2]
  omega

theorem CompressPoint_length (p : GoPoint) (h : p.x < (2 : Int) ^ 256) :
    (CompressPoint p).length = 33 := by
  rw [CompressPoint, List.length_cons,
    padLeft_length 32 _ (natToBytesBE_length_le 32 _ (xtoNat_lt p h))]

theorem CompressPoint_lt (p : GoPoint) : ∀ b ∈ CompressPoint p, b < 256 := by
  intro b hb
  rw [CompressPoint] at hb
  rcases List.mem_cons.mp hb with rfl | hb
  · split
    · norm_num
    · norm_num
  · exact padLeft_lt 32 _ (natToBytesBE_lt _) b hb

theorem AddPrivateKeys_length (k1 k2 : List Nat) : (AddPrivateKeys k1 k2).length = 32 := by
  rw [AddPrivateKeys]
  apply padLeft_length
  apply natToBytesBE_length_le
  have hmod : (natOfBytes k1 + natOfBytes k2) % secpN < secpN :=
    Nat.mod_lt _ (by norm_num [secpN])
  have hlt : secpN < 256 ^ 32 := by norm_num [secpN]
  omega

theorem AddPrivateKeys_lt (k1 k2 : List Nat) : ∀ b ∈ AddPrivateKeys k1 k2, b < 256 := by
  intro b hb
  rw [AddPrivateKeys] at hb
  exact padLeft_lt _ _ (natToBytesBE_lt _) b hb

theorem PublicKeyBytes_length (k : ExtendedKey) (h33 : k.key.length = 33) :
    k.PublicKeyBytes.length = 33 := by
  rw [ExtendedKey.PublicKeyBytes]
  split
  · exact CompressPoint_length _ (ScalarBaseMult_range _)
  · exact h33

theorem PublicKeyBytes_lt (k : ExtendedKey) (hb : ∀ b ∈ k.key, b < 256) :
    ∀ b ∈ k.PublicKeyBytes, b < 256 := by
  intro b hbm
  rw [ExtendedKey.PublicKeyBytes] at hbm
  split at hbm
  · exact CompressPoint_lt _ b hbm
  · exact hb b hbm

/-! ## Lemmas: the 78-byte serialization and its parse inverse -/

theorem Serialize_length (k : ExtendedKey) (h33 : k.key.length = 33)
    (h32 : k.chainCode.length = 32) (h4 : k.parentFP.length = 4) :
    k.Serialize.length = 78 := by
  have hs4 : ∀ n : Nat, (ser32BE n).length = 4 := fun n => rfl
  rw [ExtendedKey.Serialize]
  simp only [List.length_append, List.length_cons, List.length_nil, hs4, h33, h32, h4]

theorem Serialize_lt (k : ExtendedKey) (hd : k.depth < 256)
    (hkb : ∀ b ∈ k.key, b < 256) (hcb : ∀ b ∈ k.chainCode, b < 256)
    (hfb : ∀ b ∈ k.parentFP, b < 256) : ∀ b ∈ k.Serialize, b < 256 := by
  intro b hb
  rw [ExtendedKey.Serialize] at hb
  rcases List.mem_append.mp hb with hb | h
  · rcases List.mem_append.mp hb with hb | h
    · rcases List.mem_append.mp hb with hb | h
      · rcases List.mem_append.mp hb with hb | h
        · rcases List.mem_append.mp hb with hb | h
          · exact ser32BE_lt _ b hb
          · have hbd := List.mem_singleton.mp h
            subst hbd
            exact hd
        · exact hfb b h
      · exact ser32BE_lt _ b h
    · exact hcb b h
  · exact hkb b h

theorem getVersion_lt (k : ExtendedKey) (hnet : k.network = MainNet ∨ k.network = TestNet) :
    k.getVersion < 4294967296 := by
  rcases hnet with hn | hn <;> cases hkP : k.isPrivate <;>
    simp [ExtendedKey.getVersion, hn, hkP, MainNet, TestNet]

theorem NetworkFromVersion_getVersion (k : ExtendedKey)
    (hnet : k.network = MainNet ∨ k.network = TestNet) :
    NetworkFromVersion k.getVersion = some k.network := by
  rcases hnet with hn | hn <;> cases hkP : k.isPrivate <;>
    rw [ExtendedKey.getVersion, hkP, hn] <;> rfl

theorem IsPrivateVersion_getVersion (k : ExtendedKey)
    (hnet : k.network = MainNet ∨ k.network = TestNet) :
    IsPrivateVersion k.getVersion = k.isPrivate := by
  rcases hnet with hn | hn <;> cases hkP : k.isPrivate <;>
    rw [ExtendedKey.getVersion, hkP, hn] <;> rfl

theorem beUint32_ser32BE (v : Nat) (h : v < 4294967296) : beUint32 (ser32BE v) = v := by
  show v / 16777216 % 256 * 16777216 + v / 65536 % 256 * 65536 + v / 256 % 256 * 256 + v % 256 = v
  omega

theorem beUint32_lt (bs : List Nat) (h : ∀ b ∈ bs, b < 256) : beUint32 bs < 4294967296 := by
  have h0 := getD_lt bs h 0
  have h1 := getD_lt bs h 1
  have h2 := getD_lt bs h 2
  have h3 := getD_lt bs h 3
  rw [beUint32]
  omega

theorem DeserializeExtendedKey_Serialize (k : ExtendedKey) (hwf : WFKey k) :
    DeserializeExtendedKey k.Serialize = .ok k := by
  obtain ⟨h33, h32, h4, hd, hci, hnet, hkb, hcb, hfb⟩ := hwf
  have hv := getVersion_lt k hnet
  have hlen : k.Serialize.length = 78 := Serialize_length k h33 h32 h4
  have hdata : k.Serialize = ser32BE k.getVersion ++ ([k.depth] ++ (k.parentFP ++
      (ser32BE k.childIndex ++ (k.chainCode ++ k.key)))) := by
    rw [ExtendedKey.Serialize]
    simp only [List.append_assoc]
  have hver : beUint32 (k.Serialize.take 4) = k.getVersion := by
    rw [hdata, take_app (ser32BE k.getVersion) _ 4 rfl]
    exact beUint32_ser32BE _ hv
  have hdep : k.Serialize.getD 4 0 = k.depth := by
    rw [hdata, getD_app (ser32BE k.getVersion) _ 4 0 rfl]
    rfl
  have hfp : (k.Serialize.drop 5).take 4 = k.parentFP := by
    rw [hdata, show (5 : Nat) = 4 + 1 from rfl, drop_app (ser32BE k.getVersion) _ 4 1 rfl,
      drop_app_exact [k.depth] _ 1 rfl]
    exact take_app k.parentFP _ 4 h4
  have hcidx : beUint32 ((k.Serialize.drop 9).take 4) = k.childIndex := by
    rw [hdata, show (9 : Nat) = 4 + 5 from rfl, drop_app (ser32BE k.getVersion) _ 4 5 rfl,
      show (5 : Nat) = 1 + 4 from rfl, drop_app [k.depth] _ 1 4 rfl,
      drop_app_exact k.parentFP _ 4 h4, take_app (ser32BE k.childIndex) _ 4 rfl]
    exact beUint32_ser32BE _ hci
  have hcc : (k.Serialize.drop 13).take 32 = k.chainCode := by
    rw [hdata, show (13 : Nat) = 4 + 9 from rfl, drop_app (ser32BE k.getVersion) _ 4 9 rfl,
      show (9 : Nat) = 1 + 8 from rfl, drop_app [k.depth] _ 1 8 rfl,
      show (8 : Nat) = 4 + 4 from rfl, drop_app k.parentFP _ 4 4 h4,
      drop_app_exact (ser32BE k.childIndex) _ 4 rfl]
    exact take_app k.chainCode _ 32 h32
  have hkey : (k.Serialize.drop 45).take 33 = k.key := by
    rw [hdata, show (45 : Nat) = 4 + 41 from rfl, drop_app (ser32BE k.getVersion) _ 4 41 rfl,
      show (41 : Nat) = 1 + 40 from rfl, drop_app [k.depth] _ 1 40 rfl,
      show (40 : Nat) = 4 + 36 from rfl, drop_app k.parentFP _ 4 36 h4,
      show (36 : Nat) = 4 + 32 from rfl, drop_app (ser32BE k.childIndex) _ 4 32 rfl,
      drop_app_exact k.chainCode _ 32 h32, ← h33, List.take_length]
  have hnfv : NetworkFromVersion k.getVersion = some k.network :=
    NetworkFromVersion_getVersion k hnet
  have hpv : IsPrivateVersion k.getVersion = k.isPrivate :=
    IsPrivateVersion_getVersion k hnet
  rw [DeserializeExtendedKey, if_neg (fun hc => hc hlen)]
  show Except.ok (⟨(k.Serialize.drop 45).take 33, (k.Serialize.drop 13).take 32,
      k.Serialize.getD 4 0, (k.Serialize.drop 5).take 4,
      beUint32 ((k.Serialize.drop 9).take 4),
      (match NetworkFromVersion (beUint32 (k.Serialize.take 4)) with
        | some nw => nw
        | none => DefaultNetwork),
      IsPrivateVersion (beUint32 (k.Serialize.take 4))⟩ : ExtendedKey) = Except.ok k
  rw [hkey, hcc, hdep, hfp, hcidx, hver, hnfv, hpv]

/-! ## Lemmas: well-formedness of every produced key -/

theorem DecompressPoint_range (c : List Nat) (p : GoPoint) (hlt : ∀ b ∈ c, b < 256)
    (h : DecompressPoint c = .ok p) : p.x < (2 : Int) ^ 256 := by
  simp only [DecompressPoint] at h
  split at h
  · exact Except.noConfusion h
  · rename_i hlen33
    split at h
    · exact Except.noConfusion h
    · split at h
      · exact Except.noConfusion h
      · rename_i y hsq
        injection h with h'
        subst h'
        show Int.ofNat (natOfBytes (c.drop 1)) < (2 : Int) ^ 256
        have hlc : (c.drop 1).length = 32 := by
          rw [List.length_drop]
          omega
        have hb : natOfBytes (c.drop 1) < 256 ^ (c.drop 1).length :=
          natOfBytes_lt _ (fun b hb => hlt b (List.mem_of_mem_drop hb))
        rw [hlc] at hb
        have hlit2 : (256 : Nat) ^ 32 =
            115792089237316195423570985008687907853269984665640564039457584007913129639936 := by
          norm_num
        have hlit : (2 : Int) ^ 256 =
            (115792089237316195423570985008687907853269984665640564039457584007913129639936 : Int) := by
          norm_num
        rw [hlit2] at hb
        rw [hlit, Int.ofNat_eq_coe]
        omega

theorem deriveChildKey_facts (k : ExtendedKey) (IL ck : List Nat)
    (h33 : k.key.length = 33) (hkb : ∀ b ∈ k.key, b < 256)
    (h : deriveChildKey k IL = .ok ck) :
    ck.length = 33 ∧ ∀ b ∈ ck, b < 256 := by
  simp only [deriveChildKey] at h
  split at h
  · simp only [derivePrivateChildKey] at h
    split at h
    · exact Except.noConfusion h
    · injection h with h'
      subst h'
      constructor
      · rw [List.length_cons, AddPrivateKeys_length]
      · intro b hb
        rcases List.mem_cons.mp hb with rfl | hb
        · norm_num
        · exact AddPrivateKeys_lt _ _ b hb
  · simp only [derivePublicChildKey] at h
    split at h
    · exact Except.noConfusion h
    · rename_i parentPoint hdp
      split at h
      · exact Except.noConfusion h
      · injection h with h'
        subst h'
        constructor
        · exact CompressPoint_length _
            (pAdd_range _ _ (ScalarBaseMult_range _) (DecompressPoint_range _ _ hkb hdp))
        · exact fun b hb => CompressPoint_lt _ b hb

theorem Base58Decode_lt (s : List Char) (bs : List Nat) (h : Base58Decode s = .ok bs) :
    ∀ b ∈ bs, b < 256 := by
  simp only [Base58Decode] at h
  split at h
  · injection h with h'
    subst h'
    intro b hb
    simp at hb
  · split at h
    · exact Except.noConfusion h
    · injection h with h'
      subst h'
      intro b hb
      rcases List.mem_append.mp hb with h1 | h1
      · have h2 := (List.mem_replicate.mp h1).2
        omega
      · exact natToBytesBE_lt _ b h1

theorem Base58CheckDecode_lt (s : List Char) (decoded : List Nat)
    (h : Base58CheckDecode s = .ok decoded) : ∀ b ∈ decoded, b < 256 := by
  simp only [Base58CheckDecode] at h
  split at h
  · exact Except.noConfusion h
  · rename_i full hfull
    split at h
    · exact Except.noConfusion h
    · split at h
      · exact Except.noConfusion h
      · injection h with h'
        subst h'
        intro b hb
        exact Base58Decode_lt s full hfull b (List.mem_of_mem_take hb)

theorem networkOf_cases (v : Nat) :
    (match NetworkFromVersion v with | some nw => nw | none => DefaultNetwork) = MainNet ∨
    (match NetworkFromVersion v with | some nw => nw | none => DefaultNetwork) = TestNet := by
  rcases hnv : NetworkFromVersion v with _ | nw
  · left; rfl
  · show nw = MainNet ∨ nw = TestNet
    rw [NetworkFromVersion] at hnv
    split at hnv
    · injection hnv with h'
      left
      exact h'.symm
    · split at hnv
      · injection hnv with h'
        right
        exact h'.symm
      · exact Option.noConfusion hnv

theorem produced_wf (k : ExtendedKey) (h : Produced k) : WFKey k := by
  induction h with
  | master seed net k hnet hok =>
    simp only [NewMasterKeyWithNetwork] at hok
    split at hok
    · exact Except.noConfusion hok
    · split at hok
      · exact Except.noConfusion hok
      · injection hok with h'
        subst h'
        have hI : (HMACSHA512 (strBytes ("Bitcoin seed")) seed).length = 64 :=
          HMACSHA512_length _ _
        refine ⟨?_, ?_, ?_, ?_, ?_, ?_, ?_, ?_, ?_⟩
        · dsimp only
          rw [List.length_cons, List.length_take, hI]
          omega
        · dsimp only
          rw [List.length_drop, hI]
        · dsimp only
          rfl
        · dsimp only
          norm_num
        · dsimp only
          norm_num
        · dsimp only
          exact hnet
        · dsimp only
          intro b hb
          rcases List.mem_cons.mp hb with rfl | hb
          · norm_num
          · exact HMACSHA512_lt _ _ b (List.mem_of_mem_take hb)
        · dsimp only
          intro b hb
          exact HMACSHA512_lt _ _ b (List.mem_of_mem_drop hb)
        · dsimp only
          intro b hb
          have h0 : b = 0 := by simpa using hb
          omega
  | child k i k' hp hi hok ih =>
    simp only [ExtendedKey.Child] at hok
    split at hok
    · exact Except.noConfusion hok
    · split at hok
      · exact Except.noConfusion hok
      · split at hok
        · exact Except.noConfusion hok
        · rename_i childKey hdck
          injection hok with h'
          subst h'
          obtain ⟨h33, h32, h4, hd, hci, hnet, hkb, hcb, hfb⟩ := ih
          obtain ⟨hck33, hckb⟩ := deriveChildKey_facts k _ childKey h33 hkb hdck
          refine ⟨?_, ?_, ?_, ?_, ?_, ?_, ?_, ?_, ?_⟩
          · dsimp only
            exact hck33
          · dsimp only
            rw [List.length_drop, HMACSHA512_length]
          · dsimp only
            exact Fingerprint_length k
          · dsimp only
            exact Nat.mod_lt _ (by norm_num)
          · dsimp only
            exact hi
          · dsimp only
            exact hnet
          · dsimp only
            exact hckb
          · dsimp only
            intro b hb
            exact HMACSHA512_lt _ _ b (List.mem_of_mem_drop hb)
          · dsimp only
            exact Fingerprint_lt k
  | neutered k k' hp hok ih =>
    simp only [ExtendedKey.Neuter] at hok
    split at hok
    · injection hok with h'
      subst h'
      exact ih
    · injection hok with h'
      subst h'
      obtain ⟨h33, h32, h4, hd, hci, hnet, hkb, hcb, hfb⟩ := ih
      refine ⟨?_, ?_, ?_, ?_, ?_, ?_, ?_, ?_, ?_⟩
      · dsimp only
        exact PublicKeyBytes_length k h33
      · dsimp only
        exact h32
      · dsimp only
        exact h4
      · dsimp only
        exact hd
      · dsimp only
        exact hci
      · dsimp only
        exact hnet
      · dsimp only
        exact PublicKeyBytes_lt k hkb
      · dsimp only
        exact hcb
      · dsimp only
        exact hfb
  | parsed s k hok =>
    simp only [ParseExtendedKey] at hok
    split at hok
    · exact Except.noConfusion hok
    · rename_i decoded hbd
      have hdb : ∀ b ∈ decoded, b < 256 := Base58CheckDecode_lt s decoded hbd
      simp only [DeserializeExtendedKey] at hok
      split at hok
      · exact Except.noConfusion hok
      · rename_i hlen78
        have hlen : decoded.length = 78 := not_not.mp hlen78
        injection hok with h'
        subst h'
        refine ⟨?_, ?_, ?_, ?_, ?_, ?_, ?_, ?_, ?_⟩
        · dsimp only
          rw [List.length_take, List.length_drop, hlen]
          omega
        · dsimp only
          rw [List.length_take, List.length_drop, hlen]
          omega
        · dsimp only
          rw [List.length_take, List.length_drop, hlen]
          omega
        · dsimp only
          exact getD_lt decoded hdb 4
        · dsimp only
          exact beUint32_lt _ (fun b hb => hdb b (List.mem_of_mem_drop (List.mem_of_mem_take hb)))
        · dsimp only
          exact networkOf_cases _
        · dsimp only
          intro b hb
          exact hdb b (List.mem_of_mem_drop (List.mem_of_mem_take hb))
        · dsimp only
          intro b hb
          exact hdb b (List.mem_of_mem_drop (List.mem_of_mem_take hb))
        · dsimp only
          intro b hb
          exact hdb b (List.mem_of_mem_drop (List.mem_of_mem_take hb))


/-- C2: every extended key produced by the API (master derivation over the two
defined networks, child derivation at a uint32 index, neutering, or parsing)
serializes to exactly 78 bytes (version(4 BE) then depth(1) then parent_fp(4)
then child_index(4 BE) then chain_code(32) then key(33), which is the
definition of `ExtendedKey.Serialize`), and `ParseExtendedKey` applied to its
Base58Check string form returns the identical key in all fields. -/
theorem C2_parse_tostring_roundtrip (k : ExtendedKey) (h : Produced k) :
    k.Serialize.length = 78 ∧ ParseExtendedKey k.toStr = .ok k := by
  have hwf := produced_wf k h
  obtain ⟨h33, h32, h4, hd, hci, hnet, hkb, hcb, hfb⟩ := hwf
  have hlen : k.Serialize.length = 78 := Serialize_length k h33 h32 h4
  refine ⟨hlen, ?_⟩
  have hne : k.Serialize ≠ [] := by
    intro hc
    rw [hc] at hlen
    simp at hlen
  have hbytes : ∀ b ∈ k.Serialize, b < 256 := Serialize_lt k hd hkb hcb hfb
  rw [ExtendedKey.toStr, ParseExtendedKey, Base58CheckDecode_encode _ hbytes hne]
  show DeserializeExtendedKey k.Serialize = .ok k
  exact DeserializeExtendedKey_Serialize k ⟨h33, h32, h4, hd, hci, hnet, hkb, hcb, hfb⟩

theorem C2_parse_tostring_roundtrip_witness :
    masterC2.Serialize.length = 78 ∧ ParseExtendedKey masterC2.toStr = .ok masterC2 :=
  C2_parse_tostring_roundtrip masterC2
    (Produced.master seedC2 MainNet masterC2 (Or.inl rfl) (by rfl))

/-! ## C6: key-material invariant of the constructors -/

theorem isValid_iff (kb : List Nat) :
    IsValidPrivateKey kb = true ↔ 0 < natOfBytes kb ∧ natOfBytes kb < secpN := by
  rw [IsValidPrivateKey]
  simp

theorem KeyMaterialOK_private (k : ExtendedKey) (hp : k.isPrivate = true)
    (kb : List Nat) (hkey : k.key = 0 :: kb) (hlen : kb.length = 32)
    (hv : 0 < natOfBytes kb ∧ natOfBytes kb < secpN) : KeyMaterialOK k := by
  rw [KeyMaterialOK, hp, if_pos rfl]
  exact ⟨kb, hkey, hlen, hv.1, hv.2⟩

theorem KeyMaterialOK_public (k : ExtendedKey) (hp : k.isPrivate = false)
    (p : GoPoint) (hr : p.x < (2 : Int) ^ 256) (hkey : k.key = CompressPoint p) :
    KeyMaterialOK k := by
  rw [KeyMaterialOK, hp, if_neg (by simp)]
  exact ⟨p, hr, hkey⟩

theorem producedNP_produced (k : ExtendedKey) (h : ProducedNP k) : Produced k := by
  induction h with
  | master seed net k hnet hok => exact Produced.master seed net k hnet hok
  | child k i k' hp hi hok ih => exact Produced.child k i k' ih hi hok
  | neutered k k' hp hok ih => exact Produced.neutered k k' ih hok

/-- C6 (amended): every extended key produced by master derivation, child
derivation, or neutering satisfies the data-model invariant: if private, its
key material is 0x00 followed by a 32-byte scalar strictly between 0 and the
secp256k1 group order n; if public, the key material is a 33-byte compressed
SEC1 point (0x02/0x03 then the 32-byte x coordinate).  Parsing is excluded:
`DeserializeExtendedKey` performs no key-material validation (see the
counterexample). -/
theorem C6_key_material_invariant (k : ExtendedKey) (h : ProducedNP k) :
    KeyMaterialOK k := by
  induction h with
  | master seed net k hnet hok =>
    simp only [NewMasterKeyWithNetwork] at hok
    split at hok
    · exact Except.noConfusion hok
    · split at hok
      · exact Except.noConfusion hok
      · rename_i hvalid
        injection hok with h'
        subst h'
        have hval : IsValidPrivateKey
            ((HMACSHA512 (strBytes ("Bitcoin seed")) seed).take 32) = true :=
          not_not.mp hvalid
        rw [isValid_iff] at hval
        have hIlen : ((HMACSHA512 (strBytes ("Bitcoin seed")) seed).take 32).length = 32 := by
          rw [List.length_take, HMACSHA512_length]
          rfl
        exact KeyMaterialOK_private _ (by dsimp only)
          ((HMACSHA512 (strBytes ("Bitcoin seed")) seed).take 32)
          (by dsimp only) hIlen hval
  | child k i k' hp hi hok ih =>
    simp only [ExtendedKey.Child] at hok
    split at hok
    · exact Except.noConfusion hok
    · split at hok
      · exact Except.noConfusion hok
      · split at hok
        · exact Except.noConfusion hok
        · rename_i childKey hdck
          injection hok with h'
          subst h'
          have hwf := produced_wf k (producedNP_produced k hp)
          obtain ⟨h33, h32, h4, hd, hci, hnet, hkb, hcb, hfb⟩ := hwf
          rw [deriveChildKey] at hdck
          split at hdck
          · rename_i hpriv
            simp only [derivePrivateChildKey] at hdck
            split at hdck
            · exact Except.noConfusion hdck
            · rename_i hvalid2
              injection hdck with h2
              have hval2 : IsValidPrivateKey
                  (AddPrivateKeys (k.key.drop 1)
                    ((HMACSHA512 k.chainCode (buildChildData k i (IsHardened i))).take 32)) =
                  true := not_not.mp hvalid2
              rw [isValid_iff] at hval2
              refine KeyMaterialOK_private _ (by dsimp only; exact hpriv)
                (AddPrivateKeys (k.key.drop 1)
                  ((HMACSHA512 k.chainCode (buildChildData k i (IsHardened i))).take 32))
                ?_ (AddPrivateKeys_length _ _) hval2
              dsimp only
              exact h2.symm
          · rename_i hpriv
            simp only [derivePublicChildKey] at hdck
            split at hdck
            · exact Except.noConfusion hdck
            · rename_i parentPoint hdp
              split at hdck
              · exact Except.noConfusion hdck
              · injection hdck with h2
                refine KeyMaterialOK_public _ (by dsimp only; simpa using hpriv)
                  (pAdd (ScalarBaseMult
                    ((HMACSHA512 k.chainCode (buildChildData k i (IsHardened i))).take 32))
                    parentPoint)
                  (pAdd_range _ _ (ScalarBaseMult_range _)
                    (DecompressPoint_range k.key parentPoint hkb hdp)) ?_
                dsimp only
                exact h2.symm
  | neutered k k' hp hok ih =>
    simp only [ExtendedKey.Neuter] at hok
    split at hok
    · injection hok with h'
      subst h'
      exact ih
    · rename_i hpriv
      injection hok with h'
      subst h'
      have hpriv' : k.isPrivate = true := by simpa using not_not.mp hpriv
      refine KeyMaterialOK_public _ (by dsimp only) (ScalarBaseMult (k.key.drop 1))
        (ScalarBaseMult_range _) ?_
      dsimp only
      rw [ExtendedKey.PublicKeyBytes, hpriv', if_pos rfl]
      rfl

theorem C6_key_material_invariant_witness : KeyMaterialOK masterC2 :=
  C6_key_material_invariant masterC2
    (ProducedNP.master seedC2 MainNet masterC2 (Or.inl rfl) (by rfl))

/-- C6 counterexample: parsing performs no key-material validation.  The
Base58Check string of a 78-byte payload with the MainNet private version and
an all-zero scalar parses successfully into a private extended key whose
scalar is 0 — not strictly between 0 and n as the claim requires of every
constructor including parsing. -/
theorem C6_counterexample :
    ParseExtendedKey (Base58CheckEncode badSerialC6) = .ok badKeyC6 ∧
    badKeyC6.isPrivate = true ∧ natOfBytes (badKeyC6.key.drop 1) = 0 := by
  refine ⟨?_, rfl, by decide⟩
  rw [ParseExtendedKey, Base58CheckDecode_encode badSerialC6 (by decide) (by decide)]
  show DeserializeExtendedKey badSerialC6 = .ok badKeyC6
  rfl

/-! ## Lemmas: hex encoding and the EIP-55 loop -/

theorem hexEncode_length (bs : List Nat) : (hexEncode bs).length = 2 * bs.length := by
  induction bs with
  | nil => rfl
  | cons b bs ih =>
    show (hexEncode bs).length + 1 + 1 = 2 * (bs.length + 1)
    omega

theorem mem_hexEncode (bs : List Nat) (hlt : ∀ b ∈ bs, b < 256) :
    ∀ c ∈ hexEncode bs, ∃ v, v < 16 ∧ c = hexDigit v := by
  induction bs with
  | nil => intro c hc; simp [hexEncode] at hc
  | cons b bs ih =>
    intro c hc
    have hb : b < 256 := hlt b (List.mem_cons_self b bs)
    rcases List.mem_cons.mp hc with rfl | hc
    · exact ⟨b / 16, by omega, rfl⟩
    rcases List.mem_cons.mp hc with rfl | hc
    · exact ⟨b % 16, by omega, rfl⟩
    · exact ih (fun x hx => hlt x (List.mem_cons_of_mem _ hx)) c hc

theorem hexDigit_isHex : ∀ v, v < 16 → isHexDigitGo (hexDigit v) = true := by decide

theorem hexDigit_lower : ∀ v, v < 16 → goToLower (hexDigit v) = hexDigit v := by decide

theorem hexDigit_not_upper : ∀ v, v < 16 → ¬('A' ≤ hexDigit v ∧ hexDigit v ≤ 'F') := by decide

theorem hexDigit_letter_iff : ∀ v, v < 16 →
    (('a' ≤ hexDigit v ∧ hexDigit v ≤ 'f') ↔ 10 ≤ v) := by decide

theorem hexDigit_upper_facts : ∀ v, v < 16 → 10 ≤ v →
    isHexDigitGo (Char.ofNat ((hexDigit v).toNat - 32)) = true ∧
    goToLower (Char.ofNat ((hexDigit v).toNat - 32)) = hexDigit v ∧
    ('A' ≤ Char.ofNat ((hexDigit v).toNat - 32) ∧ Char.ofNat ((hexDigit v).toNat - 32) ≤ 'F') := by
  decide

theorem hexVal_hexDigit : ∀ v, v < 16 → hexVal (hexDigit v) = v := by decide

theorem hexDecode_encode (bs : List Nat) (hlt : ∀ b ∈ bs, b < 256) :
    hexDecode (hexEncode bs) = bs := by
  induction bs with
  | nil => rfl
  | cons b bs ih =>
    have hb : b < 256 := hlt b (List.mem_cons_self b bs)
    show (hexVal (hexDigit (b / 16)) * 16 + hexVal (hexDigit (b % 16))) :: hexDecode (hexEncode bs)
      = b :: bs
    rw [hexVal_hexDigit (b / 16) (by omega), hexVal_hexDigit (b % 16) (by omega),
      ih (fun x hx => hlt x (List.mem_cons_of_mem _ hx))]
    congr 1
    omega

theorem eip55Map_length (hash : List Nat) : ∀ (cs : List Char) (i : Nat),
    (eip55Map hash i cs).length = cs.length := by
  intro cs
  induction cs with
  | nil => intro i; rfl
  | cons c cs ih =>
    intro i
    show (eip55Map hash (i + 1) cs).length + 1 = cs.length + 1
    rw [ih]

theorem eip55Map_hex (hash : List Nat) : ∀ (cs : List Char) (i : Nat),
    (∀ c ∈ cs, ∃ v, v < 16 ∧ c = hexDigit v) →
    ∀ c ∈ eip55Map hash i cs, isHexDigitGo c = true := by
  intro cs
  induction cs with
  | nil => intro i hmem c hc; simp [eip55Map] at hc
  | cons c0 cs ih =>
    intro i hmem c hc
    obtain ⟨v, hv, rfl⟩ := hmem c0 (List.mem_cons_self c0 cs)
    rcases List.mem_cons.mp hc with rfl | hc
    · by_cases hcl : 'a' ≤ hexDigit v ∧ hexDigit v ≤ 'f'
      · rw [if_pos hcl]
        by_cases hn : 8 ≤ ethNibble hash i
        · rw [if_pos hn]
          exact (hexDigit_upper_facts v hv ((hexDigit_letter_iff v hv).mp hcl)).1
        · rw [if_neg hn]
          exact hexDigit_isHex v hv
      · rw [if_neg hcl]
        exact hexDigit_isHex v hv
    · exact ih (i + 1) (fun x hx => hmem x (List.mem_cons_of_mem _ hx)) c hc

theorem eip55Map_toLower (hash : List Nat) : ∀ (cs : List Char) (i : Nat),
    (∀ c ∈ cs, ∃ v, v < 16 ∧ c = hexDigit v) →
    (eip55Map hash i cs).map goToLower = cs := by
  intro cs
  induction cs with
  | nil => intro i hmem; rfl
  | cons c0 cs ih =>
    intro i hmem
    obtain ⟨v, hv, rfl⟩ := hmem c0 (List.mem_cons_self c0 cs)
    show goToLower (if 'a' ≤ hexDigit v ∧ hexDigit v ≤ 'f' then
        (if 8 ≤ ethNibble hash i then Char.ofNat ((hexDigit v).toNat - 32) else hexDigit v)
      else hexDigit v) :: (eip55Map hash (i + 1) cs).map goToLower = hexDigit v :: cs
    rw [ih (i + 1) (fun x hx => hmem x (List.mem_cons_of_mem _ hx))]
    congr 1
    by_cases hcl : 'a' ≤ hexDigit v ∧ hexDigit v ≤ 'f'
    · rw [if_pos hcl]
      by_cases hn : 8 ≤ ethNibble hash i
      · rw [if_pos hn]
        exact (hexDigit_upper_facts v hv ((hexDigit_letter_iff v hv).mp hcl)).2.1
      · rw [if_neg hn]
        exact hexDigit_lower v hv
    · rw [if_neg hcl]
      exact hexDigit_lower v hv

theorem eip55Map_getD (hash : List Nat) : ∀ (cs : List Char) (i j : Nat), j < cs.length →
    (eip55Map hash i cs).getD j '0' =
      (if 'a' ≤ cs.getD j '0' ∧ cs.getD j '0' ≤ 'f' then
        (if 8 ≤ ethNibble hash (i + j) then Char.ofNat ((cs.getD j '0').toNat - 32)
         else cs.getD j '0')
      else cs.getD j '0') := by
  intro cs
  induction cs with
  | nil => intro i j hj; simp at hj
  | cons c0 cs ih =>
    intro i j hj
    cases j with
    | zero =>
      show (if 'a' ≤ c0 ∧ c0 ≤ 'f' then
          (if 8 ≤ ethNibble hash i then Char.ofNat (c0.toNat - 32) else c0)
        else c0) = _
      rw [List.getD_cons_zero, Nat.add_zero]
    | succ j =>
      show (eip55Map hash (i + 1) cs).getD j '0' = _
      rw [List.getD_cons_succ, ih (i + 1) j (by simpa using hj),
        show i + 1 + j = i + (j + 1) from by omega]

theorem getD_set_self {α : Type} (l : List α) : ∀ (n : Nat) (a d : α), n < l.length →
    (l.set n a).getD n d = a := by
  induction l with
  | nil => intro n a d h; simp at h
  | cons x l ih =>
    intro n a d h
    cases n with
    | zero => rfl
    | succ n =>
      show (l.set n a).getD n d = a
      exact ih n a d (by simpa using h)

theorem set_getD_self {α : Type} (l : List α) : ∀ (n : Nat) (d : α), n < l.length →
    l.set n (l.getD n d) = l := by
  induction l with
  | nil => intro n d h; simp at h
  | cons x l ih =>
    intro n d h
    cases n with
    | zero => rfl
    | succ n =>
      show x :: l.set n (l.getD n d) = x :: l
      rw [ih n d (by simpa using h)]

theorem map_set_comm {α β : Type} (f : α → β) (l : List α) : ∀ (n : Nat) (a : α),
    (l.set n a).map f = (l.map f).set n (f a) := by
  induction l with
  | nil => intro n a; rfl
  | cons x l ih =>
    intro n a
    cases n with
    | zero => rfl
    | succ n =>
      show f x :: (l.set n a).map f = f x :: (l.map f).set n (f a)
      rw [ih n a]

theorem set_ne_self {α : Type} (l : List α) (n : Nat) (a : α) (hn : n < l.length)
    (hne : a ≠ l.getD n a) : l.set n a ≠ l := by
  intro hc
  have h1 : (l.set n a).getD n a = a := getD_set_self l n a a hn
  rw [hc] at h1
  exact hne h1.symm

theorem flipHexCase_facts (c c' : Char) (h : flipHexCase c = some c') :
    c' ≠ c ∧ goToLower c' = goToLower c ∧ isHexDigitGo c' = true := by
  have hc : c = 'a' ∨ c = 'b' ∨ c = 'c' ∨ c = 'd' ∨ c = 'e' ∨ c = 'f' ∨
      c = 'A' ∨ c = 'B' ∨ c = 'C' ∨ c = 'D' ∨ c = 'E' ∨ c = 'F' := by
    by_contra hcon
    push_neg at hcon
    obtain ⟨n1, n2, n3, n4, n5, n6, n7, n8, n9, n10, n11, n12⟩ := hcon
    rw [flipHexCase, if_neg n1, if_neg n2, if_neg n3, if_neg n4, if_neg n5, if_neg n6,
      if_neg n7, if_neg n8, if_neg n9, if_neg n10, if_neg n11, if_neg n12] at h
    exact Option.noConfusion h
  rcases hc with rfl | rfl | rfl | rfl | rfl | rfl | rfl | rfl | rfl | rfl | rfl | rfl <;>
    simp only [flipHexCase] at h <;> simp at h <;> subst h <;>
    exact ⟨by decide, by decide, by decide⟩

theorem getD_mem {α : Type} (l : List α) : ∀ (i : Nat) (d : α), i < l.length → l.getD i d ∈ l := by
  induction l with
  | nil => intro i d h; simp at h
  | cons x l ih =>
    intro i d h
    cases i with
    | zero => exact List.mem_cons_self x l
    | succ i =>
      show l.getD i d ∈ x :: l
      exact List.mem_cons_of_mem x (ih i d (by simpa using h))

theorem getD_inbounds_eq {α : Type} (l : List α) : ∀ (i : Nat) (d1 d2 : α), i < l.length →
    l.getD i d1 = l.getD i d2 := by
  induction l with
  | nil => intro i d1 d2 h; simp at h
  | cons x l ih =>
    intro i d1 d2 h
    cases i with
    | zero => rfl
    | succ i => exact ih i d1 d2 (by simpa using h)

theorem getD_map_inbounds {α β : Type} (f : α → β) (l : List α) : ∀ (i : Nat) (d : β) (d' : α),
    i < l.length → (l.map f).getD i d = f (l.getD i d') := by
  induction l with
  | nil => intro i d d' h; simp at h
  | cons x l ih =>
    intro i d d' h
    cases i with
    | zero => rfl
    | succ i => exact ih i d d' (by simpa using h)

/-- C8: for every 20-byte address payload, the emitted EIP-55 string is 0x
followed by 40 hex characters; a character is an uppercase hex letter exactly
when the corresponding lowercase hex character is a letter a-f and the
matching nibble of Keccak-256 of the lowercase hex address is at least 8;
`Generate` on a 64-byte public key emits exactly this string for its 20-byte
payload; `ValidateChecksum` accepts the emitted string; and flipping the case
of any single letter makes `ValidateChecksum` return false. -/
theorem C8_eip55_emit_validate_flip (addr : List Nat) (h20 : addr.length = 20)
    (hlt : ∀ b ∈ addr, b < 256) :
    (toChecksumAddress addr).length = 42 ∧
    (toChecksumAddress addr).getD 0 '0' = '0' ∧
    (toChecksumAddress addr).getD 1 '0' = 'x' ∧
    (∀ c ∈ (toChecksumAddress addr).drop 2, isHexDigitGo c = true) ∧
    (∀ i, i < 40 →
      (('A' ≤ ((toChecksumAddress addr).drop 2).getD i '0' ∧
        ((toChecksumAddress addr).drop 2).getD i '0' ≤ 'F') ↔
       ('a' ≤ (hexEncode addr).getD i '0' ∧ (hexEncode addr).getD i '0' ≤ 'f' ∧
        8 ≤ ethNibble (Keccak256 ((hexEncode addr).map Char.toNat)) i))) ∧
    (∀ pk : List Nat, pk.length = 64 → (Keccak256 pk).drop 12 = addr →
      EthGenerate pk = .ok (toChecksumAddress addr)) ∧
    EthValidateChecksum (toChecksumAddress addr) = true ∧
    (∀ i c', i < 40 →
      flipHexCase (((toChecksumAddress addr).drop 2).getD i '0') = some c' →
      EthValidateChecksum ((toChecksumAddress addr).set (i + 2) c') = false) := by
  have hs : toChecksumAddress addr =
      '0' :: 'x' :: eip55Map (Keccak256 ((hexEncode addr).map Char.toNat)) 0 (hexEncode addr) :=
    rfl
  have hxlen : (hexEncode addr).length = 40 := by rw [hexEncode_length, h20]
  have hmemx : ∀ c ∈ hexEncode addr, ∃ v, v < 16 ∧ c = hexDigit v := mem_hexEncode addr hlt
  have hclen : (eip55Map (Keccak256 ((hexEncode addr).map Char.toNat)) 0 (hexEncode addr)).length
      = 40 := by rw [eip55Map_length, hxlen]
  have hhex : ∀ c ∈ eip55Map (Keccak256 ((hexEncode addr).map Char.toNat)) 0 (hexEncode addr),
      isHexDigitGo c = true :=
    eip55Map_hex (Keccak256 ((hexEncode addr).map Char.toNat)) (hexEncode addr) 0 hmemx
  have hlow : (eip55Map (Keccak256 ((hexEncode addr).map Char.toNat)) 0 (hexEncode addr)).map
      goToLower = hexEncode addr :=
    eip55Map_toLower (Keccak256 ((hexEncode addr).map Char.toNat)) (hexEncode addr) 0 hmemx
  have hdecode : hexDecode ((eip55Map (Keccak256 ((hexEncode addr).map Char.toNat)) 0
      (hexEncode addr)).map goToLower) = addr := by
    rw [hlow]
    exact hexDecode_encode addr hlt
  have hdrop : (toChecksumAddress addr).drop 2 =
      eip55Map (Keccak256 ((hexEncode addr).map Char.toNat)) 0 (hexEncode addr) := by
    rw [hs]
    rfl
  have hlen42 : (toChecksumAddress addr).length = 42 := by
    rw [hs, List.length_cons, List.length_cons, hclen]
  have hval : EthValidate (toChecksumAddress addr) = true := by
    rw [EthValidate, hdrop]
    have h1 : startsWith0xLower (toChecksumAddress addr) = true := by rw [hs]; rfl
    have h3 : hexDecOK (eip55Map (Keccak256 ((hexEncode addr).map Char.toNat)) 0
        (hexEncode addr)) = true := by
      rw [hexDecOK, hclen]
      simp only [Bool.and_eq_true, List.all_eq_true]
      exact ⟨rfl, fun c hc => hhex c hc⟩
    rw [h1, hlen42, h3]
    simp
  refine ⟨hlen42, by rw [hs]; rfl, by rw [hs]; rfl, ?_, ?_, ?_, ?_, ?_⟩
  · rw [hdrop]
    exact hhex
  · intro i hi
    have hnibz : (0 : Nat) + i = i := Nat.zero_add i
    have hgi := eip55Map_getD (Keccak256 ((hexEncode addr).map Char.toNat)) (hexEncode addr)
      0 i (by omega)
    rw [hnibz] at hgi
    rw [hdrop, hgi]
    obtain ⟨v, hv, hcx⟩ := getD_mem (hexEncode addr) i '0' (by omega) |> hmemx _
    rw [hcx]
    by_cases hcl : 'a' ≤ hexDigit v ∧ hexDigit v ≤ 'f'
    · by_cases hn : 8 ≤ ethNibble (Keccak256 ((hexEncode addr).map Char.toNat)) i
      · rw [if_pos hcl, if_pos hn]
        constructor
        · intro hcon
          exact ⟨hcl.1, hcl.2, hn⟩
        · intro hcon
          exact (hexDigit_upper_facts v hv ((hexDigit_letter_iff v hv).mp hcl)).2.2
      · rw [if_pos hcl, if_neg hn]
        constructor
        · intro hcon
          exact absurd hcon (hexDigit_not_upper v hv)
        · intro hcon
          exact absurd hcon.2.2 hn
    · rw [if_neg hcl]
      constructor
      · intro hcon
        exact absurd hcon (hexDigit_not_upper v hv)
      · intro hcon
        exact absurd ⟨hcon.1, hcon.2.1⟩ hcl
  · intro pk h64 hdropk
    rw [EthGenerate, if_pos h64, hdropk]
  · rw [EthValidateChecksum, if_neg (fun hcon => hcon hval), hdrop, hdecode]
    exact beq_self_eq_true _
  · intro i c' hi hflip
    rw [hdrop] at hflip
    obtain ⟨hne', hlowflip, hhexflip⟩ := flipHexCase_facts _ _ hflip
    have hset : (toChecksumAddress addr).set (i + 2) c' =
        '0' :: 'x' :: (eip55Map (Keccak256 ((hexEncode addr).map Char.toNat)) 0
          (hexEncode addr)).set i c' := by
      rw [hs]
      rfl
    rw [hset]
    by_cases hv' : EthValidate ('0' :: 'x' :: (eip55Map (Keccak256
        ((hexEncode addr).map Char.toNat)) 0 (hexEncode addr)).set i c') = true
    · rw [EthValidateChecksum, if_neg (fun hcon => hcon hv')]
      have hdrop2 : ('0' :: 'x' :: (eip55Map (Keccak256 ((hexEncode addr).map Char.toNat)) 0
          (hexEncode addr)).set i c').drop 2 =
          (eip55Map (Keccak256 ((hexEncode addr).map Char.toNat)) 0 (hexEncode addr)).set i c' :=
        rfl
      have hmapset : ((eip55Map (Keccak256 ((hexEncode addr).map Char.toNat)) 0
          (hexEncode addr)).set i c').map goToLower = hexEncode addr := by
        rw [map_set_comm, hlow, hlowflip]
        have hgl : goToLower ((eip55Map (Keccak256 ((hexEncode addr).map Char.toNat)) 0
            (hexEncode addr)).getD i '0') = (hexEncode addr).getD i '0' := by
          have hmg := getD_map_inbounds goToLower
            (eip55Map (Keccak256 ((hexEncode addr).map Char.toNat)) 0 (hexEncode addr))
            i '0' '0' (by omega)
          rw [hlow] at hmg
          exact hmg.symm
        rw [hgl]
        exact set_getD_self (hexEncode addr) i '0' (by omega)
      rw [hdrop2, hmapset, hexDecode_encode addr hlt]
      have hne2 : ('0' :: 'x' :: (eip55Map (Keccak256 ((hexEncode addr).map Char.toNat)) 0
          (hexEncode addr)).set i c') ≠ toChecksumAddress addr := by
        rw [hs]
        intro hcon
        injection hcon with hc1 hcon
        injection hcon with hc2 hcon
        have hgetne : c' ≠ (eip55Map (Keccak256 ((hexEncode addr).map Char.toNat)) 0
            (hexEncode addr)).getD i c' := by
          rw [getD_inbounds_eq _ i c' '0' (by omega)]
          exact hne'
        exact set_ne_self _ i c' (by omega) hgetne hcon
      exact beq_eq_false_iff_ne.mpr hne2
    · rw [EthValidateChecksum, if_pos hv']

theorem C8_eip55_emit_validate_flip_witness :
    (addrC8.length = 20 ∧ ∀ b ∈ addrC8, b < 256) ∧
    ((toChecksumAddress addrC8).length = 42 ∧
     EthValidateChecksum (toChecksumAddress addrC8) = true) :=
  ⟨⟨by decide, by decide⟩,
   (C8_eip55_emit_validate_flip addrC8 (by decide) (by decide)).1,
   (C8_eip55_emit_validate_flip addrC8 (by decide) (by decide)).2.2.2.2.2.2.1⟩


/-! ## C9: registered validators on the string "invalid" -/

/-- C9 (amended): every registered address codec other than NEAR returns
`false` from `Validate` on the string `"invalid"`; each validator is a total
Boolean function of the address string, so no panic or error escapes. -/
theorem C9_validate_invalid (i : Nat) (hi : i < registeredValidators.length)
    (hne : (registeredValidators.getD i defaultValidator).1 ≠ ("near").toList) :
    (registeredValidators.getD i defaultValidator).2 (("invalid").toList) = false := by
  revert hne
  revert hi
  revert i
  decide

theorem C9_validate_invalid_witness :
    0 < registeredValidators.length ∧
    (registeredValidators.getD 0 defaultValidator).1 ≠ ("near").toList ∧
    (registeredValidators.getD 0 defaultValidator).2 (("invalid").toList) = false :=
  ⟨by decide, by decide, C9_validate_invalid 0 (by decide) (by decide)⟩

/-- C9 counterexample: the registered NEAR codec accepts the string
`"invalid"`: seven lowercase letters form a well-formed named account under
`ValidateNamed`, so `Validate` returns `true`, refuting the claim that every
registered codec returns false on it. -/
theorem C9_counterexample :
    (registeredValidators.getD 22 defaultValidator).1 = ("near").toList ∧
    (registeredValidators.getD 22 defaultValidator).2 (("invalid").toList) = true :=
  ⟨by decide, by decide⟩
